import Mathlib

/-!
# crt: terminal fitting and transparency compositing

A shallow embedding of `main.go` of the `crt` image viewer: the terminal query
`getTerminalSize`, the two fit computations (`renderSixel`, `renderBlock`), the
centering arithmetic, the alpha compositor `handleTransparency`, and the cell
output of `renderBlock`.

Go `int` values are modelled by `ℤ`, Go `float64` values by the rationals they
denote, every floating-point operation being the exact operation followed by
rounding to the nearest 53-bit significand, ties to even (`f64`). The 64-bit
range of `int` enters in three places: the conversion to `uint` (`toUint`), the
wrap-around of the centering subtraction (`wrapInt`), and the conversions
`int(x)`, whose result Go fixes only while the truncated value fits `int`
(`fitsInt`); the theorems on the fitted size show that it does for image sides
of at most `2^32`.
-/

namespace Crt

/-! ## float64 arithmetic -/

/-- Nearest integer to `q`, ties going to the even neighbour. -/
def roundHalfEven (q : ℚ) : ℤ :=
  let f := ⌊q⌋
  let r := q - f
  if r < 1 / 2 then f
  else if 1 / 2 < r then f + 1
  else if f % 2 = 0 then f else f + 1

/-- Rounding of an exact value to `float64`: the nearest number with a 53-bit
significand, ties to even. The exponent range of binary64 is not modelled: with
`int` image sides and `uint16` terminal sizes every value formed in this program
is zero or has magnitude between `2^-64` and `2^83`, far inside the normal
range `[2^-1022, 2^1024)`. -/
def f64 (x : ℚ) : ℚ :=
  if x = 0 then 0
  else
    let e := Int.log 2 |x|
    (roundHalfEven (x / (2 : ℚ) ^ (e - 52)) : ℚ) * (2 : ℚ) ^ (e - 52)

/-- Conversion `float64(n)` of a Go `int`. -/
def ofInt (n : ℤ) : ℚ := f64 (n : ℚ)

/-- Go `x * y` on `float64`. -/
def fmul (x y : ℚ) : ℚ := f64 (x * y)

/-- Go `x / y` on `float64` (the divisor is never zero in this program when the
image sides are positive). -/
def fdiv (x y : ℚ) : ℚ := f64 (x / y)

/-- Go `x + y` on `float64`. -/
def fadd (x y : ℚ) : ℚ := f64 (x + y)

/-- Go `x - y` on `float64`. -/
def fsub (x y : ℚ) : ℚ := f64 (x - y)

/-- Conversion `int(x)` of a `float64`: the fraction is discarded (truncation
towards zero). Go fixes the result only when the truncated value fits the
integer type (`fitsInt` below); outside that range the result depends on the
implementation and `f2i`, which continues with the mathematical truncation, is
not the value the program computes. Theorems that rest on the converted value
are stated where `fitsInt` holds. -/
def f2i (x : ℚ) : ℤ := if 0 ≤ x then ⌊x⌋ else ⌈x⌉

/-- Conversion `uint(n)` of a Go `int` on a 64-bit platform. -/
def toUint (n : ℤ) : ℕ := (n % 2 ^ 64).toNat

/-- The Go `int` that holds an arithmetic result `n` on a 64-bit platform:
signed overflow wraps around modulo `2^64` into `[-2^63, 2^63)`. -/
def wrapInt (n : ℤ) : ℤ := (n + 2 ^ 63) % 2 ^ 64 - 2 ^ 63

/-! ## Fit computation -/

/-- The aspect ratio `float64(imgWidth) / float64(imgHeight)` computed at the
top of both renderers. -/
def imgAspect (imgWidth imgHeight : ℤ) : ℚ :=
  fdiv (ofInt imgWidth) (ofInt imgHeight)

/-- The fit of `renderSixel` before the non-zero clamp: fit by width, then by
height when the height overflows. Returns `(targetWidth, targetHeight)`. -/
def sixelFitRaw (termWidth termHeight imgWidth imgHeight : ℤ) : ℤ × ℤ :=
  let imgAspect := imgAspect imgWidth imgHeight
  let charPixelWidth : ℤ := 8
  let charPixelHeight : ℤ := 6
  let maxPixelWidth := (termWidth - 1) * charPixelWidth
  let maxPixelHeight := (termHeight - 4) * charPixelHeight
  let targetWidth := maxPixelWidth
  let targetHeight := f2i (fdiv (ofInt targetWidth) imgAspect)
  if targetHeight > maxPixelHeight then
    (f2i (fmul (ofInt maxPixelHeight) imgAspect), maxPixelHeight)
  else
    (targetWidth, targetHeight)

/-- The fit of `renderSixel`: `sixelFitRaw` followed by the two
"ensure non-zero dimensions" clamps. Returns `(targetWidth, targetHeight)`. -/
def sixelFit (termWidth termHeight imgWidth imgHeight : ℤ) : ℤ × ℤ :=
  let p := sixelFitRaw termWidth termHeight imgWidth imgHeight
  let targetWidth := if p.1 < 1 then 1 else p.1
  let targetHeight := if p.2 < 1 then 1 else p.2
  (targetWidth, targetHeight)

/-- The arguments `renderSixel` hands to `resize.Resize`. -/
def sixelResizeArgs (termWidth termHeight imgWidth imgHeight : ℤ) : ℕ × ℕ :=
  let p := sixelFit termWidth termHeight imgWidth imgHeight
  (toUint p.1, toUint p.2)

/-- The number of columns `renderSixel` moves the cursor right before the
image: `leftPadding` when centering is on and it is positive, otherwise no
sequence is written and the count is `0`. -/
def sixelPadding (center : Bool) (termWidth targetWidth : ℤ) : ℤ :=
  if center then
    let charPixelWidth : ℤ := 8
    let actualCharWidth := Int.tdiv (targetWidth + charPixelWidth - 1) charPixelWidth
    let leftPadding := Int.tdiv (termWidth - actualCharWidth) 2
    if leftPadding > 0 then leftPadding else 0
  else 0

/-- The fit of `renderBlock`, in character cells: fit by width, then by height
when the height overflows. Returns `(charWidth, charHeight)`. -/
def blockFit (termWidth termHeight imgWidth imgHeight : ℤ) : ℤ × ℤ :=
  let imgAspect := imgAspect imgWidth imgHeight
  let maxCharWidth := termWidth - 1
  let maxCharHeight := termHeight - 2
  let charWidth := maxCharWidth
  let charHeight := f2i (fdiv (ofInt charWidth) (fmul imgAspect 2))
  if charHeight > maxCharHeight then
    (f2i (fmul (fmul (ofInt maxCharHeight) imgAspect) 2), maxCharHeight)
  else
    (charWidth, charHeight)

/-- The pixel size `(pixelWidth, pixelHeight)` of `renderBlock`. -/
def blockPixels (termWidth termHeight imgWidth imgHeight : ℤ) : ℤ × ℤ :=
  let p := blockFit termWidth termHeight imgWidth imgHeight
  (p.1, p.2 * 2)

/-- The arguments `renderBlock` hands to `resize.Resize`. -/
def blockResizeArgs (termWidth termHeight imgWidth imgHeight : ℤ) : ℕ × ℕ :=
  let p := blockPixels termWidth termHeight imgWidth imgHeight
  (toUint p.1, toUint p.2)

/-- The `leftPadding` of `renderBlock`. The subtraction `termWidth - charWidth`
can leave `int` while every conversion is inside it (a refit can give
`charWidth = -2^63`), so its wrap-around is part of the model. -/
def blockPadding (center : Bool) (termWidth charWidth : ℤ) : ℤ :=
  if center then
    let leftPadding := Int.tdiv (wrapInt (termWidth - charWidth)) 2
    if leftPadding < 0 then 0 else leftPadding
  else 0

/-! ## Range of the integer conversions -/

/-- The integer `n` is a value of Go's 64-bit `int`. -/
def inInt (n : ℤ) : Prop := -2 ^ 63 ≤ n ∧ n < 2 ^ 63

instance (n : ℤ) : Decidable (inInt n) := by
  unfold inInt
  exact inferInstance

/-- The truncation of `x` is a value of `int`: the condition under which Go
fixes the result of the conversion `int(x)`, and under which `f2i x` is that
result. -/
def fitsInt (x : ℚ) : Prop := inInt (f2i x)

/-- Both conversions `int(...)` in the fit of `renderSixel` (lines 114 and 119)
have their truncation inside `int`, so that `sixelFit` is the pair the code
computes. -/
def sixelFitInRange (termWidth termHeight imgWidth imgHeight : ℤ) : Prop :=
  fitsInt (fdiv (ofInt ((termWidth - 1) * 8)) (imgAspect imgWidth imgHeight))
    ∧ fitsInt (fmul (ofInt ((termHeight - 4) * 6)) (imgAspect imgWidth imgHeight))

/-- Both conversions `int(...)` in the fit of `renderBlock` (lines 235 and 240)
have their truncation inside `int`, and neither `charHeight * 2` (line 254) nor
`termWidth - charWidth` (line 246) leaves `int`: under this condition `blockFit`
and `blockPixels` give the values the code computes, and the subtraction in
`blockPadding` does not wrap. -/
def blockFitInRange (termWidth termHeight imgWidth imgHeight : ℤ) : Prop :=
  fitsInt (fdiv (ofInt (termWidth - 1)) (fmul (imgAspect imgWidth imgHeight) 2))
    ∧ fitsInt (fmul (fmul (ofInt (termHeight - 2)) (imgAspect imgWidth imgHeight)) 2)
    ∧ inInt (blockFit termWidth termHeight imgWidth imgHeight).1
    ∧ inInt ((blockFit termWidth termHeight imgWidth imgHeight).2 * 2)
    ∧ inInt (termWidth - (blockFit termWidth termHeight imgWidth imgHeight).1)

/-! ## Images and the alpha compositor -/

/-- A colour as read through `color.Color.RGBA()`: four `uint32` channels, each
in `[0, 0xffff]` for a well-formed colour. -/
structure Color16 where
  r : ℕ
  g : ℕ
  b : ℕ
  a : ℕ
  deriving DecidableEq, Repr

/-- The 8-bit colour `color.RGBA`. -/
structure RGBA8 where
  R : ℕ
  G : ℕ
  B : ℕ
  A : ℕ
  deriving DecidableEq, Repr

/-- The method `color.RGBA.RGBA()`: each byte `v` widens to `v | v << 8`. -/
def RGBA8.RGBA (c : RGBA8) : Color16 :=
  ⟨c.R ||| (c.R <<< 8), c.G ||| (c.G <<< 8), c.B ||| (c.B <<< 8), c.A ||| (c.A <<< 8)⟩

/-- An `image.Rectangle`, `Min` inclusive and `Max` exclusive. -/
structure Rectangle where
  minX : ℤ
  minY : ℤ
  maxX : ℤ
  maxY : ℤ
  deriving DecidableEq, Repr

/-- The test `Point{x, y}.In(r)`. -/
def Rectangle.In (r : Rectangle) (x y : ℤ) : Prop :=
  r.minX ≤ x ∧ x < r.maxX ∧ r.minY ≤ y ∧ y < r.maxY

instance (r : Rectangle) (x y : ℤ) : Decidable (r.In x y) := by
  unfold Rectangle.In
  infer_instance

/-- An `image.Image` as this program uses it: `Bounds()` and `At(x, y).RGBA()`. -/
structure Image where
  bounds : Rectangle
  At : ℤ → ℤ → Color16

/-- An `*image.RGBA`: its rectangle and the 8-bit pixel stored at each point. -/
structure RGBAImage where
  rect : Rectangle
  pix : ℤ → ℤ → RGBA8

/-- The constructor `image.NewRGBA(r)`: every byte of the buffer is zero. -/
def NewRGBA (r : Rectangle) : RGBAImage := ⟨r, fun _ _ => ⟨0, 0, 0, 0⟩⟩

/-- The method `SetRGBA`: a point outside the rectangle is ignored. -/
def RGBAImage.SetRGBA (p : RGBAImage) (x y : ℤ) (c : RGBA8) : RGBAImage :=
  if p.rect.In x y then
    ⟨p.rect, fun x' y' => if x' = x ∧ y' = y then c else p.pix x' y'⟩
  else p

/-- The method `At` of `*image.RGBA` followed by `RGBA()`: the stored pixel, or
the zero colour outside the rectangle. -/
def RGBAImage.At (p : RGBAImage) (x y : ℤ) : Color16 :=
  if p.rect.In x y then (p.pix x y).RGBA else (⟨0, 0, 0, 0⟩ : RGBA8).RGBA

/-- An `*image.RGBA` seen through the `image.Image` interface. -/
def RGBAImage.toImage (p : RGBAImage) : Image := ⟨p.rect, p.At⟩

/-- The values `lo, lo + 1, ..., hi - 1` taken by a loop `for i := lo; i < hi; i++`. -/
def intRange (lo hi : ℤ) : List ℤ :=
  (List.range (hi - lo).toNat).map (fun (i : ℕ) => lo + (i : ℤ))

/-- Conversion `uint8(x)` of a `float64` (the value lies in `[0, 256)` wherever
this program converts). -/
def toUint8 (x : ℚ) : ℕ := (f2i x % 256).toNat

/-- Conversion `float64(n)` of a `uint32` or `uint8`. -/
def ofNat (n : ℕ) : ℚ := f64 (n : ℚ)

/-- The first loop nest of `handleTransparency`: sets `hasAlpha` at the first pixel
with alpha below 65535; both loop conditions stop once it is set. -/
def scanAlpha (img : Image) : Bool :=
  (intRange img.bounds.minY img.bounds.maxY).foldl
    (fun hasAlpha y =>
      if hasAlpha then hasAlpha
      else
        (intRange img.bounds.minX img.bounds.maxX).foldl
          (fun hasAlpha x =>
            if hasAlpha then hasAlpha else decide ((img.At x y).a < 65535))
          hasAlpha)
    false

/-- One blended channel of the semi-transparent branch:
`uint8(float64(c>>8)*alpha + float64(bg)*(1-alpha))`, every operation rounded on
its own. -/
def blendChannel (c bg : ℕ) (alpha : ℚ) : ℕ :=
  toUint8 (fadd (fmul (ofNat (c >>> 8)) alpha) (fmul (ofNat bg) (fsub 1 alpha)))

/-- The body of the second loop nest of `handleTransparency`: the colour written
for a source pixel read as `c`. -/
def compositePixel (c : Color16) : RGBA8 :=
  let bgR := 0
  let bgG := 0
  let bgB := 0
  if c.a = 0 then ⟨bgR, bgG, bgB, 255⟩
  else if c.a < 65535 then
    let alpha := fdiv (ofNat c.a) 65535
    ⟨blendChannel c.r bgR alpha, blendChannel c.g bgG alpha, blendChannel c.b bgB alpha, 255⟩
  else ⟨(c.r >>> 8) % 256, (c.g >>> 8) % 256, (c.b >>> 8) % 256, 255⟩

/-- The second loop nest of `handleTransparency`: every point of the bounds, row
by row, is written into `newImg`. -/
def compositeAll (img : Image) (newImg : RGBAImage) : RGBAImage :=
  (intRange img.bounds.minY img.bounds.maxY).foldl
    (fun acc y =>
      (intRange img.bounds.minX img.bounds.maxX).foldl
        (fun acc x => acc.SetRGBA x y (compositePixel (img.At x y)))
        acc)
    newImg

/-- The function `handleTransparency`: the input itself when no pixel has alpha
below 65535, otherwise the freshly built opaque image. -/
def handleTransparency (img : Image) : Image :=
  let bounds := img.bounds
  let newImg := NewRGBA bounds
  if !scanAlpha img then img
  else (compositeAll img newImg).toImage

/-! ## Terminal geometry -/

/-- The struct `winsize` filled in by the `TIOCGWINSZ` query; every field is a
`uint16`. -/
structure winsize where
  Row : ℕ
  Col : ℕ
  Xpixel : ℕ
  Ypixel : ℕ
  deriving DecidableEq, Repr

/-- Conversion `int(v)` of a `uintptr` on a 64-bit platform. -/
def uintptrToInt (v : ℕ) : ℤ :=
  if v % 2 ^ 64 < 2 ^ 63 then ((v % 2 ^ 64 : ℕ) : ℤ) else ((v % 2 ^ 64 : ℕ) : ℤ) - 2 ^ 64

/-- Conversion `int(v)` of a `uint16`. -/
def uint16ToInt (v : ℕ) : ℤ := ((v % 65536 : ℕ) : ℤ)

/-- The function `getTerminalSize`; the outcome of the system call (its first
return value and the `winsize` it filled in) is taken as an argument. Returns
`(columns, rows)`. -/
def getTerminalSize (retCode : ℕ) (ws : winsize) : ℤ × ℤ :=
  if uintptrToInt retCode = -1 then (80, 24)
  else (uint16ToInt ws.Col, uint16ToInt ws.Row)

/-! ## Block renderer -/

/-- Conversion `uint8(v >> 8)` of a `uint32` channel. -/
def toByte (v : ℕ) : ℕ := (v >>> 8) % 256

/-- The text written for one character cell by the body of the column loop of
`renderBlock`, from the top and bottom pixels as read through `RGBA()`. -/
def renderCell (top bottom : Color16) : String :=
  let tr := toByte top.r
  let tg := toByte top.g
  let tb := toByte top.b
  let ta := toByte top.a
  let br := toByte bottom.r
  let bg := toByte bottom.g
  let bb := toByte bottom.b
  let ba := toByte bottom.a
  if ta = 0 ∧ ba = 0 then " "
  else if ta = 0 then
    "\x1b[48;2;" ++ toString br ++ ";" ++ toString bg ++ ";" ++ toString bb ++ "m \x1b[0m"
  else if ba = 0 then
    "\x1b[38;2;" ++ toString tr ++ ";" ++ toString tg ++ ";" ++ toString tb ++ "m▀\x1b[0m"
  else
    "\x1b[38;2;" ++ toString tr ++ ";" ++ toString tg ++ ";" ++ toString tb ++ "m"
      ++ "\x1b[48;2;" ++ toString br ++ ";" ++ toString bg ++ ";" ++ toString bb
      ++ "m▀\x1b[0m"

/-- The rendering loops of `renderBlock`. The output is the list of the texts
written, one entry per `fmt.Print`, `fmt.Printf` or `fmt.Println` call, in
order. -/
def renderBlockLoop (resized : Image) (charWidth charHeight leftPadding : ℤ) :
    List String :=
  (intRange 0 charHeight).foldl
    (fun out row =>
      let out :=
        if leftPadding > 0 then
          (intRange 0 leftPadding).foldl (fun out _ => out ++ [" "]) out
        else out
      let out :=
        (intRange 0 charWidth).foldl
          (fun out col =>
            let topY := row * 2
            let bottomY := row * 2 + 1
            out ++ [renderCell (resized.At col topY) (resized.At col bottomY)])
          out
      out ++ ["\n"])
    []

/-- The function `renderBlock`. The terminal size read at its start and the
resampler `resize.Resize(width, height, img, resize.Lanczos3)` of the external
library are taken as arguments. -/
def renderBlock (termWidth termHeight : ℤ) (resize : ℕ → ℕ → Image → Image)
    (img : Image) (center : Bool) : List String :=
  let bounds := img.bounds
  let imgWidth := bounds.maxX - bounds.minX
  let imgHeight := bounds.maxY - bounds.minY
  let fit := blockFit termWidth termHeight imgWidth imgHeight
  let charWidth := fit.1
  let charHeight := fit.2
  let leftPadding := blockPadding center termWidth charWidth
  let pixelWidth := charWidth
  let pixelHeight := charHeight * 2
  let resized := resize (toUint pixelWidth) (toUint pixelHeight) img
  renderBlockLoop resized charWidth charHeight leftPadding

/-- The rows of cells that section 4.4 of the specification describes: for each
output row `r` in `[0, charHeight)` and each column `c` in `[0, charWidth)`, the
cell of the top pixel `(c, 2r)` and the bottom pixel `(c, 2r + 1)`. -/
def specBlockRows (resized : Image) (charWidth charHeight : ℤ) : List (List String) :=
  (intRange 0 charHeight).map (fun row =>
    (intRange 0 charWidth).map (fun col =>
      renderCell (resized.At col (row * 2)) (resized.At col (row * 2 + 1))))

/-- The output that section 4.4 of the specification describes: every row is
`leftPadding` plain spaces, then its cells, then a newline. -/
def specBlockOutput (resized : Image) (charWidth charHeight leftPadding : ℤ) :
    List String :=
  (specBlockRows resized charWidth charHeight).flatMap (fun cells =>
    List.replicate leftPadding.toNat " " ++ cells ++ ["\n"])

/-- Whether the terminal shows its default colours after a written text, given
whether it did before: a text without an escape character changes nothing;
otherwise the last escape sequence of the text decides, and the colours are the
default ones exactly when it is the reset `ESC[0m` with nothing but
uncoloured text after it. -/
def defaultColoursAfter (before : Bool) (text : String) : Bool :=
  if '\x1b' ∈ text.toList then
    ((text.toList.reverse.takeWhile (fun ch => ch ≠ '\x1b')).reverse.take 3 == ['[', '0', 'm'])
  else before

/-! ## Error-analysis vocabulary -/

/-- Unit roundoff of `float64`. -/
def eps : ℚ := 1 / 2 ^ 53

/-- The value `y` approximates `x` with relative error at most `k` unit roundoffs. -/
def Near (k y x : ℚ) : Prop := |y - x| ≤ k * eps * |x|

/-! ## Rounding lemmas -/

theorem roundHalfEven_err (q : ℚ) : |(roundHalfEven q : ℚ) - q| ≤ 1 / 2 := by
  have h1 := Int.floor_le q
  have h2 := Int.lt_floor_add_one q
  unfold roundHalfEven
  simp only
  rw [abs_le]
  split_ifs <;> constructor <;> push_cast <;> linarith

theorem roundHalfEven_intCast (n : ℤ) : roundHalfEven (n : ℚ) = n := by
  unfold roundHalfEven
  simp

theorem roundHalfEven_eq_of_near {q : ℚ} {n : ℤ} (h : |q - n| < 1 / 2) :
    roundHalfEven q = n := by
  rw [abs_lt] at h
  obtain ⟨h1, h2⟩ := h
  unfold roundHalfEven
  simp only
  rcases le_or_lt (n : ℚ) q with hq | hq
  · have hf : ⌊q⌋ = n := by
      rw [Int.floor_eq_iff]
      constructor <;> linarith
    rw [hf, if_pos (by linarith)]
  · have hf : ⌊q⌋ = n - 1 := by
      rw [Int.floor_eq_iff]
      push_cast
      constructor <;> linarith
    rw [hf]
    push_cast
    rw [if_neg (by linarith), if_pos (by linarith)]
    ring

theorem f64_zero : f64 0 = 0 := by
  simp [f64]

theorem f64_err (x : ℚ) : |f64 x - x| ≤ |x| / 2 ^ 53 := by
  by_cases hx : x = 0
  · subst hx
    simp [f64]
  · have hpos : 0 < |x| := abs_pos.mpr hx
    have hlog : (2 : ℚ) ^ Int.log 2 |x| ≤ |x| := by
      have := Int.zpow_log_le_self (R := ℚ) (b := 2) (r := |x|) (by norm_num) hpos
      simpa using this
    have hQ : (0 : ℚ) < 2 ^ (Int.log 2 |x| - 52) := by positivity
    have hsplit : (2 : ℚ) ^ Int.log 2 |x| = 2 ^ (Int.log 2 |x| - 52) * 2 ^ 52 := by
      rw [zpow_sub₀ (by norm_num : (2 : ℚ) ≠ 0)]
      have : ((2 : ℚ) ^ (52 : ℤ)) = 2 ^ 52 := by norm_cast
      rw [this]
      field_simp
    have herr := roundHalfEven_err (x / 2 ^ (Int.log 2 |x| - 52))
    have heq : f64 x - x
        = ((roundHalfEven (x / 2 ^ (Int.log 2 |x| - 52)) : ℚ)
            - x / 2 ^ (Int.log 2 |x| - 52)) * 2 ^ (Int.log 2 |x| - 52) := by
      simp only [f64, if_neg hx]
      field_simp
    rw [heq, abs_mul, abs_of_pos hQ]
    have h3 : |((roundHalfEven (x / 2 ^ (Int.log 2 |x| - 52)) : ℚ)
            - x / 2 ^ (Int.log 2 |x| - 52))| * 2 ^ (Int.log 2 |x| - 52)
          ≤ 1 / 2 * 2 ^ (Int.log 2 |x| - 52) :=
      mul_le_mul_of_nonneg_right herr hQ.le
    have h4 : (1 : ℚ) / 2 * 2 ^ (Int.log 2 |x| - 52) ≤ |x| / 2 ^ 53 := by
      rw [le_div_iff₀ (by positivity)]
      nlinarith
    exact h3.trans h4

theorem f64_eq_of (x : ℚ) (e n : ℤ) (h1 : (2 : ℚ) ^ e ≤ |x|) (h2 : |x| < (2 : ℚ) ^ (e + 1))
    (h3 : |x / (2 : ℚ) ^ (e - 52) - n| < 1 / 2) : f64 x = n * (2 : ℚ) ^ (e - 52) := by
  have hpos : 0 < |x| := lt_of_lt_of_le (by positivity) h1
  have hx : x ≠ 0 := abs_pos.mp hpos
  have hlog : Int.log 2 |x| = e := by
    apply le_antisymm
    · have := (Int.lt_zpow_iff_log_lt (R := ℚ) (b := 2) (by norm_num) hpos (x := e + 1)).mp
        (by simpa using h2)
      omega
    · exact (Int.zpow_le_iff_le_log (R := ℚ) (b := 2) (by norm_num) hpos).mp (by simpa using h1)
  simp only [f64, if_neg hx, hlog]
  rw [roundHalfEven_eq_of_near h3]

theorem f64_eq_of_round (x : ℚ) (e n : ℤ) (h1 : (2 : ℚ) ^ e ≤ |x|)
    (h2 : |x| < (2 : ℚ) ^ (e + 1)) (h3 : roundHalfEven (x / (2 : ℚ) ^ (e - 52)) = n) :
    f64 x = n * (2 : ℚ) ^ (e - 52) := by
  have hpos : 0 < |x| := lt_of_lt_of_le (by positivity) h1
  have hx : x ≠ 0 := abs_pos.mp hpos
  have hlog : Int.log 2 |x| = e := by
    apply le_antisymm
    · have := (Int.lt_zpow_iff_log_lt (R := ℚ) (b := 2) (by norm_num) hpos (x := e + 1)).mp
        (by simpa using h2)
      omega
    · exact (Int.zpow_le_iff_le_log (R := ℚ) (b := 2) (by norm_num) hpos).mp (by simpa using h1)
  simp only [f64, if_neg hx, hlog, h3]

/-- Sanity check of the rounding model: `0.1` is the binary64 value
`0x1.999999999999ap-4`. -/
theorem f64_one_tenth : f64 (1 / 10) = 7205759403792794 / 2 ^ 56 := by
  rw [f64_eq_of (1 / 10) (-4) 7205759403792794 (by norm_num [abs_of_pos])
    (by norm_num [abs_of_pos]) (by norm_num [abs_of_pos])]
  norm_num

/-- Sanity check of the rounding model: the tie `2^53 + 1` goes to the even
significand, `2^53`, and the tie `2^53 + 3` to `2^53 + 4`. -/
theorem f64_ties_to_even :
    f64 (2 ^ 53 + 1) = 2 ^ 53 ∧ f64 (2 ^ 53 + 3) = 2 ^ 53 + 4 := by
  constructor
  · rw [f64_eq_of_round (2 ^ 53 + 1) 53 (2 ^ 52) (by norm_num [abs_of_pos])
      (by norm_num [abs_of_pos])
      (by
        have hf : ⌊((2 : ℚ) ^ 53 + 1) / 2 ^ ((53 : ℤ) - 52)⌋ = 2 ^ 52 := by
          rw [Int.floor_eq_iff]
          norm_num
        unfold roundHalfEven
        simp only [hf]
        norm_num)]
    norm_num
  · rw [f64_eq_of_round (2 ^ 53 + 3) 53 (2 ^ 52 + 2) (by norm_num [abs_of_pos])
      (by norm_num [abs_of_pos])
      (by
        have hf : ⌊((2 : ℚ) ^ 53 + 3) / 2 ^ ((53 : ℤ) - 52)⌋ = 2 ^ 52 + 1 := by
          rw [Int.floor_eq_iff]
          norm_num
        unfold roundHalfEven
        simp only [hf]
        norm_num)]
    norm_num

theorem f64_of_intCast_quot (x : ℚ) (k : ℤ)
    (hk : x / (2 : ℚ) ^ (Int.log 2 |x| - 52) = k) : f64 x = x := by
  by_cases hx : x = 0
  · subst hx; exact f64_zero
  · simp only [f64, if_neg hx, hk, roundHalfEven_intCast]
    rw [← hk]
    field_simp

theorem f64_intCast (n : ℤ) (h : |n| < 2 ^ 53) : f64 (n : ℚ) = n := by
  by_cases hn : n = 0
  · subst hn; simpa using f64_zero
  · have hq : (n : ℚ) ≠ 0 := by exact_mod_cast hn
    have hpos : 0 < |(n : ℚ)| := abs_pos.mpr hq
    have h1 : (1 : ℚ) ≤ |(n : ℚ)| := by
      have : (1 : ℤ) ≤ |n| := Int.one_le_abs hn
      exact_mod_cast this
    have hlo : 0 ≤ Int.log 2 |(n : ℚ)| := by
      have := (Int.zpow_le_iff_le_log (R := ℚ) (b := 2) (by norm_num) hpos (x := 0)).mp
        (by simpa using h1)
      exact this
    have hhi : Int.log 2 |(n : ℚ)| < 53 := by
      apply (Int.lt_zpow_iff_log_lt (R := ℚ) (b := 2) (by norm_num) hpos (x := 53)).mp
      have h53 : |(n : ℚ)| < 2 ^ 53 := by exact_mod_cast h
      have hz : ((2 : ℕ) : ℚ) ^ (53 : ℤ) = 2 ^ 53 := by norm_num
      rw [hz]
      exact h53
    obtain ⟨d, hd⟩ : ∃ d : ℕ, Int.log 2 |(n : ℚ)| - 52 = -(d : ℤ) :=
      ⟨(52 - Int.log 2 |(n : ℚ)|).toNat, by omega⟩
    apply f64_of_intCast_quot _ (n * 2 ^ d)
    rw [hd, zpow_neg, zpow_natCast]
    push_cast
    field_simp


theorem eps_pos : 0 < eps := by unfold eps; positivity

theorem eps_le : eps ≤ 1 / 2 ^ 50 := by unfold eps; norm_num

theorem near_f64 (x : ℚ) : Near 1 (f64 x) x := by
  have h := f64_err x
  unfold Near eps
  calc |f64 x - x| ≤ |x| / 2 ^ 53 := h
    _ = 1 * (1 / 2 ^ 53) * |x| := by ring

theorem Near.bounds {k y x : ℚ} (hx : 0 ≤ x) (h : Near k y x) :
    x * (1 - k * eps) ≤ y ∧ y ≤ x * (1 + k * eps) := by
  unfold Near at h
  rw [abs_of_nonneg hx, abs_le] at h
  constructor <;> linarith [h.1, h.2]

theorem Near.bounds_neg {k y x : ℚ} (hx : x ≤ 0) (h : Near k y x) :
    x * (1 + k * eps) ≤ y ∧ y ≤ x * (1 - k * eps) := by
  unfold Near at h
  rw [abs_of_nonpos hx, abs_le] at h
  constructor <;> linarith [h.1, h.2]

theorem Near.abs_le {k y x : ℚ} (h : Near k y x) : |y| ≤ |x| + k * eps * |x| := by
  unfold Near at h
  have := abs_sub_abs_le_abs_sub y x
  linarith

theorem Near.round {k y x : ℚ} (hk0 : 0 ≤ k) (hk : k ≤ 100) (h : Near k y x) :
    Near (k + 2) (f64 y) x := by
  have h1 := near_f64 y
  have h2 := h.abs_le
  unfold Near at *
  have h3 : |f64 y - x| ≤ |f64 y - y| + |y - x| := abs_sub_le _ _ _
  have he := eps_pos
  have he' := eps_le
  have hx : 0 ≤ |x| := abs_nonneg x
  have hke : k * eps ≤ 1 := by nlinarith
  have h4 : eps * (k * eps * |x|) ≤ eps * |x| := by
    have : k * eps * |x| ≤ 1 * |x| := mul_le_mul_of_nonneg_right hke hx
    nlinarith
  nlinarith

theorem Near.mul {j k y₁ x₁ y₂ x₂ : ℚ} (hj0 : 0 ≤ j) (hj : j ≤ 100) (hk0 : 0 ≤ k)
    (hk : k ≤ 100) (h₁ : Near j y₁ x₁) (h₂ : Near k y₂ x₂) :
    Near (j + k + 1) (y₁ * y₂) (x₁ * x₂) := by
  have hy2 := h₂.abs_le
  unfold Near at *
  have he := eps_pos
  have he' := eps_le
  have hsplit : y₁ * y₂ - x₁ * x₂ = (y₁ - x₁) * y₂ + x₁ * (y₂ - x₂) := by ring
  have hx1 : 0 ≤ |x₁| := abs_nonneg _
  have hx2 : 0 ≤ |x₂| := abs_nonneg _
  have ha : |(y₁ - x₁) * y₂| ≤ j * eps * |x₁| * (|x₂| + k * eps * |x₂|) := by
    rw [abs_mul]
    exact mul_le_mul h₁ hy2 (abs_nonneg _) (by positivity)
  have hb : |x₁ * (y₂ - x₂)| ≤ |x₁| * (k * eps * |x₂|) := by
    rw [abs_mul]
    exact mul_le_mul_of_nonneg_left h₂ hx1
  have hc : |y₁ * y₂ - x₁ * x₂| ≤ |(y₁ - x₁) * y₂| + |x₁ * (y₂ - x₂)| := by
    rw [hsplit]
    exact abs_add _ _
  rw [abs_mul x₁ x₂]
  have hp : 0 ≤ |x₁| * |x₂| := mul_nonneg hx1 hx2
  have hjk : j * k * eps ≤ 1 := by nlinarith [mul_nonneg hj0 hk0, mul_le_mul hj hk hk0 (by norm_num : (0:ℚ) ≤ 100)]
  have hd : j * eps * |x₁| * (|x₂| + k * eps * |x₂|) + |x₁| * (k * eps * |x₂|)
      = (j + k + j * k * eps) * eps * (|x₁| * |x₂|) := by ring
  have hfin : (j + k + j * k * eps) * eps * (|x₁| * |x₂|)
      ≤ (j + k + 1) * eps * (|x₁| * |x₂|) := by
    apply mul_le_mul_of_nonneg_right _ hp
    apply mul_le_mul_of_nonneg_right _ he.le
    linarith
  linarith

theorem Near.pos {k y x : ℚ} (hx : 0 < x) (hk0 : 0 ≤ k) (hk : k ≤ 100) (h : Near k y x) :
    0 < y := by
  have hb := (h.bounds hx.le).1
  have he := eps_pos
  have he' := eps_le
  have : 0 < 1 - k * eps := by nlinarith
  have : 0 < x * (1 - k * eps) := mul_pos hx this
  linarith

theorem near_div (c : ℚ) {k y x : ℚ} (hx : 0 < x) (hk0 : 0 ≤ k) (hk : k ≤ 100)
    (h : Near k y x) : Near (k + 1) (c / y) (c / x) := by
  have hy : 0 < y := h.pos hx hk0 hk
  have hb := (h.bounds hx.le).1
  have he := eps_pos
  have he' := eps_le
  unfold Near at *
  have hxy : 0 < x * y := mul_pos hx hy
  have heq : c / y - c / x = c * (x - y) / (x * y) := by
    field_simp
    ring
  rw [heq, abs_div, abs_mul, abs_of_pos hxy, abs_div, abs_of_pos hx, div_le_iff₀ hxy]
  have hsub : |x - y| ≤ k * eps * x := by
    rw [abs_of_pos hx] at h
    rw [abs_sub_comm]
    exact h
  have hkk : k * (k + 1) * eps ≤ 1 := by
    have h1 : k * (k + 1) ≤ 100 * 101 := mul_le_mul hk (by linarith) (by linarith) (by norm_num)
    have h2 : k * (k + 1) * eps ≤ 100 * 101 * eps :=
      mul_le_mul_of_nonneg_right h1 he.le
    linarith
  have hkey : k * eps * x ≤ (k + 1) * eps * y := by
    have h1 : (k + 1) * eps * (x * (1 - k * eps)) ≤ (k + 1) * eps * y :=
      mul_le_mul_of_nonneg_left hb (by positivity)
    have h2 : k * eps * x ≤ (k + 1) * eps * (x * (1 - k * eps)) := by
      have : (k + 1) * eps * (x * (1 - k * eps)) - k * eps * x
          = eps * x * (1 - k * (k + 1) * eps) := by ring
      have hnn : 0 ≤ eps * x * (1 - k * (k + 1) * eps) :=
        mul_nonneg (mul_nonneg he.le hx.le) (by linarith)
      linarith
    linarith
  have hc : 0 ≤ |c| := abs_nonneg c
  calc |c| * |x - y| ≤ |c| * ((k + 1) * eps * y) :=
        mul_le_mul_of_nonneg_left (hsub.trans hkey) hc
    _ = (k + 1) * eps * (|c| / x) * (x * y) := by field_simp; ring

theorem ofInt_eq (n : ℤ) (h : |n| < 2 ^ 53) : ofInt n = n := f64_intCast n h

theorem imgAspect_near (w h : ℤ) (hh : 0 < h) :
    Near 6 (imgAspect w h) ((w : ℚ) / h) := by
  have hhq : (0 : ℚ) < h := by exact_mod_cast hh
  have h1 : Near 1 (ofInt w) w := near_f64 _
  have h2 : Near 1 (ofInt h) h := near_f64 _
  have h3 : Near (1 + 1) (1 / ofInt h) (1 / (h : ℚ)) :=
    near_div 1 hhq (by norm_num) (by norm_num) h2
  have h4 : Near (1 + (1 + 1) + 1) (ofInt w * (1 / ofInt h)) ((w : ℚ) * (1 / h)) :=
    Near.mul (by norm_num) (by norm_num) (by norm_num) (by norm_num) h1 h3
  have h5 := h4.round (by norm_num) (by norm_num)
  have e1 : ofInt w * (1 / ofInt h) = ofInt w / ofInt h := by ring
  have e2 : (w : ℚ) * (1 / h) = (w : ℚ) / h := by ring
  have e3 : (1 + (1 + 1) + 1 + 2 : ℚ) = 6 := by norm_num
  rw [e1, e2, e3] at h5
  exact h5

theorem imgAspect_pos (w h : ℤ) (hw : 0 < w) (hh : 0 < h) : 0 < imgAspect w h := by
  have hr : (0 : ℚ) < (w : ℚ) / h := by
    have : (0 : ℚ) < w := by exact_mod_cast hw
    have : (0 : ℚ) < h := by exact_mod_cast hh
    positivity
  exact (imgAspect_near w h hh).pos hr (by norm_num) (by norm_num)

theorem Near.scale {k y x : ℚ} (c : ℚ) (h : Near k y x) : Near k (c * y) (c * x) := by
  unfold Near at *
  have : c * y - c * x = c * (y - x) := by ring
  rw [this, abs_mul, abs_mul]
  calc |c| * |y - x| ≤ |c| * (k * eps * |x|) := mul_le_mul_of_nonneg_left h (abs_nonneg c)
    _ = k * eps * (|c| * |x|) := by ring

theorem f64_nonneg {x : ℚ} (hx : 0 ≤ x) : 0 ≤ f64 x := by
  have hb := ((near_f64 x).bounds hx).1
  have he := eps_le
  have : 0 ≤ x * (1 - 1 * eps) := mul_nonneg hx (by norm_num at he ⊢; linarith)
  linarith

theorem f64_nonpos {x : ℚ} (hx : x ≤ 0) : f64 x ≤ 0 := by
  have hb := ((near_f64 x).bounds_neg hx).2
  have he := eps_le
  have : x * (1 - 1 * eps) ≤ 0 := mul_nonpos_of_nonpos_of_nonneg hx (by norm_num at he ⊢; linarith)
  linarith

theorem f2i_le_self {x : ℚ} (hx : 0 ≤ x) : (f2i x : ℚ) ≤ x := by
  simp only [f2i, if_pos hx]
  exact Int.floor_le x

theorem lt_f2i_add_one {x : ℚ} (hx : 0 ≤ x) : x < f2i x + 1 := by
  simp only [f2i, if_pos hx]
  exact Int.lt_floor_add_one x

theorem f2i_nonneg {x : ℚ} (hx : 0 ≤ x) : 0 ≤ f2i x := by
  simp only [f2i, if_pos hx]
  exact Int.floor_nonneg.mpr hx

theorem f2i_nonpos {x : ℚ} (hx : x ≤ 0) : f2i x ≤ 0 := by
  unfold f2i
  split_ifs with h
  · have : x = 0 := le_antisymm hx h
    subst this
    simp
  · have : ⌈x⌉ ≤ 0 := Int.ceil_le.mpr (by simpa using hx)
    exact this

theorem self_le_f2i {x : ℚ} (hx : x ≤ 0) : x ≤ f2i x := by
  unfold f2i
  split_ifs with h
  · have : x = 0 := le_antisymm hx h
    subst this
    simp
  · exact Int.le_ceil x

theorem f2i_lt_add_one {x : ℚ} (hx : x ≤ 0) : (f2i x : ℚ) < x + 1 := by
  unfold f2i
  split_ifs with h
  · have : x = 0 := le_antisymm hx h
    subst this
    simp
  · exact Int.ceil_lt_add_one x

/-- Core of the refit bound: when the width-first height `V` overshoots `M`, the
height-first width `T` stays within the width budget `A`. -/
theorem refit_core {A M ρ V T j k : ℚ} (hρ : 0 < ρ) (hA : 0 ≤ A) (hM : 1 ≤ M)
    (hM' : M ≤ 2 ^ 20) (hj0 : 0 ≤ j) (hj : j ≤ 100) (hk0 : 0 ≤ k) (hk : k ≤ 100)
    (hV : Near j V (A / ρ)) (hT : Near k T (M * ρ)) (hover : M + 1 ≤ V) : T ≤ A := by
  have he := eps_pos
  have he' : eps = 1 / 2 ^ 53 := rfl
  have hv0 : 0 ≤ A / ρ := div_nonneg hA hρ.le
  have hVb := (hV.bounds hv0).2
  have hTb := (hT.bounds (by positivity)).2
  have hje : 0 ≤ j * eps := mul_nonneg hj0 he.le
  have hke : 0 ≤ k * eps := mul_nonneg hk0 he.le
  have hje' : j * eps ≤ 100 * eps := mul_le_mul_of_nonneg_right hj he.le
  have hke' : k * eps ≤ 100 * eps := mul_le_mul_of_nonneg_right hk he.le
  have hkey : M * (1 + k * eps) * (1 + j * eps) ≤ M + 1 := by
    have h1 : (1 + k * eps) * (1 + j * eps) ≤ 1 + 1 / 2 ^ 20 := by
      have : (1 + k * eps) * (1 + j * eps) ≤ (1 + 100 * eps) * (1 + 100 * eps) :=
        mul_le_mul (by linarith) (by linarith) (by linarith) (by linarith)
      have hnum : (1 + 100 * eps) * (1 + 100 * eps) ≤ 1 + 1 / 2 ^ 20 := by
        rw [he']
        norm_num
      exact this.trans hnum
    have h2 : M * ((1 + k * eps) * (1 + j * eps)) ≤ M * (1 + 1 / 2 ^ 20) :=
      mul_le_mul_of_nonneg_left h1 (by linarith)
    have h3 : M * (1 + 1 / 2 ^ 20) ≤ M + 1 := by
      have : M * (1 / 2 ^ 20) ≤ 2 ^ 20 * (1 / 2 ^ 20) :=
        mul_le_mul_of_nonneg_right hM' (by norm_num)
      norm_num at this ⊢
      linarith
    calc M * (1 + k * eps) * (1 + j * eps) = M * ((1 + k * eps) * (1 + j * eps)) := by ring
      _ ≤ M + 1 := h2.trans h3
  have hv : M * (1 + k * eps) ≤ A / ρ := by
    have h1 : M * (1 + k * eps) * (1 + j * eps) ≤ A / ρ * (1 + j * eps) := by linarith
    exact le_of_mul_le_mul_right h1 (by linarith)
  have hfin : M * ρ * (1 + k * eps) ≤ A := by
    have h1 : M * (1 + k * eps) * ρ ≤ A / ρ * ρ := mul_le_mul_of_nonneg_right hv hρ.le
    have h2 : A / ρ * ρ = A := by field_simp
    calc M * ρ * (1 + k * eps) = M * (1 + k * eps) * ρ := by ring
      _ ≤ A / ρ * ρ := h1
      _ = A := h2
  linarith

theorem abs_lt_two_pow_53 (n : ℤ) (h1 : -1048576 ≤ n) (h2 : n ≤ 1048576) : |n| < 2 ^ 53 := by
  rw [abs_lt]
  constructor
  · have : (-(2 : ℤ) ^ 53) < -1048576 := by norm_num
    omega
  · have : (1048576 : ℤ) < 2 ^ 53 := by norm_num
    omega

/-- Sixel refit: once the width-first height overshoots a positive height budget,
the height-first width stays within the width budget. -/
theorem sixel_refit_width_le (c r w h : ℤ) (hw : 0 < w) (hh : 0 < h) (hc : 1 ≤ c)
    (hc' : c ≤ 65535) (hr : 5 ≤ r) (hr' : r ≤ 65535)
    (hover : (r - 4) * 6 < f2i (fdiv (ofInt ((c - 1) * 8)) (imgAspect w h))) :
    f2i (fmul (ofInt ((r - 4) * 6)) (imgAspect w h)) ≤ (c - 1) * 8 := by
  have hnear := imgAspect_near w h hh
  have hapos := imgAspect_pos w h hw hh
  have hρ : (0 : ℚ) < (w : ℚ) / h := by
    have : (0 : ℚ) < w := by exact_mod_cast hw
    have : (0 : ℚ) < h := by exact_mod_cast hh
    positivity
  have hA : ofInt ((c - 1) * 8) = (((c - 1) * 8 : ℤ) : ℚ) :=
    ofInt_eq _ (abs_lt_two_pow_53 _ (by omega) (by omega))
  have hM : ofInt ((r - 4) * 6) = (((r - 4) * 6 : ℤ) : ℚ) :=
    ofInt_eq _ (abs_lt_two_pow_53 _ (by omega) (by omega))
  rw [hA] at hover
  rw [hM]
  have hA0 : (0 : ℚ) ≤ (((c - 1) * 8 : ℤ) : ℚ) := by
    have : (0 : ℤ) ≤ (c - 1) * 8 := by omega
    exact_mod_cast this
  have hM1 : (1 : ℚ) ≤ (((r - 4) * 6 : ℤ) : ℚ) := by
    have : (1 : ℤ) ≤ (r - 4) * 6 := by omega
    exact_mod_cast this
  have hM2 : (((r - 4) * 6 : ℤ) : ℚ) ≤ 2 ^ 20 := by
    have : ((r - 4) * 6 : ℤ) ≤ 2 ^ 20 := by norm_num; omega
    exact_mod_cast this
  have hV : Near (6 + 1 + 2) (fdiv (((c - 1) * 8 : ℤ) : ℚ) (imgAspect w h))
      ((((c - 1) * 8 : ℤ) : ℚ) / ((w : ℚ) / h)) :=
    (near_div _ hρ (by norm_num) (by norm_num) hnear).round (by norm_num) (by norm_num)
  have hT : Near (6 + 2) (fmul (((r - 4) * 6 : ℤ) : ℚ) (imgAspect w h))
      ((((r - 4) * 6 : ℤ) : ℚ) * ((w : ℚ) / h)) :=
    (hnear.scale _).round (by norm_num) (by norm_num)
  have hV0 : 0 ≤ fdiv (((c - 1) * 8 : ℤ) : ℚ) (imgAspect w h) :=
    f64_nonneg (div_nonneg hA0 hapos.le)
  have hT0 : 0 ≤ fmul (((r - 4) * 6 : ℤ) : ℚ) (imgAspect w h) :=
    f64_nonneg (mul_nonneg (by linarith) hapos.le)
  have hov : (((r - 4) * 6 : ℤ) : ℚ) + 1 ≤ fdiv (((c - 1) * 8 : ℤ) : ℚ) (imgAspect w h) := by
    have h1 : (r - 4) * 6 + 1 ≤ f2i (fdiv (((c - 1) * 8 : ℤ) : ℚ) (imgAspect w h)) := hover
    have h2 : (((r - 4) * 6 : ℤ) : ℚ) + 1
        ≤ (f2i (fdiv (((c - 1) * 8 : ℤ) : ℚ) (imgAspect w h)) : ℚ) := by exact_mod_cast h1
    exact h2.trans (f2i_le_self hV0)
  have hfin := refit_core hρ hA0 hM1 hM2 (by norm_num) (by norm_num) (by norm_num)
    (by norm_num) hV hT hov
  have h4 := f2i_le_self hT0
  have : (f2i (fmul (((r - 4) * 6 : ℤ) : ℚ) (imgAspect w h)) : ℚ)
      ≤ (((c - 1) * 8 : ℤ) : ℚ) := h4.trans hfin
  exact_mod_cast this

/-- Block refit: once the width-first height overshoots a positive height budget,
the height-first width stays within the width budget. -/
theorem block_refit_width_le (c r w h : ℤ) (hw : 0 < w) (hh : 0 < h) (hc : 1 ≤ c)
    (hc' : c ≤ 65535) (hr : 3 ≤ r) (hr' : r ≤ 65535)
    (hover : r - 2 < f2i (fdiv (ofInt (c - 1)) (fmul (imgAspect w h) 2))) :
    f2i (fmul (fmul (ofInt (r - 2)) (imgAspect w h)) 2) ≤ c - 1 := by
  have hnear := imgAspect_near w h hh
  have hapos := imgAspect_pos w h hw hh
  have hρ : (0 : ℚ) < 2 * ((w : ℚ) / h) := by
    have : (0 : ℚ) < w := by exact_mod_cast hw
    have : (0 : ℚ) < h := by exact_mod_cast hh
    positivity
  have hA : ofInt (c - 1) = ((c - 1 : ℤ) : ℚ) :=
    ofInt_eq _ (abs_lt_two_pow_53 _ (by omega) (by omega))
  have hM : ofInt (r - 2) = ((r - 2 : ℤ) : ℚ) :=
    ofInt_eq _ (abs_lt_two_pow_53 _ (by omega) (by omega))
  rw [hA] at hover
  rw [hM]
  have hA0 : (0 : ℚ) ≤ ((c - 1 : ℤ) : ℚ) := by
    have : (0 : ℤ) ≤ c - 1 := by omega
    exact_mod_cast this
  have hM1 : (1 : ℚ) ≤ ((r - 2 : ℤ) : ℚ) := by
    have : (1 : ℤ) ≤ r - 2 := by omega
    exact_mod_cast this
  have hM2 : ((r - 2 : ℤ) : ℚ) ≤ 2 ^ 20 := by
    have : (r - 2 : ℤ) ≤ 2 ^ 20 := by norm_num; omega
    exact_mod_cast this
  have hB : Near (6 + 2) (fmul (imgAspect w h) 2) (2 * ((w : ℚ) / h)) := by
    have := (hnear.scale 2).round (by norm_num) (by norm_num)
    unfold fmul
    rwa [mul_comm (imgAspect w h) 2]
  have hB0 : 0 < fmul (imgAspect w h) 2 := hB.pos hρ (by norm_num) (by norm_num)
  have hV : Near (6 + 2 + 1 + 2) (fdiv ((c - 1 : ℤ) : ℚ) (fmul (imgAspect w h) 2))
      (((c - 1 : ℤ) : ℚ) / (2 * ((w : ℚ) / h))) :=
    (near_div _ hρ (by norm_num) (by norm_num) hB).round (by norm_num) (by norm_num)
  have hT : Near (6 + 2 + 2) (fmul (fmul ((r - 2 : ℤ) : ℚ) (imgAspect w h)) 2)
      (((r - 2 : ℤ) : ℚ) * (2 * ((w : ℚ) / h))) := by
    have h1 : Near (6 + 2) (fmul ((r - 2 : ℤ) : ℚ) (imgAspect w h))
        (((r - 2 : ℤ) : ℚ) * ((w : ℚ) / h)) :=
      (hnear.scale _).round (by norm_num) (by norm_num)
    have h2 := (h1.scale 2).round (by norm_num) (by norm_num)
    have e1 : 2 * fmul ((r - 2 : ℤ) : ℚ) (imgAspect w h)
        = fmul ((r - 2 : ℤ) : ℚ) (imgAspect w h) * 2 := by ring
    have e2 : 2 * (((r - 2 : ℤ) : ℚ) * ((w : ℚ) / h))
        = ((r - 2 : ℤ) : ℚ) * (2 * ((w : ℚ) / h)) := by ring
    rw [e1, e2] at h2
    exact h2
  have hV0 : 0 ≤ fdiv ((c - 1 : ℤ) : ℚ) (fmul (imgAspect w h) 2) :=
    f64_nonneg (div_nonneg hA0 hB0.le)
  have hT0 : 0 ≤ fmul (fmul ((r - 2 : ℤ) : ℚ) (imgAspect w h)) 2 :=
    f64_nonneg (mul_nonneg (f64_nonneg (mul_nonneg (by linarith) hapos.le)) (by norm_num))
  have hov : ((r - 2 : ℤ) : ℚ) + 1 ≤ fdiv ((c - 1 : ℤ) : ℚ) (fmul (imgAspect w h) 2) := by
    have h1 : r - 2 + 1 ≤ f2i (fdiv ((c - 1 : ℤ) : ℚ) (fmul (imgAspect w h) 2)) := hover
    have h2 : ((r - 2 : ℤ) : ℚ) + 1
        ≤ (f2i (fdiv ((c - 1 : ℤ) : ℚ) (fmul (imgAspect w h) 2)) : ℚ) := by exact_mod_cast h1
    exact h2.trans (f2i_le_self hV0)
  have hfin := refit_core hρ hA0 hM1 hM2 (by norm_num) (by norm_num) (by norm_num)
    (by norm_num) hV hT hov
  have h4 := f2i_le_self hT0
  have : (f2i (fmul (fmul ((r - 2 : ℤ) : ℚ) (imgAspect w h)) 2) : ℚ)
      ≤ ((c - 1 : ℤ) : ℚ) := h4.trans hfin
  exact_mod_cast this

/-! ## Monotonicity of rounding -/

theorem roundHalfEven_mono {q r : ℚ} (h : q ≤ r) : roundHalfEven q ≤ roundHalfEven r := by
  have hf : ⌊q⌋ ≤ ⌊r⌋ := Int.floor_mono h
  have hq1 := Int.floor_le q
  have hq2 := Int.lt_floor_add_one q
  have hr1 := Int.floor_le r
  have hr2 := Int.lt_floor_add_one r
  rcases lt_or_eq_of_le hf with hlt | heq
  · have h1 : roundHalfEven q ≤ ⌊q⌋ + 1 := by
      unfold roundHalfEven
      simp only
      split_ifs <;> omega
    have h2 : ⌊r⌋ ≤ roundHalfEven r := by
      unfold roundHalfEven
      simp only
      split_ifs <;> omega
    omega
  · unfold roundHalfEven
    simp only
    rw [heq]
    split_ifs <;> first | omega | (exfalso; linarith)

theorem f64_binade {x : ℚ} (hx : 0 < x) :
    (2 : ℚ) ^ Int.log 2 x ≤ f64 x ∧ f64 x ≤ (2 : ℚ) ^ (Int.log 2 x + 1) := by
  have hx0 : x ≠ 0 := hx.ne'
  have habs : |x| = x := abs_of_pos hx
  have hlo : (2 : ℚ) ^ Int.log 2 x ≤ x := by
    have := Int.zpow_log_le_self (R := ℚ) (b := 2) (r := x) (by norm_num) hx
    simpa using this
  have hhi : x < (2 : ℚ) ^ (Int.log 2 x + 1) := by
    have := Int.lt_zpow_succ_log_self (R := ℚ) (b := 2) (by norm_num) x
    simpa using this
  have hs : (0 : ℚ) < 2 ^ (Int.log 2 x - 52) := by positivity
  have e52 : (2 : ℚ) ^ Int.log 2 x = 2 ^ 52 * 2 ^ (Int.log 2 x - 52) := by
    rw [zpow_sub₀ (by norm_num : (2 : ℚ) ≠ 0)]
    have : ((2 : ℚ) ^ (52 : ℤ)) = 2 ^ 52 := by norm_cast
    rw [this]
    field_simp
  have e53 : (2 : ℚ) ^ (Int.log 2 x + 1) = 2 ^ 53 * 2 ^ (Int.log 2 x - 52) := by
    rw [zpow_add₀ (by norm_num : (2 : ℚ) ≠ 0), e52]
    norm_num
    ring
  have h1 : (2 : ℚ) ^ 52 ≤ x / 2 ^ (Int.log 2 x - 52) := by
    rw [le_div_iff₀ hs, ← e52]
    exact hlo
  have h2 : x / 2 ^ (Int.log 2 x - 52) ≤ (2 : ℚ) ^ 53 := by
    rw [div_le_iff₀ hs, ← e53]
    exact hhi.le
  have r1 : (2 : ℤ) ^ 52 ≤ roundHalfEven (x / 2 ^ (Int.log 2 x - 52)) := by
    have := roundHalfEven_mono (q := (((2 : ℤ) ^ 52 : ℤ) : ℚ)) (by push_cast; exact h1)
    rwa [roundHalfEven_intCast] at this
  have r2 : roundHalfEven (x / 2 ^ (Int.log 2 x - 52)) ≤ (2 : ℤ) ^ 53 := by
    have := roundHalfEven_mono (r := (((2 : ℤ) ^ 53 : ℤ) : ℚ)) (by push_cast; exact h2)
    rwa [roundHalfEven_intCast] at this
  have r1' : (2 : ℚ) ^ 52 ≤ (roundHalfEven (x / 2 ^ (Int.log 2 x - 52)) : ℚ) := by
    exact_mod_cast r1
  have r2' : (roundHalfEven (x / 2 ^ (Int.log 2 x - 52)) : ℚ) ≤ (2 : ℚ) ^ 53 := by
    exact_mod_cast r2
  have hf : f64 x = (roundHalfEven (x / 2 ^ (Int.log 2 x - 52)) : ℚ)
      * 2 ^ (Int.log 2 x - 52) := by
    simp only [f64, if_neg hx0, habs]
  rw [hf, e52, e53]
  exact ⟨mul_le_mul_of_nonneg_right r1' hs.le, mul_le_mul_of_nonneg_right r2' hs.le⟩

theorem f64_mono_pos {x y : ℚ} (hx : 0 < x) (h : x ≤ y) : f64 x ≤ f64 y := by
  have hy : 0 < y := lt_of_lt_of_le hx h
  have hlog : Int.log 2 x ≤ Int.log 2 y := Int.log_mono_right hx h
  rcases lt_or_eq_of_le hlog with hlt | heq
  · have h1 := (f64_binade hx).2
    have h2 := (f64_binade hy).1
    have h3 : (2 : ℚ) ^ (Int.log 2 x + 1) ≤ 2 ^ Int.log 2 y :=
      zpow_le_zpow_right₀ (by norm_num) (by omega)
    linarith
  · have hs : (0 : ℚ) < 2 ^ (Int.log 2 y - 52) := by positivity
    have fx : f64 x = (roundHalfEven (x / 2 ^ (Int.log 2 y - 52)) : ℚ)
        * 2 ^ (Int.log 2 y - 52) := by
      simp only [f64, if_neg hx.ne', abs_of_pos hx, heq]
    have fy : f64 y = (roundHalfEven (y / 2 ^ (Int.log 2 y - 52)) : ℚ)
        * 2 ^ (Int.log 2 y - 52) := by
      simp only [f64, if_neg hy.ne', abs_of_pos hy]
    rw [fx, fy]
    apply mul_le_mul_of_nonneg_right _ hs.le
    have : roundHalfEven (x / 2 ^ (Int.log 2 y - 52))
        ≤ roundHalfEven (y / 2 ^ (Int.log 2 y - 52)) :=
      roundHalfEven_mono (div_le_div_of_nonneg_right h hs.le)
    exact_mod_cast this

theorem f64_mono {x y : ℚ} (hx : 0 ≤ x) (h : x ≤ y) : f64 x ≤ f64 y := by
  rcases eq_or_lt_of_le hx with h0 | hpos
  · rw [← h0, f64_zero]
    exact f64_nonneg (hx.trans h)
  · exact f64_mono_pos hpos h

theorem f2i_mono {x y : ℚ} (hx : 0 ≤ x) (h : x ≤ y) : f2i x ≤ f2i y := by
  simp only [f2i, if_pos hx, if_pos (hx.trans h)]
  exact Int.floor_mono h

/-! ## Concrete evaluations -/

theorem f64_two : f64 2 = 2 := by simpa using f64_intCast 2 (by norm_num)

theorem f64_four : f64 4 = 4 := by simpa using f64_intCast 4 (by norm_num)

theorem ofInt_zero : ofInt 0 = 0 := by simpa [ofInt] using f64_zero

theorem imgAspect_100_50 : imgAspect 100 50 = 2 := by
  have h1 : ofInt 100 = 100 := by simpa using ofInt_eq 100 (by norm_num)
  have h2 : ofInt 50 = 50 := by simpa using ofInt_eq 50 (by norm_num)
  unfold imgAspect fdiv
  rw [h1, h2]
  norm_num
  exact f64_two

theorem f64_79_div_4 : f64 (79 / 4) = 79 / 4 := by
  rw [f64_eq_of (79 / 4) 4 (79 * 2 ^ 46) (by norm_num [abs_of_pos])
    (by norm_num [abs_of_pos]) (by norm_num [abs_of_pos])]
  norm_num

theorem f2i_79_div_4 : f2i (79 / 4) = 19 := by
  simp only [f2i]
  norm_num [Int.floor_eq_iff]

/-- The width-first height of a 100x50 image on 80 columns in block mode. -/
theorem block_width_first_100_50 :
    f2i (fdiv (ofInt (80 - 1)) (fmul (imgAspect 100 50) 2)) = 19 := by
  have h1 : ofInt (80 - 1) = 79 := by simpa using ofInt_eq 79 (by norm_num)
  have h2 : fmul 2 2 = 4 := by
    unfold fmul
    norm_num
    exact f64_four
  rw [imgAspect_100_50, h1, h2]
  unfold fdiv
  rw [f64_79_div_4, f2i_79_div_4]

theorem blockFit_80_24_100_50 : blockFit 80 24 100 50 = (79, 19) := by
  unfold blockFit
  simp only
  rw [block_width_first_100_50]
  norm_num

theorem blockFit_80_2_100_50 : blockFit 80 2 100 50 = (0, 0) := by
  unfold blockFit
  simp only
  rw [block_width_first_100_50]
  have h0 : f2i (fmul (fmul (ofInt (2 - 2)) (imgAspect 100 50)) 2) = 0 := by
    have : ofInt (2 - 2) = 0 := by simpa using ofInt_zero
    rw [this]
    simp [fmul, f64_zero, f2i]
  rw [h0]
  norm_num

theorem blockFit_80_1_100_50 : blockFit 80 1 100 50 = (-4, -1) := by
  unfold blockFit
  simp only
  rw [block_width_first_100_50]
  have h0 : f2i (fmul (fmul (ofInt (1 - 2)) (imgAspect 100 50)) 2) = -4 := by
    have h1 : ofInt (1 - 2) = -1 := by simpa using ofInt_eq (-1) (by norm_num)
    have h2 : f64 (-2) = -2 := by simpa using f64_intCast (-2) (by norm_num)
    have h3 : f64 (-4) = -4 := by simpa using f64_intCast (-4) (by norm_num)
    rw [h1, imgAspect_100_50]
    unfold fmul
    norm_num
    rw [h2]
    norm_num
    rw [h3]
    simp only [f2i]
    norm_num [Int.ceil_eq_iff]
  rw [h0]
  norm_num

theorem imgAspect_7_3 : imgAspect 7 3 = 5254199565265579 / 2 ^ 51 := by
  have h1 : ofInt 7 = 7 := by simpa using ofInt_eq 7 (by norm_num)
  have h2 : ofInt 3 = 3 := by simpa using ofInt_eq 3 (by norm_num)
  unfold imgAspect fdiv
  rw [h1, h2, f64_eq_of (7 / 3) 1 5254199565265579 (by norm_num [abs_of_pos])
    (by norm_num [abs_of_pos]) (by norm_num [abs_of_pos])]
  norm_num

theorem sixelFit_36_24_7_3 : sixelFit 36 24 7 3 = (280, 119) := by
  have h1 : ofInt ((36 - 1) * 8) = 280 := by simpa using ofInt_eq 280 (by norm_num)
  have h2 : fdiv 280 (5254199565265579 / 2 ^ 51) = 8444249301319679 / 2 ^ 46 := by
    unfold fdiv
    rw [f64_eq_of (280 / (5254199565265579 / 2 ^ 51)) 6 8444249301319679
      (by norm_num [abs_of_pos]) (by norm_num [abs_of_pos]) (by norm_num [abs_of_pos])]
    norm_num
  have h3 : f2i (8444249301319679 / 2 ^ 46) = 119 := by
    simp only [f2i]
    norm_num [Int.floor_eq_iff]
  unfold sixelFit sixelFitRaw
  simp only
  rw [imgAspect_7_3, h1, h2, h3]
  norm_num

theorem imgAspect_7_6 : imgAspect 7 6 = 5254199565265579 / 2 ^ 52 := by
  have h1 : ofInt 7 = 7 := by simpa using ofInt_eq 7 (by norm_num)
  have h2 : ofInt 6 = 6 := by simpa using ofInt_eq 6 (by norm_num)
  unfold imgAspect fdiv
  rw [h1, h2, f64_eq_of (7 / 6) 0 5254199565265579 (by norm_num [abs_of_pos])
    (by norm_num [abs_of_pos]) (by norm_num [abs_of_pos])]
  norm_num

theorem blockFit_36_16_7_6 : blockFit 36 16 7 6 = (35, 14) := by
  have h1 : ofInt (36 - 1) = 35 := by simpa using ofInt_eq 35 (by norm_num)
  have h2 : fmul (5254199565265579 / 2 ^ 52) 2 = 5254199565265579 / 2 ^ 51 := by
    unfold fmul
    rw [f64_eq_of (5254199565265579 / 2 ^ 52 * 2) 1 5254199565265579
      (by norm_num [abs_of_pos]) (by norm_num [abs_of_pos]) (by norm_num [abs_of_pos])]
    norm_num
  have h3 : fdiv 35 (5254199565265579 / 2 ^ 51) = 8444249301319679 / 2 ^ 49 := by
    unfold fdiv
    rw [f64_eq_of (35 / (5254199565265579 / 2 ^ 51)) 3 8444249301319679
      (by norm_num [abs_of_pos]) (by norm_num [abs_of_pos]) (by norm_num [abs_of_pos])]
    norm_num
  have h4 : f2i (8444249301319679 / 2 ^ 49) = 14 := by
    simp only [f2i]
    norm_num [Int.floor_eq_iff]
  unfold blockFit
  simp only
  rw [imgAspect_7_6, h1, h2, h3, h4]
  norm_num

/-! ## Budget lemmas -/

theorem sixelFitRaw_le (c r w h : ℤ) (hw : 0 < w) (hh : 0 < h) (hc : 1 ≤ c)
    (hc' : c ≤ 65535) (hr' : r ≤ 65535) :
    (sixelFitRaw c r w h).1 ≤ (c - 1) * 8 ∧ (sixelFitRaw c r w h).2 ≤ (r - 4) * 6 := by
  unfold sixelFitRaw
  simp only
  split_ifs with hover
  · refine ⟨?_, le_refl _⟩
    by_cases hr : 5 ≤ r
    · exact sixel_refit_width_le c r w h hw hh hc hc' hr hr' hover
    · have hapos := imgAspect_pos w h hw hh
      have hM : ofInt ((r - 4) * 6) ≤ 0 := by
        apply f64_nonpos
        have : ((r - 4) * 6 : ℤ) ≤ 0 := by omega
        exact_mod_cast this
      have hT : f2i (fmul (ofInt ((r - 4) * 6)) (imgAspect w h)) ≤ 0 :=
        f2i_nonpos (f64_nonpos (mul_nonpos_of_nonpos_of_nonneg hM hapos.le))
      omega
  · exact ⟨le_refl _, not_lt.mp hover⟩

theorem blockFit_le (c r w h : ℤ) (hw : 0 < w) (hh : 0 < h) (hc : 1 ≤ c)
    (hc' : c ≤ 65535) (hr' : r ≤ 65535) :
    (blockFit c r w h).1 ≤ c - 1 ∧ (blockFit c r w h).2 ≤ r - 2 := by
  unfold blockFit
  simp only
  split_ifs with hover
  · refine ⟨?_, le_refl _⟩
    by_cases hr : 3 ≤ r
    · exact block_refit_width_le c r w h hw hh hc hc' hr hr' hover
    · have hapos := imgAspect_pos w h hw hh
      have hM : ofInt (r - 2) ≤ 0 := by
        apply f64_nonpos
        have : (r - 2 : ℤ) ≤ 0 := by omega
        exact_mod_cast this
      have hT : f2i (fmul (fmul (ofInt (r - 2)) (imgAspect w h)) 2) ≤ 0 :=
        f2i_nonpos (f64_nonpos (mul_nonpos_of_nonpos_of_nonneg
          (f64_nonpos (mul_nonpos_of_nonpos_of_nonneg hM hapos.le)) (by norm_num)))
      omega
  · exact ⟨le_refl _, not_lt.mp hover⟩

theorem sixelFit_1_24_100_50 : sixelFit 1 24 100 50 = (1, 1) := by
  have h0 : f2i (fdiv (ofInt ((1 - 1) * 8)) (imgAspect 100 50)) = 0 := by
    have : ofInt ((1 - 1) * 8) = 0 := by simpa using ofInt_zero
    rw [this]
    simp [fdiv, f64_zero, f2i]
  unfold sixelFit sixelFitRaw
  simp only
  rw [h0]
  norm_num

theorem sixelFit_ge_one_aux (c r w h : ℤ) :
    1 ≤ (sixelFit c r w h).1 ∧ 1 ≤ (sixelFit c r w h).2 := by
  unfold sixelFit
  simp only
  constructor <;> split_ifs <;> omega

/-! ## Aspect-ratio lemmas -/

theorem f2i_err (V : ℚ) : |(f2i V : ℚ) - V| < 1 := by
  rw [abs_lt]
  rcases le_or_lt 0 V with hV | hV
  · have h1 := f2i_le_self hV
    have h2 := lt_f2i_add_one hV
    constructor <;> linarith
  · have h1 := self_le_f2i hV.le
    have h2 := f2i_lt_add_one hV.le
    constructor <;> linarith

theorem trunc_err {k V x : ℚ} (h : Near k V x) :
    |(f2i V : ℚ) - x| < 1 + k * eps * |x| := by
  have h1 := f2i_err V
  have h2 : |(f2i V : ℚ) - x| ≤ |(f2i V : ℚ) - V| + |V - x| := abs_sub_le _ _ _
  unfold Near at h
  linarith

theorem near_tol {k V x : ℚ} (hk0 : 0 ≤ k) (hk : k ≤ 12) (h : Near k V x)
    (hV : |V| ≤ 2 ^ 19) : k * eps * |x| ≤ 1 / 2 ^ 30 := by
  have he := eps_pos
  have he' : eps = 1 / 2 ^ 53 := rfl
  have hx0 : 0 ≤ |x| := abs_nonneg x
  have h1 : |x| ≤ |V| + |V - x| := by
    have := abs_sub_abs_le_abs_sub x V
    rw [abs_sub_comm x V] at this
    linarith
  unfold Near at h
  have hke : k * eps ≤ 12 * eps := mul_le_mul_of_nonneg_right hk he.le
  have hke0 : 0 ≤ k * eps := mul_nonneg hk0 he.le
  have h2 : k * eps * |x| ≤ 12 * eps * |x| := mul_le_mul_of_nonneg_right hke hx0
  have h3 : |x| * (1 - 12 * eps) ≤ 2 ^ 19 := by nlinarith
  have h4 : |x| ≤ 2 ^ 19 * (5 / 4) := by
    rw [he'] at h3
    have : |x| * (4 / 5) ≤ |x| * (1 - 12 * (1 / 2 ^ 53)) :=
      mul_le_mul_of_nonneg_left (by norm_num) hx0
    norm_num at this h3 ⊢
    linarith
  have h5 : 12 * eps * |x| ≤ 12 * eps * (2 ^ 19 * (5 / 4)) :=
    mul_le_mul_of_nonneg_left h4 (by positivity)
  have h6 : 12 * eps * (2 ^ 19 * (5 / 4)) ≤ 1 / 2 ^ 30 := by
    rw [he']
    norm_num
  linarith

theorem trunc_close {k V x : ℚ} (hk0 : 0 ≤ k) (hk : k ≤ 12) (h : Near k V x)
    (hV : |V| ≤ 2 ^ 19) : |(f2i V : ℚ) - x| < 1 + 1 / 2 ^ 30 := by
  have h1 := trunc_err h
  have h2 := near_tol hk0 hk h hV
  linarith

/-- The same bound once the minimum-1 clamp is applied to the truncated value,
for a positive exact value. -/
theorem clamp_close {k V x : ℚ} (hk0 : 0 ≤ k) (hk : k ≤ 12) (hx : 0 < x)
    (h : Near k V x) (hV : |V| ≤ 2 ^ 19) :
    |(((if f2i V < 1 then 1 else f2i V : ℤ)) : ℚ) - x| < 1 + 1 / 2 ^ 30 := by
  split_ifs with hn
  · have hVpos : 0 < V := h.pos hx hk0 (by linarith)
    have h0 := f2i_nonneg hVpos.le
    have hz : f2i V = 0 := by omega
    have hlt := lt_f2i_add_one hVpos.le
    rw [hz] at hlt
    have hb := (h.bounds hx.le).1
    have he := eps_pos
    have he' : eps = 1 / 2 ^ 53 := rfl
    have hke : k * eps ≤ 12 * eps := mul_le_mul_of_nonneg_right hk he.le
    have hx2 : x < 2 := by
      have h1 : x * (1 - 12 * eps) ≤ x * (1 - k * eps) :=
        mul_le_mul_of_nonneg_left (by linarith) hx.le
      have h2 : x * (1 / 2) ≤ x * (1 - 12 * eps) := by
        apply mul_le_mul_of_nonneg_left _ hx.le
        rw [he']
        norm_num
      push_cast at hlt
      linarith
    rw [abs_lt]
    push_cast
    constructor <;> linarith
  · exact trunc_close hk0 hk h hV

theorem one_one_aspect (w h : ℤ) (hw : 0 < w) (hh : 0 < h) :
    |(1 : ℚ) - 1 * h / w| < 1 + 1 / 2 ^ 30 ∨ |(1 : ℚ) - 1 * w / h| < 1 + 1 / 2 ^ 30 := by
  have hwq : (0 : ℚ) < w := by exact_mod_cast hw
  have hhq : (0 : ℚ) < h := by exact_mod_cast hh
  rcases le_or_lt h w with hle | hlt
  · left
    have hle' : (h : ℚ) ≤ w := by exact_mod_cast hle
    have h1 : (0 : ℚ) < 1 * h / w := by positivity
    have h2 : (1 : ℚ) * h / w ≤ 1 := by
      rw [div_le_one hwq]
      linarith
    rw [abs_lt]
    constructor <;> linarith
  · right
    have hlt' : (w : ℚ) ≤ h := by exact_mod_cast hlt.le
    have h1 : (0 : ℚ) < 1 * w / h := by positivity
    have h2 : (1 : ℚ) * w / h ≤ 1 := by
      rw [div_le_one hhq]
      linarith
    rw [abs_lt]
    constructor <;> linarith

/-- An error below `1 + 2^-30` against a fraction with denominator at most `2^30`
is an error of at most 1. -/
theorem tol_to_le (p q d : ℤ) (hd : 0 < d) (hd' : d ≤ 2 ^ 30)
    (h : |(p : ℚ) - q / d| < 1 + 1 / 2 ^ 30) : |(p : ℚ) - q / d| ≤ 1 := by
  have hdq : (0 : ℚ) < d := by exact_mod_cast hd
  have hdq' : (d : ℚ) ≤ 2 ^ 30 := by exact_mod_cast hd'
  have heq : (p : ℚ) - q / d = ((p * d - q : ℤ) : ℚ) / d := by
    push_cast
    field_simp
  rw [heq, abs_div, abs_of_pos hdq] at h ⊢
  rw [div_lt_iff₀ hdq] at h
  rw [div_le_iff₀ hdq, one_mul]
  have h1 : |((p * d - q : ℤ) : ℚ)| < d + 1 := by
    have : (1 + 1 / 2 ^ 30) * (d : ℚ) ≤ d + 1 := by
      have : (1 / 2 ^ 30 : ℚ) * d ≤ 1 / 2 ^ 30 * 2 ^ 30 :=
        mul_le_mul_of_nonneg_left hdq' (by norm_num)
      norm_num at this ⊢
      linarith
    linarith
  have h2 : |p * d - q| < d + 1 := by exact_mod_cast h1
  have h3 : |p * d - q| ≤ d := by omega
  exact_mod_cast h3

theorem sixel_aspect_aux (c r w h : ℤ) (hw : 0 < w) (hh : 0 < h) (hc : 1 ≤ c)
    (hc' : c ≤ 65535) (hr' : r ≤ 65535) :
    |((sixelFit c r w h).2 : ℚ) - (sixelFit c r w h).1 * h / w| < 1 + 1 / 2 ^ 30
      ∨ |((sixelFit c r w h).1 : ℚ) - (sixelFit c r w h).2 * w / h| < 1 + 1 / 2 ^ 30 := by
  have hwq : (0 : ℚ) < w := by exact_mod_cast hw
  have hhq : (0 : ℚ) < h := by exact_mod_cast hh
  have hnear := imgAspect_near w h hh
  have hapos := imgAspect_pos w h hw hh
  have hρ : (0 : ℚ) < (w : ℚ) / h := by positivity
  have hraw := sixelFitRaw_le c r w h hw hh hc hc' hr'
  have hA : ofInt ((c - 1) * 8) = (((c - 1) * 8 : ℤ) : ℚ) :=
    ofInt_eq _ (abs_lt_two_pow_53 _ (by omega) (by omega))
  by_cases hover : (r - 4) * 6 < f2i (fdiv (ofInt ((c - 1) * 8)) (imgAspect w h))
  · have hfit : sixelFitRaw c r w h
        = (f2i (fmul (ofInt ((r - 4) * 6)) (imgAspect w h)), (r - 4) * 6) := by
      unfold sixelFitRaw
      exact if_pos hover
    by_cases hr : 5 ≤ r
    · right
      have hM : ofInt ((r - 4) * 6) = (((r - 4) * 6 : ℤ) : ℚ) :=
        ofInt_eq _ (abs_lt_two_pow_53 _ (by omega) (by omega))
      have hM1 : (1 : ℚ) ≤ (((r - 4) * 6 : ℤ) : ℚ) := by
        have : (1 : ℤ) ≤ (r - 4) * 6 := by omega
        exact_mod_cast this
      have hT : Near (6 + 2) (fmul (ofInt ((r - 4) * 6)) (imgAspect w h))
          ((((r - 4) * 6 : ℤ) : ℚ) * w / h) := by
        rw [hM, mul_div_assoc]
        exact (hnear.scale _).round (by norm_num) (by norm_num)
      have hT0 : 0 ≤ fmul (ofInt ((r - 4) * 6)) (imgAspect w h) := by
        rw [hM]
        exact f64_nonneg (mul_nonneg (by linarith) hapos.le)
      have hTle : f2i (fmul (ofInt ((r - 4) * 6)) (imgAspect w h)) ≤ (c - 1) * 8 := by
        have := hraw.1
        rw [hfit] at this
        exact this
      have hTb : |fmul (ofInt ((r - 4) * 6)) (imgAspect w h)| ≤ 2 ^ 19 := by
        rw [abs_of_nonneg hT0]
        have h1 := lt_f2i_add_one hT0
        have h2 : (f2i (fmul (ofInt ((r - 4) * 6)) (imgAspect w h)) : ℚ) ≤ 524272 := by
          have : f2i (fmul (ofInt ((r - 4) * 6)) (imgAspect w h)) ≤ 524272 := by omega
          exact_mod_cast this
        norm_num
        linarith
      have hx : (0 : ℚ) < (((r - 4) * 6 : ℤ) : ℚ) * w / h := by
        have : (0 : ℚ) < (((r - 4) * 6 : ℤ) : ℚ) := by linarith
        positivity
      have hfin := clamp_close (by norm_num) (by norm_num) hx hT hTb
      have hfit2 : sixelFit c r w h
          = (if f2i (fmul (ofInt ((r - 4) * 6)) (imgAspect w h)) < 1 then 1
              else f2i (fmul (ofInt ((r - 4) * 6)) (imgAspect w h)), (r - 4) * 6) := by
        unfold sixelFit
        simp only
        rw [hfit]
        simp only
        rw [if_neg (by omega : ¬ (r - 4) * 6 < 1)]
      rw [hfit2]
      exact hfin
    · have hM : ofInt ((r - 4) * 6) ≤ 0 := by
        apply f64_nonpos
        have : ((r - 4) * 6 : ℤ) ≤ 0 := by omega
        exact_mod_cast this
      have hT : f2i (fmul (ofInt ((r - 4) * 6)) (imgAspect w h)) ≤ 0 :=
        f2i_nonpos (f64_nonpos (mul_nonpos_of_nonpos_of_nonneg hM hapos.le))
      have hfit2 : sixelFit c r w h = (1, 1) := by
        unfold sixelFit
        simp only
        rw [hfit]
        simp only
        rw [if_pos (by omega), if_pos (by omega)]
      rw [hfit2]
      simpa using one_one_aspect w h hw hh
  · have hfit : sixelFitRaw c r w h
        = ((c - 1) * 8, f2i (fdiv (ofInt ((c - 1) * 8)) (imgAspect w h))) := by
      unfold sixelFitRaw
      exact if_neg hover
    have hVle : f2i (fdiv (ofInt ((c - 1) * 8)) (imgAspect w h)) ≤ (r - 4) * 6 :=
      not_lt.mp hover
    have hA0 : (0 : ℚ) ≤ (((c - 1) * 8 : ℤ) : ℚ) := by
      have : (0 : ℤ) ≤ (c - 1) * 8 := by omega
      exact_mod_cast this
    have hV0 : 0 ≤ fdiv (ofInt ((c - 1) * 8)) (imgAspect w h) := by
      rw [hA]
      exact f64_nonneg (div_nonneg hA0 hapos.le)
    by_cases hc1 : c = 1
    · subst hc1
      have hz : f2i (fdiv (ofInt ((1 - 1) * 8)) (imgAspect w h)) = 0 := by
        have : ofInt ((1 - 1) * 8) = 0 := by simpa using ofInt_zero
        rw [this]
        simp [fdiv, f64_zero, f2i]
      have hfit2 : sixelFit 1 r w h = (1, 1) := by
        unfold sixelFit
        simp only
        rw [hfit, hz]
        simp
      rw [hfit2]
      simpa using one_one_aspect w h hw hh
    · left
      have hV : Near (6 + 1 + 2) (fdiv (ofInt ((c - 1) * 8)) (imgAspect w h))
          ((((c - 1) * 8 : ℤ) : ℚ) * h / w) := by
        have e : (((c - 1) * 8 : ℤ) : ℚ) * h / w = (((c - 1) * 8 : ℤ) : ℚ) / ((w : ℚ) / h) := by
          field_simp
        rw [hA, e]
        exact (near_div _ hρ (by norm_num) (by norm_num) hnear).round (by norm_num)
          (by norm_num)
      have hVb : |fdiv (ofInt ((c - 1) * 8)) (imgAspect w h)| ≤ 2 ^ 19 := by
        rw [abs_of_nonneg hV0]
        have h1 := lt_f2i_add_one hV0
        have h2 : (f2i (fdiv (ofInt ((c - 1) * 8)) (imgAspect w h)) : ℚ) ≤ 393186 := by
          have : f2i (fdiv (ofInt ((c - 1) * 8)) (imgAspect w h)) ≤ 393186 := by omega
          exact_mod_cast this
        norm_num
        linarith
      have hx : (0 : ℚ) < (((c - 1) * 8 : ℤ) : ℚ) * h / w := by
        have : (0 : ℚ) < (((c - 1) * 8 : ℤ) : ℚ) := by
          have : (0 : ℤ) < (c - 1) * 8 := by omega
          exact_mod_cast this
        positivity
      have hfin := clamp_close (by norm_num) (by norm_num) hx hV hVb
      have hfit2 : sixelFit c r w h
          = ((c - 1) * 8, if f2i (fdiv (ofInt ((c - 1) * 8)) (imgAspect w h)) < 1 then 1
              else f2i (fdiv (ofInt ((c - 1) * 8)) (imgAspect w h))) := by
        unfold sixelFit
        simp only
        rw [hfit]
        simp only
        rw [if_neg (by omega : ¬ (c - 1) * 8 < 1)]
      rw [hfit2]
      exact hfin

theorem block_aspect_aux (c r w h : ℤ) (hw : 0 < w) (hh : 0 < h) (hc : 1 ≤ c)
    (hc' : c ≤ 65535) (hr : 1 ≤ r) (hr' : r ≤ 65535) :
    |((blockFit c r w h).2 : ℚ) - (blockFit c r w h).1 * h / (2 * w)| < 1 + 1 / 2 ^ 30
      ∨ |((blockFit c r w h).1 : ℚ) - (blockFit c r w h).2 * 2 * w / h| < 1 + 1 / 2 ^ 30 := by
  have hwq : (0 : ℚ) < w := by exact_mod_cast hw
  have hhq : (0 : ℚ) < h := by exact_mod_cast hh
  have hnear := imgAspect_near w h hh
  have hapos := imgAspect_pos w h hw hh
  have hρ : (0 : ℚ) < 2 * ((w : ℚ) / h) := by positivity
  have hraw := blockFit_le c r w h hw hh hc hc' hr'
  have hA : ofInt (c - 1) = ((c - 1 : ℤ) : ℚ) :=
    ofInt_eq _ (abs_lt_two_pow_53 _ (by omega) (by omega))
  have hM : ofInt (r - 2) = ((r - 2 : ℤ) : ℚ) :=
    ofInt_eq _ (abs_lt_two_pow_53 _ (by omega) (by omega))
  have hB : Near (6 + 2) (fmul (imgAspect w h) 2) (2 * ((w : ℚ) / h)) := by
    have := (hnear.scale 2).round (by norm_num) (by norm_num)
    unfold fmul
    rwa [mul_comm (imgAspect w h) 2]
  have hB0 : 0 < fmul (imgAspect w h) 2 := hB.pos hρ (by norm_num) (by norm_num)
  have hA0 : (0 : ℚ) ≤ ((c - 1 : ℤ) : ℚ) := by
    have : (0 : ℤ) ≤ c - 1 := by omega
    exact_mod_cast this
  have hV0 : 0 ≤ fdiv (ofInt (c - 1)) (fmul (imgAspect w h) 2) := by
    rw [hA]
    exact f64_nonneg (div_nonneg hA0 hB0.le)
  have hT : Near (6 + 2 + 2) (fmul (fmul (ofInt (r - 2)) (imgAspect w h)) 2)
      (((r - 2 : ℤ) : ℚ) * 2 * w / h) := by
    have h1 : Near (6 + 2) (fmul ((r - 2 : ℤ) : ℚ) (imgAspect w h))
        (((r - 2 : ℤ) : ℚ) * ((w : ℚ) / h)) :=
      (hnear.scale _).round (by norm_num) (by norm_num)
    have h2 := (h1.scale 2).round (by norm_num) (by norm_num)
    have e1 : 2 * fmul ((r - 2 : ℤ) : ℚ) (imgAspect w h)
        = fmul ((r - 2 : ℤ) : ℚ) (imgAspect w h) * 2 := by ring
    have e2 : 2 * (((r - 2 : ℤ) : ℚ) * ((w : ℚ) / h))
        = ((r - 2 : ℤ) : ℚ) * 2 * w / h := by ring
    rw [e1, e2] at h2
    rw [hM]
    exact h2
  by_cases hover : r - 2 < f2i (fdiv (ofInt (c - 1)) (fmul (imgAspect w h) 2))
  · have hfit : blockFit c r w h
        = (f2i (fmul (fmul (ofInt (r - 2)) (imgAspect w h)) 2), r - 2) := by
      unfold blockFit
      exact if_pos hover
    have hTle : f2i (fmul (fmul (ofInt (r - 2)) (imgAspect w h)) 2) ≤ c - 1 := by
      have := hraw.1
      rw [hfit] at this
      exact this
    rw [hfit]
    by_cases hr2 : 2 ≤ r
    · right
      have hM0 : (0 : ℚ) ≤ ((r - 2 : ℤ) : ℚ) := by
        have : (0 : ℤ) ≤ r - 2 := by omega
        exact_mod_cast this
      have hT0 : 0 ≤ fmul (fmul (ofInt (r - 2)) (imgAspect w h)) 2 := by
        rw [hM]
        exact f64_nonneg (mul_nonneg (f64_nonneg (mul_nonneg hM0 hapos.le)) (by norm_num))
      have hTb : |fmul (fmul (ofInt (r - 2)) (imgAspect w h)) 2| ≤ 2 ^ 19 := by
        rw [abs_of_nonneg hT0]
        have h1 := lt_f2i_add_one hT0
        have h2 : (f2i (fmul (fmul (ofInt (r - 2)) (imgAspect w h)) 2) : ℚ) ≤ 65534 := by
          have : f2i (fmul (fmul (ofInt (r - 2)) (imgAspect w h)) 2) ≤ 65534 := by omega
          exact_mod_cast this
        norm_num
        linarith
      exact trunc_close (by norm_num) (by norm_num) hT hTb
    · have hr1 : r = 1 := by omega
      subst hr1
      have hterr := trunc_err hT
      have hm1 : (((1 - 2 : ℤ)) : ℚ) = -1 := by norm_num
      rw [hm1] at hterr hT ⊢
      have hDpos : (0 : ℚ) < 2 * w / h := by positivity
      have habs : |(-1 : ℚ) * 2 * w / h| = 2 * w / h := by
        have : (-1 : ℚ) * 2 * w / h = -(2 * w / h) := by ring
        rw [this, abs_neg, abs_of_pos hDpos]
      rw [habs] at hterr
      have he' : eps = 1 / 2 ^ 53 := rfl
      rcases le_or_lt (2 * (w : ℚ) / h) (2 ^ 18) with hsmall | hbig
      · right
        have : (6 + 2 + 2) * eps * (2 * w / h) ≤ 1 / 2 ^ 30 := by
          have h1 : (6 + 2 + 2) * eps * (2 * (w : ℚ) / h) ≤ (6 + 2 + 2) * eps * 2 ^ 18 :=
            mul_le_mul_of_nonneg_left hsmall (by rw [he']; norm_num)
          have h2 : (6 + 2 + 2) * eps * 2 ^ 18 ≤ 1 / 2 ^ 30 := by
            rw [he']
            norm_num
          linarith
        simp only
        linarith
      · left
        simp only
        have e : ((-1 : ℚ)) - (f2i (fmul (fmul (ofInt (1 - 2)) (imgAspect w h)) 2) : ℚ) * h / (2 * w)
            = -(((f2i (fmul (fmul (ofInt (1 - 2)) (imgAspect w h)) 2) : ℚ)
                - (-1) * 2 * w / h) / (2 * w / h)) := by
          field_simp
          ring
        rw [e, abs_neg, abs_div, abs_of_pos hDpos, div_lt_iff₀ hDpos]
        have h1 : (1 : ℚ) + (6 + 2 + 2) * eps * (2 * w / h)
            ≤ (1 + 1 / 2 ^ 30) * (2 * w / h) := by
          rw [he']
          norm_num at hbig ⊢
          nlinarith
        linarith
  · have hfit : blockFit c r w h
        = (c - 1, f2i (fdiv (ofInt (c - 1)) (fmul (imgAspect w h) 2))) := by
      unfold blockFit
      exact if_neg hover
    have hVle : f2i (fdiv (ofInt (c - 1)) (fmul (imgAspect w h) 2)) ≤ r - 2 :=
      not_lt.mp hover
    rw [hfit]
    left
    have hV : Near (6 + 2 + 1 + 2) (fdiv (ofInt (c - 1)) (fmul (imgAspect w h) 2))
        (((c - 1 : ℤ) : ℚ) * h / (2 * w)) := by
      have e : ((c - 1 : ℤ) : ℚ) * h / (2 * w) = ((c - 1 : ℤ) : ℚ) / (2 * ((w : ℚ) / h)) := by
        field_simp
      rw [hA, e]
      exact (near_div _ hρ (by norm_num) (by norm_num) hB).round (by norm_num) (by norm_num)
    have hVb : |fdiv (ofInt (c - 1)) (fmul (imgAspect w h) 2)| ≤ 2 ^ 19 := by
      rw [abs_of_nonneg hV0]
      have h1 := lt_f2i_add_one hV0
      have h2 : (f2i (fdiv (ofInt (c - 1)) (fmul (imgAspect w h) 2)) : ℚ) ≤ 65533 := by
        have : f2i (fdiv (ofInt (c - 1)) (fmul (imgAspect w h) 2)) ≤ 65533 := by omega
        exact_mod_cast this
      norm_num
      linarith
    exact trunc_close (by norm_num) (by norm_num) hV hVb

/-! ## Range lemmas -/

theorem abs_f2i_le (x : ℚ) : |(f2i x : ℚ)| ≤ |x| := by
  rcases le_or_lt 0 x with hx | hx
  · have h0 : (0 : ℚ) ≤ f2i x := by exact_mod_cast f2i_nonneg hx
    rw [abs_of_nonneg h0, abs_of_nonneg hx]
    exact f2i_le_self hx
  · have h0 : (f2i x : ℚ) ≤ 0 := by exact_mod_cast f2i_nonpos hx.le
    rw [abs_of_nonpos h0, abs_of_neg hx]
    have := self_le_f2i hx.le
    linarith

/-- A value of magnitude at most `2^53` truncates to an integer of magnitude at
most `2^53`. -/
theorem f2i_bounds {x : ℚ} (h : |x| ≤ 2 ^ 53) :
    -9007199254740992 ≤ f2i x ∧ f2i x ≤ 9007199254740992 := by
  have h1 := (abs_f2i_le x).trans h
  rw [abs_le] at h1
  have h2 : ((-9007199254740992 : ℤ) : ℚ) ≤ f2i x := by
    push_cast
    norm_num at h1 ⊢
    exact h1.1
  have h3 : (f2i x : ℚ) ≤ ((9007199254740992 : ℤ) : ℚ) := by
    push_cast
    norm_num at h1 ⊢
    exact h1.2
  exact ⟨by exact_mod_cast h2, by exact_mod_cast h3⟩

theorem fitsInt_of_abs_le {x : ℚ} (h : |x| ≤ 2 ^ 53) : fitsInt x := by
  have hb := f2i_bounds h
  unfold fitsInt inInt
  constructor
  · norm_num
    omega
  · norm_num
    omega

theorem Near.abs_le_double {k V x : ℚ} (hk : k ≤ 12) (h : Near k V x) :
    |V| ≤ 2 * |x| := by
  have h1 := h.abs_le
  have he : eps = 1 / 2 ^ 53 := rfl
  have hx0 : 0 ≤ |x| := abs_nonneg x
  have hke : k * eps ≤ 1 := by
    have : k * eps ≤ 12 * eps := mul_le_mul_of_nonneg_right hk eps_pos.le
    rw [he] at this ⊢
    norm_num at this ⊢
    linarith
  have h2 : k * eps * |x| ≤ 1 * |x| := mul_le_mul_of_nonneg_right hke hx0
  linarith

/-- A budget of at most `2^20` scaled by an image side of at most `2^32` over a
divisor of at least 1 stays below `2^52`. -/
theorem abs_scaled_le {n p q : ℚ} (hn : |n| ≤ 2 ^ 20) (hp0 : 0 ≤ p) (hp : p ≤ 2 ^ 32)
    (hq : 1 ≤ q) : |n * p / q| ≤ 2 ^ 52 := by
  have hq0 : (0 : ℚ) < q := by linarith
  rw [abs_div, abs_mul, abs_of_nonneg hp0, abs_of_pos hq0, div_le_iff₀ hq0]
  have hn0 : 0 ≤ |n| := abs_nonneg n
  have h1 : |n| * p ≤ 2 ^ 20 * 2 ^ 32 := mul_le_mul hn hp hp0 (by norm_num)
  have h2 : (2 : ℚ) ^ 20 * 2 ^ 32 = 2 ^ 52 := by norm_num
  have h3 : (2 : ℚ) ^ 52 * 1 ≤ 2 ^ 52 * q := mul_le_mul_of_nonneg_left hq (by norm_num)
  linarith

theorem abs_intCast_le (n : ℤ) (h1 : -1048576 ≤ n) (h2 : n ≤ 1048576) :
    |(n : ℚ)| ≤ 2 ^ 20 := by
  rw [abs_le]
  have a : ((-1048576 : ℤ) : ℚ) ≤ n := by exact_mod_cast h1
  have b : (n : ℚ) ≤ ((1048576 : ℤ) : ℚ) := by exact_mod_cast h2
  push_cast at a b
  constructor <;> norm_num <;> linarith

/-- The height of the block fit by width, against its exact value. -/
theorem block_widthFirst_near (c w h : ℤ) (hw : 0 < w) (hh : 0 < h) (hc : 1 ≤ c)
    (hc' : c ≤ 65535) :
    Near (6 + 2 + 1 + 2) (fdiv (ofInt (c - 1)) (fmul (imgAspect w h) 2))
      (((c - 1 : ℤ) : ℚ) * h / (2 * w)) := by
  have hwq : (0 : ℚ) < w := by exact_mod_cast hw
  have hhq : (0 : ℚ) < h := by exact_mod_cast hh
  have hnear := imgAspect_near w h hh
  have hρ : (0 : ℚ) < 2 * ((w : ℚ) / h) := by positivity
  have hA : ofInt (c - 1) = ((c - 1 : ℤ) : ℚ) :=
    ofInt_eq _ (abs_lt_two_pow_53 _ (by omega) (by omega))
  have hB : Near (6 + 2) (fmul (imgAspect w h) 2) (2 * ((w : ℚ) / h)) := by
    have := (hnear.scale 2).round (by norm_num) (by norm_num)
    unfold fmul
    rwa [mul_comm (imgAspect w h) 2]
  have e : ((c - 1 : ℤ) : ℚ) * h / (2 * w) = ((c - 1 : ℤ) : ℚ) / (2 * ((w : ℚ) / h)) := by
    field_simp
  rw [hA, e]
  exact (near_div _ hρ (by norm_num) (by norm_num) hB).round (by norm_num) (by norm_num)

/-- The width of the block refit by height, against its exact value. -/
theorem block_heightFirst_near (r w h : ℤ) (hh : 0 < h) (hr : 1 ≤ r) (hr' : r ≤ 65535) :
    Near (6 + 2 + 2) (fmul (fmul (ofInt (r - 2)) (imgAspect w h)) 2)
      (((r - 2 : ℤ) : ℚ) * 2 * w / h) := by
  have hnear := imgAspect_near w h hh
  have hM : ofInt (r - 2) = ((r - 2 : ℤ) : ℚ) :=
    ofInt_eq _ (abs_lt_two_pow_53 _ (by omega) (by omega))
  have h1 : Near (6 + 2) (fmul ((r - 2 : ℤ) : ℚ) (imgAspect w h))
      (((r - 2 : ℤ) : ℚ) * ((w : ℚ) / h)) :=
    (hnear.scale _).round (by norm_num) (by norm_num)
  have h2 := (h1.scale 2).round (by norm_num) (by norm_num)
  have e1 : 2 * fmul ((r - 2 : ℤ) : ℚ) (imgAspect w h)
      = fmul ((r - 2 : ℤ) : ℚ) (imgAspect w h) * 2 := by ring
  have e2 : 2 * (((r - 2 : ℤ) : ℚ) * ((w : ℚ) / h))
      = ((r - 2 : ℤ) : ℚ) * 2 * w / h := by ring
  rw [e1, e2] at h2
  rw [hM]
  exact h2

/-- The height of the sixel fit by width, against its exact value. -/
theorem sixel_widthFirst_near (c w h : ℤ) (hw : 0 < w) (hh : 0 < h) (hc : 1 ≤ c)
    (hc' : c ≤ 65535) :
    Near (6 + 1 + 2) (fdiv (ofInt ((c - 1) * 8)) (imgAspect w h))
      ((((c - 1) * 8 : ℤ) : ℚ) * h / w) := by
  have hwq : (0 : ℚ) < w := by exact_mod_cast hw
  have hhq : (0 : ℚ) < h := by exact_mod_cast hh
  have hnear := imgAspect_near w h hh
  have hρ : (0 : ℚ) < (w : ℚ) / h := by positivity
  have hA : ofInt ((c - 1) * 8) = (((c - 1) * 8 : ℤ) : ℚ) :=
    ofInt_eq _ (abs_lt_two_pow_53 _ (by omega) (by omega))
  have e : (((c - 1) * 8 : ℤ) : ℚ) * h / w = (((c - 1) * 8 : ℤ) : ℚ) / ((w : ℚ) / h) := by
    field_simp
  rw [hA, e]
  exact (near_div _ hρ (by norm_num) (by norm_num) hnear).round (by norm_num) (by norm_num)

/-- The width of the sixel refit by height, against its exact value. -/
theorem sixel_heightFirst_near (r w h : ℤ) (hh : 0 < h) (hr : 1 ≤ r) (hr' : r ≤ 65535) :
    Near (6 + 2) (fmul (ofInt ((r - 4) * 6)) (imgAspect w h))
      ((((r - 4) * 6 : ℤ) : ℚ) * w / h) := by
  have hnear := imgAspect_near w h hh
  have hM : ofInt ((r - 4) * 6) = (((r - 4) * 6 : ℤ) : ℚ) :=
    ofInt_eq _ (abs_lt_two_pow_53 _ (by omega) (by omega))
  rw [hM, mul_div_assoc]
  exact (hnear.scale _).round (by norm_num) (by norm_num)

theorem intCast_bounds (w : ℤ) (hw : 0 < w) (hw' : w ≤ 2 ^ 32) :
    (1 : ℚ) ≤ w ∧ (w : ℚ) ≤ 2 ^ 32 := by
  have h1 : (1 : ℤ) ≤ w := hw
  exact ⟨by exact_mod_cast h1, by exact_mod_cast hw'⟩

theorem near_scaled_abs_le {k V n p q : ℚ} (hk : k ≤ 12)
    (h : Near k V (n * p / q)) (hn : |n| ≤ 2 ^ 20) (hp0 : 0 ≤ p) (hp : p ≤ 2 ^ 32)
    (hq : 1 ≤ q) : |V| ≤ 2 ^ 53 := by
  have h1 := h.abs_le_double hk
  have h2 := abs_scaled_le hn hp0 hp hq
  norm_num at h2 ⊢
  linarith

theorem block_widthFirst_abs_le (c w h : ℤ) (hw : 0 < w) (hh : 0 < h) (hh' : h ≤ 2 ^ 32)
    (hc : 1 ≤ c) (hc' : c ≤ 65535) :
    |fdiv (ofInt (c - 1)) (fmul (imgAspect w h) 2)| ≤ 2 ^ 53 := by
  have hn := block_widthFirst_near c w h hw hh hc hc'
  have hwb : (1 : ℚ) ≤ w := by exact_mod_cast (show (1 : ℤ) ≤ w from hw)
  have hhb := intCast_bounds h hh hh'
  exact near_scaled_abs_le (by norm_num) hn
    (abs_intCast_le _ (by omega) (by omega)) (by linarith [hhb.1]) hhb.2 (by linarith)

theorem block_heightFirst_abs_le (r w h : ℤ) (hw : 0 < w) (hw' : w ≤ 2 ^ 32) (hh : 0 < h)
    (hr : 1 ≤ r) (hr' : r ≤ 65535) :
    |fmul (fmul (ofInt (r - 2)) (imgAspect w h)) 2| ≤ 2 ^ 53 := by
  have hn := block_heightFirst_near r w h hh hr hr'
  have hwb := intCast_bounds w hw hw'
  have hhb : (1 : ℚ) ≤ h := by exact_mod_cast (show (1 : ℤ) ≤ h from hh)
  have hm : |((r - 2 : ℤ) : ℚ) * 2| ≤ 2 ^ 20 := by
    have := abs_intCast_le ((r - 2) * 2) (by omega) (by omega)
    push_cast at this ⊢
    exact this
  exact near_scaled_abs_le (by norm_num) hn hm (by linarith [hwb.1]) hwb.2 hhb

theorem sixel_widthFirst_abs_le (c w h : ℤ) (hw : 0 < w) (hh : 0 < h) (hh' : h ≤ 2 ^ 32)
    (hc : 1 ≤ c) (hc' : c ≤ 65535) :
    |fdiv (ofInt ((c - 1) * 8)) (imgAspect w h)| ≤ 2 ^ 53 := by
  have hn := sixel_widthFirst_near c w h hw hh hc hc'
  have hwb : (1 : ℚ) ≤ w := by exact_mod_cast (show (1 : ℤ) ≤ w from hw)
  have hhb := intCast_bounds h hh hh'
  exact near_scaled_abs_le (by norm_num) hn
    (abs_intCast_le _ (by omega) (by omega)) (by linarith [hhb.1]) hhb.2 hwb

theorem sixel_heightFirst_abs_le (r w h : ℤ) (hw : 0 < w) (hw' : w ≤ 2 ^ 32) (hh : 0 < h)
    (hr : 1 ≤ r) (hr' : r ≤ 65535) :
    |fmul (ofInt ((r - 4) * 6)) (imgAspect w h)| ≤ 2 ^ 53 := by
  have hn := sixel_heightFirst_near r w h hh hr hr'
  have hwb := intCast_bounds w hw hw'
  have hhb : (1 : ℚ) ≤ h := by exact_mod_cast (show (1 : ℤ) ≤ h from hh)
  exact near_scaled_abs_le (by norm_num) hn
    (abs_intCast_le _ (by omega) (by omega)) (by linarith [hwb.1]) hwb.2 hhb

/-- For image sides of at most `2^32` and a terminal of at most 65535 columns and
rows, every conversion in the sixel fit has its truncation inside `int`. -/
theorem sixelFit_inRange (c r w h : ℤ) (hw : 0 < w) (hw' : w ≤ 2 ^ 32) (hh : 0 < h)
    (hh' : h ≤ 2 ^ 32) (hc : 1 ≤ c) (hc' : c ≤ 65535) (hr : 1 ≤ r) (hr' : r ≤ 65535) :
    sixelFitInRange c r w h :=
  ⟨fitsInt_of_abs_le (sixel_widthFirst_abs_le c w h hw hh hh' hc hc'),
   fitsInt_of_abs_le (sixel_heightFirst_abs_le r w h hw hw' hh hr hr')⟩

/-- For image sides of at most `2^32` and a terminal of at most 65535 columns and
rows, every conversion in the block fit has its truncation inside `int`, and
`charHeight * 2` and `termWidth - charWidth` do not wrap. -/
theorem blockFit_inRange (c r w h : ℤ) (hw : 0 < w) (hw' : w ≤ 2 ^ 32) (hh : 0 < h)
    (hh' : h ≤ 2 ^ 32) (hc : 1 ≤ c) (hc' : c ≤ 65535) (hr : 1 ≤ r) (hr' : r ≤ 65535) :
    blockFitInRange c r w h := by
  have hV := block_widthFirst_abs_le c w h hw hh hh' hc hc'
  have hT := block_heightFirst_abs_le r w h hw hw' hh hr hr'
  have bV := f2i_bounds hV
  have bT := f2i_bounds hT
  refine ⟨fitsInt_of_abs_le hV, fitsInt_of_abs_le hT, ?_⟩
  unfold blockFit inInt
  simp only
  norm_num
  split_ifs <;> simp only <;> omega

theorem tdiv_two_nonpos {n : ℤ} (h : n < 0) : Int.tdiv n 2 ≤ 0 := by
  have h1 : Int.tdiv n 2 = -(Int.tdiv (-n) 2) := by rw [Int.neg_tdiv, neg_neg]
  have h2 := Int.tdiv_nonneg (by omega : 0 ≤ -n) (by norm_num : (0 : ℤ) ≤ 2)
  omega

/-- The block padding is never negative and, for a width inside the column
budget, padding plus width stays inside the terminal, also where the
subtraction wraps. -/
theorem blockPadding_bounds (c cw : ℤ) (hb : cw ≤ c - 1) :
    0 ≤ blockPadding true c cw ∧ blockPadding true c cw + cw ≤ c + 1 := by
  simp only [blockPadding, if_true]
  rcases lt_or_le (wrapInt (c - cw)) 0 with hn | hn
  · have h1 := tdiv_two_nonpos hn
    constructor <;> split_ifs <;> omega
  · have hdiv : Int.tdiv (wrapInt (c - cw)) 2 = wrapInt (c - cw) / 2 :=
      Int.tdiv_eq_ediv hn (by norm_num)
    have hle : wrapInt (c - cw) ≤ c - cw := by
      unfold wrapInt
      norm_num
      omega
    rw [hdiv]
    constructor <;> split_ifs <;> omega

/-! ## Compositor lemmas -/

theorem mem_intRange (lo hi y : ℤ) : y ∈ intRange lo hi ↔ lo ≤ y ∧ y < hi := by
  unfold intRange
  simp only [List.mem_map, List.mem_range]
  constructor
  · rintro ⟨i, hi', rfl⟩
    have := Int.lt_toNat.mp hi'
    omega
  · intro h
    have h0 : ((y - lo).toNat : ℤ) = y - lo := Int.toNat_of_nonneg (by omega)
    refine ⟨(y - lo).toNat, ?_, by omega⟩
    apply Int.lt_toNat.mpr
    omega

theorem foldl_flag (P : ℤ → Prop) [DecidablePred P] (xs : List ℤ) (b : Bool) :
    xs.foldl (fun hasAlpha x => if hasAlpha then hasAlpha else decide (P x)) b
      = (b || xs.any (fun x => decide (P x))) := by
  induction xs generalizing b with
  | nil => simp
  | cons x xs ih =>
    rw [List.foldl_cons, ih]
    cases b <;> simp

theorem foldl_flag_rows (f : ℤ → Bool) (ys : List ℤ) (b : Bool) :
    ys.foldl (fun hasAlpha y => if hasAlpha then hasAlpha else (hasAlpha || f y)) b
      = (b || ys.any f) := by
  induction ys generalizing b with
  | nil => simp
  | cons y ys ih =>
    rw [List.foldl_cons, ih]
    cases b <;> simp

theorem scanAlpha_eq_any (img : Image) :
    scanAlpha img = (intRange img.bounds.minY img.bounds.maxY).any (fun y =>
      (intRange img.bounds.minX img.bounds.maxX).any (fun x =>
        decide ((img.At x y).a < 65535))) := by
  unfold scanAlpha
  have h : ∀ y : ℤ, (fun (hasAlpha : Bool) => if hasAlpha then hasAlpha
      else (intRange img.bounds.minX img.bounds.maxX).foldl
          (fun hasAlpha x =>
            if hasAlpha then hasAlpha else decide ((img.At x y).a < 65535)) hasAlpha)
      = (fun hasAlpha => if hasAlpha then hasAlpha
          else (hasAlpha || (intRange img.bounds.minX img.bounds.maxX).any
            (fun x => decide ((img.At x y).a < 65535)))) := by
    intro y
    funext b
    rw [foldl_flag (fun x => (img.At x y).a < 65535)]
  have h2 : (fun (hasAlpha : Bool) (y : ℤ) => if hasAlpha then hasAlpha
      else (intRange img.bounds.minX img.bounds.maxX).foldl
          (fun hasAlpha x =>
            if hasAlpha then hasAlpha else decide ((img.At x y).a < 65535)) hasAlpha)
      = (fun hasAlpha y => if hasAlpha then hasAlpha
          else (hasAlpha || (intRange img.bounds.minX img.bounds.maxX).any
            (fun x => decide ((img.At x y).a < 65535)))) := by
    funext b y
    exact congrFun (h y) b
  rw [h2, foldl_flag_rows]
  simp

theorem scanAlpha_iff (img : Image) :
    scanAlpha img = true ↔ ∃ x y, img.bounds.In x y ∧ (img.At x y).a < 65535 := by
  rw [scanAlpha_eq_any]
  simp only [List.any_eq_true, mem_intRange, decide_eq_true_eq, Rectangle.In]
  constructor
  · rintro ⟨y, hy, x, hx, ha⟩
    exact ⟨x, y, ⟨hx.1, hx.2, hy.1, hy.2⟩, ha⟩
  · rintro ⟨x, y, ⟨h1, h2, h3, h4⟩, ha⟩
    exact ⟨y, ⟨h3, h4⟩, x, ⟨h1, h2⟩, ha⟩

theorem SetRGBA_rect (p : RGBAImage) (x y : ℤ) (c : RGBA8) :
    (p.SetRGBA x y c).rect = p.rect := by
  unfold RGBAImage.SetRGBA
  split_ifs <;> rfl

theorem foldl_row_rect (f : ℤ → RGBA8) (y : ℤ) (xs : List ℤ) (p : RGBAImage) :
    (xs.foldl (fun acc x => acc.SetRGBA x y (f x)) p).rect = p.rect := by
  induction xs generalizing p with
  | nil => rfl
  | cons x xs ih => rw [List.foldl_cons, ih, SetRGBA_rect]

theorem foldl_row_pix (f : ℤ → RGBA8) (y : ℤ) (xs : List ℤ) (p : RGBAImage) (x' y' : ℤ) :
    (xs.foldl (fun acc x => acc.SetRGBA x y (f x)) p).pix x' y'
      = if y' = y ∧ x' ∈ xs ∧ p.rect.In x' y then f x' else p.pix x' y' := by
  induction xs generalizing p with
  | nil => simp
  | cons x xs ih =>
    rw [List.foldl_cons, ih, SetRGBA_rect]
    by_cases hy : y' = y
    · subst hy
      by_cases hin : p.rect.In x' y'
      · by_cases hxs : x' ∈ xs
        · simp [hxs, hin]
        · by_cases hx : x' = x
          · subst hx
            simp [hxs, hin, RGBAImage.SetRGBA]
          · have : ¬ p.rect.In x y' ∨ p.rect.In x y' := (em _).symm
            rcases this with h | h <;> simp [hxs, hx, hin, h, RGBAImage.SetRGBA]
      · by_cases hx : p.rect.In x y'
        · simp only [hin, and_false, if_false, RGBAImage.SetRGBA, if_pos hx]
          have : ¬ (x' = x) := by
            rintro rfl
            exact hin hx
          simp [this]
        · simp [hin, RGBAImage.SetRGBA, hx]
    · by_cases hx : p.rect.In x y
      · simp [hy, RGBAImage.SetRGBA, hx]
      · simp [hy, RGBAImage.SetRGBA, hx]

theorem foldl_rows_rect (g : ℤ → ℤ → RGBA8) (xs ys : List ℤ) (p : RGBAImage) :
    (ys.foldl (fun acc y => xs.foldl (fun acc x => acc.SetRGBA x y (g x y)) acc) p).rect
      = p.rect := by
  induction ys generalizing p with
  | nil => rfl
  | cons y ys ih => rw [List.foldl_cons, ih, foldl_row_rect (fun x => g x y)]

theorem foldl_rows_pix (g : ℤ → ℤ → RGBA8) (xs ys : List ℤ) (p : RGBAImage) (x' y' : ℤ) :
    (ys.foldl (fun acc y => xs.foldl (fun acc x => acc.SetRGBA x y (g x y)) acc) p).pix x' y'
      = if y' ∈ ys ∧ x' ∈ xs ∧ p.rect.In x' y' then g x' y' else p.pix x' y' := by
  induction ys generalizing p with
  | nil => simp
  | cons y ys ih =>
    rw [List.foldl_cons, ih, foldl_row_rect (fun x => g x y),
      foldl_row_pix (fun x => g x y)]
    by_cases hy : y' = y
    · subst hy
      by_cases hys : y' ∈ ys <;> by_cases hxs : x' ∈ xs <;>
        by_cases hin : p.rect.In x' y' <;> simp [hys, hxs, hin]
    · simp [hy]

theorem compositeAll_rect (img : Image) (p : RGBAImage) :
    (compositeAll img p).rect = p.rect :=
  foldl_rows_rect (fun x y => compositePixel (img.At x y)) _ _ p

theorem compositeAll_pix (img : Image) (x y : ℤ) (h : img.bounds.In x y) :
    (compositeAll img (NewRGBA img.bounds)).pix x y = compositePixel (img.At x y) := by
  unfold compositeAll
  rw [foldl_rows_pix (fun x y => compositePixel (img.At x y))]
  have hx : x ∈ intRange img.bounds.minX img.bounds.maxX :=
    (mem_intRange _ _ _).mpr ⟨h.1, h.2.1⟩
  have hy : y ∈ intRange img.bounds.minY img.bounds.maxY :=
    (mem_intRange _ _ _).mpr ⟨h.2.2.1, h.2.2.2⟩
  have hin : (NewRGBA img.bounds).rect.In x y := h
  rw [if_pos ⟨hy, hx, hin⟩]

theorem compositePixel_A (c : Color16) : (compositePixel c).A = 255 := by
  unfold compositePixel
  simp only
  split_ifs <;> rfl

theorem composited_At (img : Image) (x y : ℤ) (h : img.bounds.In x y) :
    (compositeAll img (NewRGBA img.bounds)).toImage.At x y
      = (compositePixel (img.At x y)).RGBA := by
  have hr : (compositeAll img (NewRGBA img.bounds)).rect = img.bounds :=
    compositeAll_rect img _
  show RGBAImage.At _ x y = _
  unfold RGBAImage.At
  rw [hr, if_pos h, compositeAll_pix img x y h]

theorem composited_alpha (img : Image) (x y : ℤ) (h : img.bounds.In x y) :
    ((compositeAll img (NewRGBA img.bounds)).toImage.At x y).a = 65535 := by
  rw [composited_At img x y h]
  show (compositePixel (img.At x y)).A ||| ((compositePixel (img.At x y)).A <<< 8) = 65535
  rw [compositePixel_A]
  decide

theorem scanAlpha_composited (img : Image) :
    scanAlpha (compositeAll img (NewRGBA img.bounds)).toImage = false := by
  rw [Bool.eq_false_iff]
  intro hs
  obtain ⟨x, y, hin, ha⟩ := (scanAlpha_iff _).mp hs
  have hr : (compositeAll img (NewRGBA img.bounds)).rect = img.bounds :=
    compositeAll_rect img _
  have hin' : img.bounds.In x y := by
    have : (compositeAll img (NewRGBA img.bounds)).rect.In x y := hin
    rwa [hr] at this
  have := composited_alpha img x y hin'
  omega

theorem handleTransparency_of_scan (img : Image) (h : scanAlpha img = true) :
    handleTransparency img = (compositeAll img (NewRGBA img.bounds)).toImage := by
  unfold handleTransparency
  simp [h]

theorem handleTransparency_of_not_scan (img : Image) (h : scanAlpha img = false) :
    handleTransparency img = img := by
  unfold handleTransparency
  simp [h]

theorem handleTransparency_idem_aux (img : Image) :
    handleTransparency (handleTransparency img) = handleTransparency img := by
  cases h : scanAlpha img
  · rw [handleTransparency_of_not_scan img h, handleTransparency_of_not_scan img h]
  · rw [handleTransparency_of_scan img h]
    exact handleTransparency_of_not_scan _ (scanAlpha_composited img)

theorem handleTransparency_bounds (img : Image) : (handleTransparency img).bounds = img.bounds := by
  cases h : scanAlpha img
  · rw [handleTransparency_of_not_scan img h]
  · rw [handleTransparency_of_scan img h]
    exact compositeAll_rect img _

/-! ## Claims -/

/-- C1 (failing inputs): `renderBlock` has no minimum-1 clamp. A 100x50 image on an
80x2 terminal is fitted to 0x0 cells, so `resize.Resize` is called with width 0
and height 0; on an 80x1 terminal the fit is -4 x -1 cells. -/
theorem blockFit_not_clamped :
    blockFit 80 2 100 50 = (0, 0) ∧ blockPixels 80 2 100 50 = (0, 0)
      ∧ blockResizeArgs 80 2 100 50 = (0, 0) ∧ blockFit 80 1 100 50 = (-4, -1) := by
  refine ⟨blockFit_80_2_100_50, ?_, ?_, blockFit_80_1_100_50⟩
  · simp [blockPixels, blockFit_80_2_100_50]
  · simp [blockResizeArgs, blockPixels, blockFit_80_2_100_50, toUint]

/-- C2: in sixel mode both target dimensions are at least 1 after the clamp, for
every image size and every terminal geometry, whatever the sign of the pixel
budget. -/
theorem sixelFit_ge_one (termWidth termHeight imgWidth imgHeight : ℤ) :
    1 ≤ (sixelFit termWidth termHeight imgWidth imgHeight).1
      ∧ 1 ≤ (sixelFit termWidth termHeight imgWidth imgHeight).2 :=
  sixelFit_ge_one_aux termWidth termHeight imgWidth imgHeight

/-- C3 (counterexample): on a terminal one column wide the sixel fit of a 100x50
image is 1x1 pixels, wider than the width budget `(1 - 1) * 8 = 0`. -/
theorem sixelFit_exceeds_zero_budget :
    ¬ ((sixelFit 1 24 100 50).1 ≤ (1 - 1) * 8 ∧ (sixelFit 1 24 100 50).2 ≤ (24 - 4) * 6) := by
  rw [sixelFit_1_24_100_50]
  norm_num

/-- C3 (amended): in sixel mode, for every image with positive sides and every
terminal geometry with 1 to 65535 columns and at most 65535 rows (so for every
rows from 1 on), the final target width is at most `max 1 ((columns - 1) * 8)` and the final target height at most
`max 1 ((rows - 4) * 6)`: the fit stays inside the pixel budget except where the
minimum-1 clamp lifts a dimension to 1. -/
theorem sixelFit_le_budget (columns rows imgWidth imgHeight : ℤ) (hw : 0 < imgWidth)
    (hh : 0 < imgHeight) (hc : 1 ≤ columns) (hc' : columns ≤ 65535)
    (hr' : rows ≤ 65535) :
    (sixelFit columns rows imgWidth imgHeight).1 ≤ max 1 ((columns - 1) * 8)
      ∧ (sixelFit columns rows imgWidth imgHeight).2 ≤ max 1 ((rows - 4) * 6) := by
  have h := sixelFitRaw_le columns rows imgWidth imgHeight hw hh hc hc' hr'
  unfold sixelFit
  simp only
  constructor <;> split_ifs <;> simp only [le_max_iff] <;> omega

theorem sixelFit_le_budget_witness :
    (sixelFit 80 24 100 50).1 ≤ max 1 ((80 - 1) * 8)
      ∧ (sixelFit 80 24 100 50).2 ≤ max 1 ((24 - 4) * 6) :=
  sixelFit_le_budget 80 24 100 50 (by decide) (by decide) (by decide) (by decide)
    (by decide)

/-- C4: in block mode, for every image with positive sides of at most `2^32` and
every terminal geometry with 1 to 65535 columns and 1 to 65535 rows, every
conversion and integer operation of the fit stays inside `int`, the fitted width
is at most `columns - 1` cells and the fitted pixel height `2 * charHeight` at
most `(rows - 2) * 2`; in particular, when the fit-by-width height overflows,
the fit is the refit by height and its recomputed width
`int(charHeight * imgAspect * 2)` is still at most `columns - 1`. -/
theorem blockFit_le_budget (columns rows imgWidth imgHeight : ℤ) (hw : 0 < imgWidth)
    (hw' : imgWidth ≤ 2 ^ 32) (hh : 0 < imgHeight) (hh' : imgHeight ≤ 2 ^ 32)
    (hc : 1 ≤ columns) (hc' : columns ≤ 65535) (hr : 1 ≤ rows) (hr' : rows ≤ 65535) :
    blockFitInRange columns rows imgWidth imgHeight
      ∧ (blockFit columns rows imgWidth imgHeight).1 ≤ columns - 1
      ∧ 2 * (blockFit columns rows imgWidth imgHeight).2 ≤ (rows - 2) * 2
      ∧ (rows - 2 < f2i (fdiv (ofInt (columns - 1)) (fmul (imgAspect imgWidth imgHeight) 2)) →
          blockFit columns rows imgWidth imgHeight
              = (f2i (fmul (fmul (ofInt (rows - 2)) (imgAspect imgWidth imgHeight)) 2),
                  rows - 2)
            ∧ f2i (fmul (fmul (ofInt (rows - 2)) (imgAspect imgWidth imgHeight)) 2)
              ≤ columns - 1) := by
  have h := blockFit_le columns rows imgWidth imgHeight hw hh hc hc' hr'
  refine ⟨blockFit_inRange columns rows imgWidth imgHeight hw hw' hh hh' hc hc' hr hr',
    h.1, by omega, ?_⟩
  intro hover
  have hfit : blockFit columns rows imgWidth imgHeight
      = (f2i (fmul (fmul (ofInt (rows - 2)) (imgAspect imgWidth imgHeight)) 2), rows - 2) := by
    unfold blockFit
    exact if_pos hover
  have h1 := h.1
  rw [hfit] at h1
  exact ⟨hfit, h1⟩

theorem blockFit_le_budget_witness :
    blockFitInRange 80 10 100 50
      ∧ (blockFit 80 10 100 50).1 ≤ 80 - 1
      ∧ 2 * (blockFit 80 10 100 50).2 ≤ (10 - 2) * 2
      ∧ (10 : ℤ) - 2 < f2i (fdiv (ofInt (80 - 1)) (fmul (imgAspect 100 50) 2))
      ∧ blockFit 80 10 100 50
          = (f2i (fmul (fmul (ofInt (10 - 2)) (imgAspect 100 50)) 2), 10 - 2)
      ∧ f2i (fmul (fmul (ofInt (10 - 2)) (imgAspect 100 50)) 2) ≤ 80 - 1 :=
  have hover : (10 : ℤ) - 2 < f2i (fdiv (ofInt (80 - 1)) (fmul (imgAspect 100 50) 2)) := by
    rw [block_width_first_100_50]
    decide
  have h := blockFit_le_budget 80 10 100 50 (by decide) (by decide) (by decide) (by decide)
    (by decide) (by decide) (by decide) (by decide)
  ⟨h.1, h.2.1, h.2.2.1, hover, (h.2.2.2 hover).1, (h.2.2.2 hover).2⟩

/-- C5 (counterexample): for a 7x3 image on a 36x24 terminal the sixel fit is
280x119 pixels; the exact height for width 280 is 120 and the exact width for
height 119 is 277.67, so neither axis is strictly within one pixel. -/
theorem sixelFit_aspect_not_strict :
    ¬ (|((sixelFit 36 24 7 3).2 : ℚ) - (sixelFit 36 24 7 3).1 * (3 : ℤ) / (7 : ℤ)| < 1
      ∨ |((sixelFit 36 24 7 3).1 : ℚ) - (sixelFit 36 24 7 3).2 * (7 : ℤ) / (3 : ℤ)| < 1) := by
  rw [sixelFit_36_24_7_3]
  norm_num [abs_lt]

/-- C5 (amended): in sixel mode, for every image with positive width `w` and
height `h` of at most `2^32` and every terminal geometry with 1 to 65535 columns
and 1 to 65535 rows, every conversion of the fit stays inside `int` and the
final fit satisfies `|targetHeight - targetWidth*h/w| < 1 + 2^-30` or
`|targetWidth - targetHeight*w/h| < 1 + 2^-30` in exact arithmetic; when both
image sides are at most `2^30` the error on that axis is at most one pixel
(`≤ 1`, the value 1 being attained). -/
theorem sixelFit_aspect (columns rows w h : ℤ) (hw : 0 < w) (hw' : w ≤ 2 ^ 32)
    (hh : 0 < h) (hh' : h ≤ 2 ^ 32) (hc : 1 ≤ columns) (hc' : columns ≤ 65535)
    (hr : 1 ≤ rows) (hr' : rows ≤ 65535) :
    sixelFitInRange columns rows w h
    ∧ (|((sixelFit columns rows w h).2 : ℚ) - (sixelFit columns rows w h).1 * h / w|
        < 1 + 1 / 2 ^ 30
      ∨ |((sixelFit columns rows w h).1 : ℚ) - (sixelFit columns rows w h).2 * w / h|
        < 1 + 1 / 2 ^ 30)
    ∧ (w ≤ 2 ^ 30 → h ≤ 2 ^ 30 →
      (|((sixelFit columns rows w h).2 : ℚ) - (sixelFit columns rows w h).1 * h / w| ≤ 1
        ∨ |((sixelFit columns rows w h).1 : ℚ) - (sixelFit columns rows w h).2 * w / h|
          ≤ 1)) := by
  have key := sixel_aspect_aux columns rows w h hw hh hc hc' hr'
  refine ⟨sixelFit_inRange columns rows w h hw hw' hh hh' hc hc' hr hr', key,
    fun hw30 hh30 => ?_⟩
  rcases key with h1 | h1
  · left
    have := tol_to_le (sixelFit columns rows w h).2 ((sixelFit columns rows w h).1 * h) w
      hw hw30 (by push_cast; exact h1)
    push_cast at this
    exact this
  · right
    have := tol_to_le (sixelFit columns rows w h).1 ((sixelFit columns rows w h).2 * w) h
      hh hh30 (by push_cast; exact h1)
    push_cast at this
    exact this

theorem sixelFit_aspect_witness :
    sixelFitInRange 36 24 7 3
    ∧ (|((sixelFit 36 24 7 3).2 : ℚ) - (sixelFit 36 24 7 3).1 * (3 : ℤ) / (7 : ℤ)|
        < 1 + 1 / 2 ^ 30
      ∨ |((sixelFit 36 24 7 3).1 : ℚ) - (sixelFit 36 24 7 3).2 * (7 : ℤ) / (3 : ℤ)|
        < 1 + 1 / 2 ^ 30)
    ∧ (|((sixelFit 36 24 7 3).2 : ℚ) - (sixelFit 36 24 7 3).1 * (3 : ℤ) / (7 : ℤ)| ≤ 1
        ∨ |((sixelFit 36 24 7 3).1 : ℚ) - (sixelFit 36 24 7 3).2 * (7 : ℤ) / (3 : ℤ)|
          ≤ 1) :=
  have h := sixelFit_aspect 36 24 7 3 (by decide) (by decide) (by decide) (by decide)
    (by decide) (by decide) (by decide) (by decide)
  ⟨h.1, h.2.1, h.2.2 (by decide) (by decide)⟩

/-- C6 (counterexample): for a 7x6 image on a 36x16 terminal the block fit is
35x14 cells; the exact height for width 35 is 15 and the exact width for height
14 is 32.67, so neither axis is strictly within one cell. -/
theorem blockFit_aspect_not_strict :
    ¬ (|((blockFit 36 16 7 6).2 : ℚ) - (blockFit 36 16 7 6).1 * (6 : ℤ) / (2 * (7 : ℤ))| < 1
      ∨ |((blockFit 36 16 7 6).1 : ℚ) - (blockFit 36 16 7 6).2 * 2 * (7 : ℤ) / (6 : ℤ)| < 1) := by
  rw [blockFit_36_16_7_6]
  norm_num [abs_lt]

/-- C6 (amended): in block mode, for every image with positive width `w` and
height `h` of at most `2^32` and every terminal geometry with 1 to 65535 columns
and rows, every conversion and integer operation of the fit stays inside `int`
and the fitted cell grid satisfies `|charHeight - charWidth*h/(2*w)| < 1 + 2^-30`
or `|charWidth - charHeight*2*w/h| < 1 + 2^-30` in exact arithmetic; when both
image sides are at most `2^29` the error on that axis is at most one cell
(`≤ 1`, the value 1 being attained). -/
theorem blockFit_aspect (columns rows w h : ℤ) (hw : 0 < w) (hw' : w ≤ 2 ^ 32)
    (hh : 0 < h) (hh' : h ≤ 2 ^ 32) (hc : 1 ≤ columns) (hc' : columns ≤ 65535)
    (hr : 1 ≤ rows) (hr' : rows ≤ 65535) :
    blockFitInRange columns rows w h
    ∧ (|((blockFit columns rows w h).2 : ℚ) - (blockFit columns rows w h).1 * h / (2 * w)|
        < 1 + 1 / 2 ^ 30
      ∨ |((blockFit columns rows w h).1 : ℚ) - (blockFit columns rows w h).2 * 2 * w / h|
        < 1 + 1 / 2 ^ 30)
    ∧ (w ≤ 2 ^ 29 → h ≤ 2 ^ 29 →
      (|((blockFit columns rows w h).2 : ℚ) - (blockFit columns rows w h).1 * h / (2 * w)|
          ≤ 1
        ∨ |((blockFit columns rows w h).1 : ℚ) - (blockFit columns rows w h).2 * 2 * w / h|
          ≤ 1)) := by
  have key := block_aspect_aux columns rows w h hw hh hc hc' hr hr'
  refine ⟨blockFit_inRange columns rows w h hw hw' hh hh' hc hc' hr hr', key,
    fun hw29 hh29 => ?_⟩
  rcases key with h1 | h1
  · left
    have := tol_to_le (blockFit columns rows w h).2 ((blockFit columns rows w h).1 * h)
      (2 * w) (by omega) (by norm_num at hw29 ⊢; omega) (by push_cast; exact h1)
    push_cast at this
    exact this
  · right
    have := tol_to_le (blockFit columns rows w h).1 ((blockFit columns rows w h).2 * 2 * w)
      h hh (by norm_num at hh29 ⊢; omega) (by push_cast; exact h1)
    push_cast at this
    exact this

theorem blockFit_aspect_witness :
    blockFitInRange 36 16 7 6
    ∧ (|((blockFit 36 16 7 6).2 : ℚ) - (blockFit 36 16 7 6).1 * (6 : ℤ) / (2 * (7 : ℤ))|
        < 1 + 1 / 2 ^ 30
      ∨ |((blockFit 36 16 7 6).1 : ℚ) - (blockFit 36 16 7 6).2 * 2 * (7 : ℤ) / (6 : ℤ)|
        < 1 + 1 / 2 ^ 30)
    ∧ (|((blockFit 36 16 7 6).2 : ℚ) - (blockFit 36 16 7 6).1 * (6 : ℤ) / (2 * (7 : ℤ))| ≤ 1
        ∨ |((blockFit 36 16 7 6).1 : ℚ) - (blockFit 36 16 7 6).2 * 2 * (7 : ℤ) / (6 : ℤ)|
          ≤ 1) :=
  have h := blockFit_aspect 36 16 7 6 (by decide) (by decide) (by decide) (by decide)
    (by decide) (by decide) (by decide) (by decide)
  ⟨h.1, h.2.1, h.2.2 (by decide) (by decide)⟩

/-- C7: with centering requested, for every image with positive sides and every
terminal geometry with 1 to 65535 columns and at most 65535 rows, the padding
written is non-negative and padding plus occupied cells is at most
`columns + 1`, in block mode (occupied cells `charWidth`) and in sixel mode
(occupied cells `ceil (targetWidth / 8)`); without centering the padding is 0 in
both modes. -/
theorem padding_bounds (columns rows imgWidth imgHeight : ℤ) (hw : 0 < imgWidth)
    (hh : 0 < imgHeight) (hc : 1 ≤ columns) (hc' : columns ≤ 65535)
    (hr' : rows ≤ 65535) :
    (0 ≤ blockPadding true columns (blockFit columns rows imgWidth imgHeight).1
      ∧ blockPadding true columns (blockFit columns rows imgWidth imgHeight).1
          + (blockFit columns rows imgWidth imgHeight).1 ≤ columns + 1)
    ∧ (0 ≤ sixelPadding true columns (sixelFit columns rows imgWidth imgHeight).1
      ∧ sixelPadding true columns (sixelFit columns rows imgWidth imgHeight).1
          + ⌈((sixelFit columns rows imgWidth imgHeight).1 : ℚ) / 8⌉ ≤ columns + 1)
    ∧ blockPadding false columns (blockFit columns rows imgWidth imgHeight).1 = 0
    ∧ sixelPadding false columns (sixelFit columns rows imgWidth imgHeight).1 = 0 := by
  have hb := (blockFit_le columns rows imgWidth imgHeight hw hh hc hc' hr').1
  have hs := (sixelFitRaw_le columns rows imgWidth imgHeight hw hh hc hc' hr').1
  refine ⟨?_, ?_, by simp [blockPadding], by simp [sixelPadding]⟩
  · exact blockPadding_bounds columns _ hb
  · have hge : 1 ≤ (sixelFit columns rows imgWidth imgHeight).1 :=
      (sixelFit_ge_one_aux columns rows imgWidth imgHeight).1
    have hle : (sixelFit columns rows imgWidth imgHeight).1 ≤ max 1 ((columns - 1) * 8) := by
      unfold sixelFit
      simp only
      split_ifs <;> simp only [le_max_iff] <;> omega
    generalize (sixelFit columns rows imgWidth imgHeight).1 = tw at hge hle ⊢
    have hle' : tw ≤ 1 ∨ tw ≤ (columns - 1) * 8 := le_max_iff.mp hle
    have hd1 : Int.tdiv (tw + 8 - 1) 8 = (tw + 8 - 1) / 8 :=
      Int.tdiv_eq_ediv (by omega) (by norm_num)
    have hd2 : Int.tdiv (columns - (tw + 8 - 1) / 8) 2 = (columns - (tw + 8 - 1) / 8) / 2 :=
      Int.tdiv_eq_ediv (by omega) (by norm_num)
    have hceil : ⌈(tw : ℚ) / 8⌉ ≤ (tw + 8 - 1) / 8 := by
      rw [Int.ceil_le, div_le_iff₀ (by norm_num)]
      have : tw ≤ (tw + 8 - 1) / 8 * 8 := by omega
      exact_mod_cast this
    simp only [sixelPadding, if_true, hd1, hd2]
    constructor <;> split_ifs <;> omega

theorem padding_bounds_witness :
    blockPadding true 80 (blockFit 80 24 100 50).1 = 0
    ∧ (0 ≤ blockPadding true 80 (blockFit 80 24 100 50).1
      ∧ blockPadding true 80 (blockFit 80 24 100 50).1 + (blockFit 80 24 100 50).1 ≤ 80 + 1)
    ∧ (0 ≤ sixelPadding true 80 (sixelFit 80 24 100 50).1
      ∧ sixelPadding true 80 (sixelFit 80 24 100 50).1
          + ⌈((sixelFit 80 24 100 50).1 : ℚ) / 8⌉ ≤ 80 + 1)
    ∧ blockPadding false 80 (blockFit 80 24 100 50).1 = 0
    ∧ sixelPadding false 80 (sixelFit 80 24 100 50).1 = 0 :=
  ⟨by rw [blockFit_80_24_100_50]; decide,
   padding_bounds 80 24 100 50 (by decide) (by decide) (by decide) (by decide) (by decide)⟩

/-- C8: `handleTransparency` is idempotent, and an image whose every pixel inside
the bounds has 16-bit alpha 65535 is returned itself, unchanged. -/
theorem handleTransparency_idempotent (img : Image) :
    handleTransparency (handleTransparency img) = handleTransparency img
      ∧ ((∀ x y, img.bounds.In x y → (img.At x y).a = 65535) →
          handleTransparency img = img) := by
  refine ⟨handleTransparency_idem_aux img, fun hop => ?_⟩
  apply handleTransparency_of_not_scan
  rw [Bool.eq_false_iff]
  intro hs
  obtain ⟨x, y, hin, ha⟩ := (scanAlpha_iff _).mp hs
  have := hop x y hin
  omega

theorem handleTransparency_idempotent_witness :
    handleTransparency (handleTransparency ⟨⟨0, 0, 1, 1⟩, fun _ _ => ⟨7, 8, 9, 65535⟩⟩)
        = handleTransparency ⟨⟨0, 0, 1, 1⟩, fun _ _ => ⟨7, 8, 9, 65535⟩⟩
      ∧ handleTransparency ⟨⟨0, 0, 1, 1⟩, fun _ _ => ⟨7, 8, 9, 65535⟩⟩
        = ⟨⟨0, 0, 1, 1⟩, fun _ _ => ⟨7, 8, 9, 65535⟩⟩ :=
  ⟨(handleTransparency_idempotent ⟨⟨0, 0, 1, 1⟩, fun _ _ => ⟨7, 8, 9, 65535⟩⟩).1,
   (handleTransparency_idempotent ⟨⟨0, 0, 1, 1⟩, fun _ _ => ⟨7, 8, 9, 65535⟩⟩).2
     (fun _ _ _ => rfl)⟩

/-- C9: for every image whose colours are well formed (alpha at most 65535), every
pixel inside the bounds of the result of `handleTransparency` reads back with
16-bit alpha 65535, that is 8-bit alpha 255, whether the result is the input
itself or the newly built image. -/
theorem handleTransparency_opaque (img : Image) (hwf : ∀ x y, (img.At x y).a ≤ 65535)
    (x y : ℤ) (hin : (handleTransparency img).bounds.In x y) :
    ((handleTransparency img).At x y).a = 65535
      ∧ ((handleTransparency img).At x y).a >>> 8 = 255 := by
  have hin' : img.bounds.In x y := by
    rwa [handleTransparency_bounds] at hin
  have key : ((handleTransparency img).At x y).a = 65535 := by
    cases h : scanAlpha img
    · rw [handleTransparency_of_not_scan img h]
      have hno : ¬ (img.At x y).a < 65535 := by
        intro ha
        have : scanAlpha img = true := (scanAlpha_iff img).mpr ⟨x, y, hin', ha⟩
        rw [h] at this
        exact Bool.false_ne_true this
      have := hwf x y
      omega
    · rw [handleTransparency_of_scan img h]
      exact composited_alpha img x y hin'
  refine ⟨key, ?_⟩
  rw [key]
  decide

theorem handleTransparency_opaque_witness :
    ((handleTransparency ⟨⟨0, 0, 1, 1⟩, fun _ _ => ⟨0, 0, 0, 0⟩⟩).At 0 0).a = 65535
      ∧ ((handleTransparency ⟨⟨0, 0, 1, 1⟩, fun _ _ => ⟨0, 0, 0, 0⟩⟩).At 0 0).a >>> 8 = 255 :=
  handleTransparency_opaque ⟨⟨0, 0, 1, 1⟩, fun _ _ => ⟨0, 0, 0, 0⟩⟩
    (fun _ _ => Nat.zero_le 65535) 0 0
    (by rw [handleTransparency_bounds]; decide)

/-- C10: for every image and every pixel inside its bounds whose 16-bit alpha is
exactly 0, `handleTransparency` builds a new image whose pixel there is exactly
opaque black `(0, 0, 0, 255)`, whatever the stored RGB; read back through
`RGBA()` it is `(0, 0, 0, 65535)`. -/
theorem handleTransparency_transparent (img : Image) (x y : ℤ)
    (hin : img.bounds.In x y) (ha : (img.At x y).a = 0) :
    handleTransparency img = (compositeAll img (NewRGBA img.bounds)).toImage
      ∧ (compositeAll img (NewRGBA img.bounds)).pix x y = ⟨0, 0, 0, 255⟩
      ∧ (handleTransparency img).At x y = ⟨0, 0, 0, 65535⟩ := by
  have hs : scanAlpha img = true := (scanAlpha_iff img).mpr ⟨x, y, hin, by omega⟩
  have hp : compositePixel (img.At x y) = ⟨0, 0, 0, 255⟩ := by
    unfold compositePixel
    simp [ha]
  refine ⟨handleTransparency_of_scan img hs, ?_, ?_⟩
  · rw [compositeAll_pix img x y hin, hp]
  · rw [handleTransparency_of_scan img hs, composited_At img x y hin, hp]
    decide

theorem handleTransparency_transparent_witness :
    handleTransparency ⟨⟨0, 0, 1, 1⟩, fun _ _ => ⟨0, 0, 0, 0⟩⟩
        = (compositeAll ⟨⟨0, 0, 1, 1⟩, fun _ _ => ⟨0, 0, 0, 0⟩⟩ (NewRGBA ⟨0, 0, 1, 1⟩)).toImage
      ∧ (compositeAll ⟨⟨0, 0, 1, 1⟩, fun _ _ => ⟨0, 0, 0, 0⟩⟩ (NewRGBA ⟨0, 0, 1, 1⟩)).pix 0 0
        = ⟨0, 0, 0, 255⟩
      ∧ (handleTransparency ⟨⟨0, 0, 1, 1⟩, fun _ _ => ⟨0, 0, 0, 0⟩⟩).At 0 0
        = ⟨0, 0, 0, 65535⟩ :=
  handleTransparency_transparent ⟨⟨0, 0, 1, 1⟩, fun _ _ => ⟨0, 0, 0, 0⟩⟩ 0 0
    (by decide) (by decide)

/-! ## Opaque and blended pixels -/

theorem widen_high (R : ℕ) (h : R < 256) : (R ||| (R <<< 8)) >>> 8 = R := by
  have := Nat.mul_add_lt_is_or (i := 8) (b := R) (by simpa using h) R
  rw [Nat.lor_comm, Nat.shiftLeft_eq, Nat.mul_comm R, ← this, Nat.shiftRight_eq_div_pow]
  omega

theorem high_lt (v : ℕ) (h : v ≤ 65535) : v >>> 8 < 256 := by
  rw [Nat.shiftRight_eq_div_pow]
  omega

theorem compositePixel_fullAlpha (c : Color16) (ha : c.a = 65535) :
    compositePixel c = ⟨(c.r >>> 8) % 256, (c.g >>> 8) % 256, (c.b >>> 8) % 256, 255⟩ := by
  unfold compositePixel
  simp [ha]

/-- C11: fully opaque pixels keep their colour. For every image and every pixel
inside its bounds whose 16-bit alpha is exactly 65535 and whose colour channels
are 16-bit values, the pixel of the result of `handleTransparency` has R, G and
B equal to the high byte (`>> 8`) of the source channel and alpha 255; when the
image has a non-opaque pixel the new image stores exactly that colour, and when
it has none the input is returned. -/
theorem handleTransparency_opaque_pixel (img : Image) (x y : ℤ)
    (hin : img.bounds.In x y) (ha : (img.At x y).a = 65535)
    (hr : (img.At x y).r ≤ 65535) (hg : (img.At x y).g ≤ 65535)
    (hb : (img.At x y).b ≤ 65535) :
    (((handleTransparency img).At x y).r >>> 8 = (img.At x y).r >>> 8
      ∧ ((handleTransparency img).At x y).g >>> 8 = (img.At x y).g >>> 8
      ∧ ((handleTransparency img).At x y).b >>> 8 = (img.At x y).b >>> 8
      ∧ ((handleTransparency img).At x y).a >>> 8 = 255)
    ∧ (scanAlpha img = true →
        handleTransparency img = (compositeAll img (NewRGBA img.bounds)).toImage
        ∧ (compositeAll img (NewRGBA img.bounds)).pix x y
          = ⟨(img.At x y).r >>> 8, (img.At x y).g >>> 8, (img.At x y).b >>> 8, 255⟩)
    ∧ (scanAlpha img = false → handleTransparency img = img) := by
  have hr8 := high_lt _ hr
  have hg8 := high_lt _ hg
  have hb8 := high_lt _ hb
  have hpix : compositePixel (img.At x y)
      = ⟨(img.At x y).r >>> 8, (img.At x y).g >>> 8, (img.At x y).b >>> 8, 255⟩ := by
    rw [compositePixel_fullAlpha _ ha, Nat.mod_eq_of_lt hr8, Nat.mod_eq_of_lt hg8,
      Nat.mod_eq_of_lt hb8]
  refine ⟨?_, ?_, handleTransparency_of_not_scan img⟩
  · cases h : scanAlpha img
    · rw [handleTransparency_of_not_scan img h, ha]
      exact ⟨rfl, rfl, rfl, by decide⟩
    · rw [handleTransparency_of_scan img h, composited_At img x y hin, hpix]
      refine ⟨widen_high _ hr8, widen_high _ hg8, widen_high _ hb8, ?_⟩
      show ((255 : ℕ) ||| (255 <<< 8)) >>> 8 = 255
      decide
  · intro h
    refine ⟨handleTransparency_of_scan img h, ?_⟩
    rw [compositeAll_pix img x y hin, hpix]

theorem handleTransparency_opaque_pixel_witness :
    (handleTransparency ⟨⟨0, 0, 1, 1⟩, fun _ _ => ⟨4660, 22136, 39612, 65535⟩⟩).At 0 0
      = ⟨4660, 22136, 39612, 65535⟩
    ∧ ((handleTransparency ⟨⟨0, 0, 1, 1⟩, fun _ _ => ⟨4660, 22136, 39612, 65535⟩⟩).At 0 0).r
        >>> 8 = 18 := by
  have h := handleTransparency_opaque_pixel
    ⟨⟨0, 0, 1, 1⟩, fun _ _ => ⟨4660, 22136, 39612, 65535⟩⟩ 0 0 (by decide) rfl
    (by decide) (by decide) (by decide)
  have hs : scanAlpha ⟨⟨0, 0, 1, 1⟩, fun _ _ => ⟨4660, 22136, 39612, 65535⟩⟩ = false := by
    rw [Bool.eq_false_iff]
    intro hs
    obtain ⟨x, y, _, hlt⟩ := (scanAlpha_iff _).mp hs
    have : (65535 : ℕ) < 65535 := hlt
    omega
  refine ⟨?_, h.1.1.trans (by decide)⟩
  rw [h.2.2 hs]

/-! ## Blend lemmas -/

theorem ofNat_eq (n : ℕ) (h : n < 2 ^ 53) : ofNat n = n := by
  unfold ofNat
  have h1 : |(n : ℤ)| < 2 ^ 53 := by
    rw [abs_of_nonneg (by positivity)]
    exact_mod_cast h
  have := f64_intCast (n : ℤ) h1
  push_cast at this
  exact this

/-- The value converted to `uint8` by `blendChannel` over a black background. -/
theorem blend_arg (c8 a : ℕ) (hc : c8 < 2 ^ 53) (ha : a < 2 ^ 53) :
    fadd (fmul (ofNat c8) (fdiv (ofNat a) 65535)) (fmul (ofNat 0) (fsub 1 (fdiv (ofNat a) 65535)))
      = f64 (f64 ((c8 : ℚ) * f64 ((a : ℚ) / 65535))) := by
  have h0 : ofNat 0 = 0 := by
    unfold ofNat
    simpa using f64_zero
  rw [ofNat_eq c8 hc, ofNat_eq a ha, h0]
  unfold fadd fmul fdiv
  rw [zero_mul, f64_zero, add_zero]

theorem blend_near (c8 a : ℕ) :
    Near 5 (f64 (f64 ((c8 : ℚ) * f64 ((a : ℚ) / 65535)))) ((c8 : ℚ) * ((a : ℚ) / 65535)) := by
  have h1 : Near 1 ((c8 : ℚ) * f64 ((a : ℚ) / 65535)) ((c8 : ℚ) * ((a : ℚ) / 65535)) :=
    (near_f64 _).scale _
  have h2 := (h1.round (by norm_num) (by norm_num)).round (by norm_num) (by norm_num)
  have e : (1 + 2 + 2 : ℚ) = 5 := by norm_num
  rw [e] at h2
  exact h2

theorem blend_nonneg (c8 a : ℕ) :
    0 ≤ f64 (f64 ((c8 : ℚ) * f64 ((a : ℚ) / 65535))) :=
  f64_nonneg (f64_nonneg (mul_nonneg (by positivity) (f64_nonneg (by positivity))))

theorem blend_mono (c8 a a' : ℕ) (h : a ≤ a') :
    f64 (f64 ((c8 : ℚ) * f64 ((a : ℚ) / 65535)))
      ≤ f64 (f64 ((c8 : ℚ) * f64 ((a' : ℚ) / 65535))) := by
  have h1 : (a : ℚ) / 65535 ≤ (a' : ℚ) / 65535 := by
    have : (a : ℚ) ≤ a' := by exact_mod_cast h
    exact div_le_div_of_nonneg_right this (by norm_num)
  have h2 := f64_mono (by positivity) h1
  have h3 : (c8 : ℚ) * f64 ((a : ℚ) / 65535) ≤ (c8 : ℚ) * f64 ((a' : ℚ) / 65535) :=
    mul_le_mul_of_nonneg_left h2 (by positivity)
  have h4 := f64_mono (mul_nonneg (by positivity) (f64_nonneg (by positivity))) h3
  exact f64_mono (f64_nonneg (mul_nonneg (by positivity) (f64_nonneg (by positivity)))) h4

/-- The floor of the blended value against the exact quotient `c8 * a / 65535`. -/
theorem blend_floor (c8 a : ℕ) (hc : c8 ≤ 255) (ha : a < 65535) :
    ⌊f64 (f64 ((c8 : ℚ) * f64 ((a : ℚ) / 65535)))⌋ ≤ ((c8 * a / 65535 : ℕ) : ℤ)
    ∧ ((c8 * a / 65535 : ℕ) : ℤ) ≤ ⌊f64 (f64 ((c8 : ℚ) * f64 ((a : ℚ) / 65535)))⌋ + 1
    ∧ (c8 * a % 65535 ≠ 0 →
        ⌊f64 (f64 ((c8 : ℚ) * f64 ((a : ℚ) / 65535)))⌋ = ((c8 * a / 65535 : ℕ) : ℤ))
    ∧ ((c8 * a / 65535 : ℕ) : ℤ) ≤ c8 := by
  have hX0 : (0 : ℚ) ≤ (c8 : ℚ) * ((a : ℚ) / 65535) := by positivity
  have hb := (blend_near c8 a).bounds hX0
  generalize f64 (f64 ((c8 : ℚ) * f64 ((a : ℚ) / 65535))) = Y at hb
  have hdm := Nat.div_add_mod (c8 * a) 65535
  have hk := Nat.mod_lt (c8 * a) (by norm_num : 65535 > 0)
  generalize c8 * a / 65535 = n at hdm ⊢
  generalize hkdef : c8 * a % 65535 = k at hdm hk ⊢
  have hX : (c8 : ℚ) * ((a : ℚ) / 65535) = n + (k : ℚ) / 65535 := by
    have : ((c8 * a : ℕ) : ℚ) = 65535 * n + k := by exact_mod_cast hdm.symm
    push_cast at this
    field_simp
    linarith
  rw [hX] at hb
  have hm : c8 * a ≤ 255 * 65535 := Nat.mul_le_mul hc ha.le
  have hn : n ≤ 255 := by omega
  have hnq : (n : ℚ) ≤ 255 := by exact_mod_cast hn
  have hkq : (k : ℚ) ≤ 65534 := by
    have : k ≤ 65534 := by omega
    exact_mod_cast this
  have hk0 : (0 : ℚ) ≤ k := by positivity
  have hn0 : (0 : ℚ) ≤ n := by positivity
  have he : eps = 1 / 2 ^ 53 := rfl
  have hXle : (n : ℚ) + (k : ℚ) / 65535 ≤ 256 := by
    have : (k : ℚ) / 65535 ≤ 1 := by
      rw [div_le_one (by norm_num)]
      linarith
    linarith
  have hδ : ((n : ℚ) + (k : ℚ) / 65535) * (5 * eps) ≤ 1 / 131070 := by
    have h1 : ((n : ℚ) + (k : ℚ) / 65535) * (5 * eps) ≤ 256 * (5 * eps) :=
      mul_le_mul_of_nonneg_right hXle (by rw [he]; norm_num)
    have h2 : (256 : ℚ) * (5 * eps) ≤ 1 / 131070 := by
      rw [he]
      norm_num
    linarith
  have hkdiv : (k : ℚ) / 65535 ≤ 1 - 1 / 65535 := by
    rw [div_le_iff₀ (by norm_num)]
    norm_num
    linarith
  have hup : Y < (n : ℚ) + 1 := by
    have := hb.2
    nlinarith
  have hlow : (n : ℚ) - 1 < Y := by
    have := hb.1
    have hk' : (0 : ℚ) ≤ (k : ℚ) / 65535 := by positivity
    nlinarith
  have hupz : ⌊Y⌋ ≤ (n : ℤ) := by
    have : ⌊Y⌋ < (n : ℤ) + 1 := Int.floor_lt.mpr (by push_cast; exact hup)
    omega
  have hlowz : (n : ℤ) ≤ ⌊Y⌋ + 1 := by
    have : (n : ℤ) - 1 ≤ ⌊Y⌋ := Int.le_floor.mpr (by push_cast; exact hlow.le)
    omega
  refine ⟨hupz, hlowz, ?_, ?_⟩
  · intro hkne
    have hk1 : (1 : ℚ) ≤ k := by
      have : 1 ≤ k := Nat.one_le_iff_ne_zero.mpr hkne
      exact_mod_cast this
    have hge : (n : ℚ) ≤ Y := by
      have := hb.1
      have hk' : (1 : ℚ) / 65535 ≤ (k : ℚ) / 65535 :=
        div_le_div_of_nonneg_right hk1 (by norm_num)
      nlinarith
    have : (n : ℤ) ≤ ⌊Y⌋ := Int.le_floor.mpr (by push_cast; exact hge)
    omega
  · have : c8 * a ≤ c8 * 65535 := Nat.mul_le_mul_left c8 ha.le
    have : n ≤ c8 := by omega
    exact_mod_cast this

theorem toUint8_eq (Y : ℚ) (h0 : 0 ≤ Y) (h1 : ⌊Y⌋ ≤ 255) : toUint8 Y = ⌊Y⌋.toNat := by
  have hf : 0 ≤ ⌊Y⌋ := Int.floor_nonneg.mpr h0
  unfold toUint8
  simp only [f2i, if_pos h0]
  rw [Int.emod_eq_of_lt hf (by omega)]

theorem blendChannel_eq (c a : ℕ) (hc : c ≤ 65535) (ha : a < 65535) :
    blendChannel c 0 (fdiv (ofNat a) 65535)
      = ⌊f64 (f64 (((c >>> 8 : ℕ) : ℚ) * f64 ((a : ℚ) / 65535)))⌋.toNat := by
  have hc8 : c >>> 8 ≤ 255 := by
    rw [Nat.shiftRight_eq_div_pow]
    omega
  have hfl := blend_floor (c >>> 8) a hc8 ha
  unfold blendChannel
  rw [blend_arg (c >>> 8) a (by norm_num; omega) (by norm_num; omega)]
  exact toUint8_eq _ (blend_nonneg _ _) (by omega)

/-- The exact blend over a black background, truncated: it is the natural-number
quotient `(c >> 8) * a / 65535`. -/
theorem exact_blend (c8 a : ℕ) :
    f2i ((c8 : ℚ) * ((a : ℚ) / 65535) + 0 * (1 - (a : ℚ) / 65535))
        = ((c8 * a / 65535 : ℕ) : ℤ)
    ∧ (((f2i ((c8 : ℚ) * ((a : ℚ) / 65535) + 0 * (1 - (a : ℚ) / 65535)) : ℤ) : ℚ)
          ≠ (c8 : ℚ) * ((a : ℚ) / 65535) + 0 * (1 - (a : ℚ) / 65535)
        → c8 * a % 65535 ≠ 0) := by
  have hE : (c8 : ℚ) * ((a : ℚ) / 65535) + 0 * (1 - (a : ℚ) / 65535)
      = ((c8 * a : ℕ) : ℚ) / 65535 := by
    push_cast
    ring
  rw [hE]
  have hdm := Nat.div_add_mod (c8 * a) 65535
  have hk := Nat.mod_lt (c8 * a) (by norm_num : 65535 > 0)
  generalize c8 * a = m at hdm hk ⊢
  generalize m / 65535 = n at hdm ⊢
  generalize m % 65535 = k at hdm hk ⊢
  have hE0 : (0 : ℚ) ≤ (m : ℚ) / 65535 := by positivity
  have hq : (m : ℚ) = 65535 * (n : ℚ) + (k : ℚ) := by exact_mod_cast hdm.symm
  have hkq : (k : ℚ) < 65535 := by exact_mod_cast hk
  have hk0 : (0 : ℚ) ≤ (k : ℚ) := by positivity
  have hfl : f2i ((m : ℚ) / 65535) = (n : ℤ) := by
    simp only [f2i, if_pos hE0]
    rw [Int.floor_eq_iff]
    constructor
    · rw [le_div_iff₀ (by norm_num)]
      have : (((n : ℤ) : ℚ)) = (n : ℚ) := by norm_cast
      rw [this]
      linarith
    · rw [div_lt_iff₀ (by norm_num)]
      have : (((n : ℤ) : ℚ)) = (n : ℚ) := by norm_cast
      rw [this]
      linarith
  refine ⟨hfl, ?_⟩
  intro hne hmod
  apply hne
  subst hmod
  have : (((n : ℤ) : ℚ)) = (n : ℚ) := by norm_cast
  rw [hfl, this, hq]
  push_cast
  field_simp

/-- C12 (counterexample): for a pixel with channel high byte 51 and alpha 39835
the exact blend is `51 * 39835 / 65535 = 31`, but the code computes
`uint8(30.999999999999996) = 30`. -/
theorem blend_not_exact :
    ¬ (((compositePixel ⟨13107, 13107, 13107, 39835⟩).R : ℤ)
        = f2i (((13107 >>> 8 : ℕ) : ℚ) * ((39835 : ℕ) / 65535)
            + 0 * (1 - ((39835 : ℕ) : ℚ) / 65535))) := by
  have h8 : (13107 >>> 8 : ℕ) = 51 := by decide
  have hex := (exact_blend 51 39835).1
  have hR : (compositePixel ⟨13107, 13107, 13107, 39835⟩).R
      = blendChannel 13107 0 (fdiv (ofNat 39835) 65535) := by
    unfold compositePixel
    simp
  have ha : f64 (((39835 : ℕ) : ℚ) / 65535) = 5474964252881779 / 2 ^ 53 := by
    rw [f64_eq_of _ (-1) 5474964252881779 (by norm_num [abs_of_pos])
      (by norm_num [abs_of_pos]) (by norm_num [abs_of_pos])]
    norm_num
  have hu : f64 (((51 : ℕ) : ℚ) * (5474964252881779 / 2 ^ 53))
      = 8725724278030335 / 2 ^ 48 := by
    rw [f64_eq_of _ 4 8725724278030335 (by norm_num [abs_of_pos])
      (by norm_num [abs_of_pos]) (by norm_num [abs_of_pos])]
    norm_num
  have hy : f64 (8725724278030335 / 2 ^ 48) = 8725724278030335 / 2 ^ 48 := by
    rw [f64_eq_of _ 4 8725724278030335 (by norm_num [abs_of_pos])
      (by norm_num [abs_of_pos]) (by norm_num [abs_of_pos])]
    norm_num
  have hfl : ⌊(8725724278030335 / 2 ^ 48 : ℚ)⌋ = 30 := by
    rw [Int.floor_eq_iff]
    norm_num
  have hb : blendChannel 13107 0 (fdiv (ofNat 39835) 65535) = 30 := by
    rw [blendChannel_eq 13107 39835 (by norm_num) (by norm_num), h8, ha, hu, hy, hfl]
    rfl
  rw [hR, hb, h8, hex]
  decide

/-- C12 (amended): the semi-transparent blend. For every pixel with 16-bit alpha
`a`, `0 < a < 65535`, each output channel is `blendChannel c 0 (a / 65535)`, and
for every 16-bit channel value `c` that output is the truncation `T` of the exact
`(c >> 8) * (a/65535) + 0 * (1 - a/65535)` or one less: `out ≤ T ≤ out + 1`, with
`out = T` whenever the exact value is not an integer. The output never exceeds
the high byte `c >> 8` and is monotonically non-decreasing in `a` for fixed
`c`. -/
theorem blend_formula (p : Color16) (ha0 : 0 < p.a) (ha : p.a < 65535) :
    compositePixel p
      = ⟨blendChannel p.r 0 (fdiv (ofNat p.a) 65535),
         blendChannel p.g 0 (fdiv (ofNat p.a) 65535),
         blendChannel p.b 0 (fdiv (ofNat p.a) 65535), 255⟩
    ∧ ∀ c : ℕ, c ≤ 65535 →
        ((blendChannel c 0 (fdiv (ofNat p.a) 65535) : ℤ)
            ≤ f2i (((c >>> 8 : ℕ) : ℚ) * ((p.a : ℚ) / 65535) + 0 * (1 - (p.a : ℚ) / 65535))
          ∧ f2i (((c >>> 8 : ℕ) : ℚ) * ((p.a : ℚ) / 65535) + 0 * (1 - (p.a : ℚ) / 65535))
            ≤ (blendChannel c 0 (fdiv (ofNat p.a) 65535) : ℤ) + 1
          ∧ (((f2i (((c >>> 8 : ℕ) : ℚ) * ((p.a : ℚ) / 65535)
                  + 0 * (1 - (p.a : ℚ) / 65535)) : ℤ) : ℚ)
                ≠ ((c >>> 8 : ℕ) : ℚ) * ((p.a : ℚ) / 65535) + 0 * (1 - (p.a : ℚ) / 65535)
              → (blendChannel c 0 (fdiv (ofNat p.a) 65535) : ℤ)
                = f2i (((c >>> 8 : ℕ) : ℚ) * ((p.a : ℚ) / 65535)
                    + 0 * (1 - (p.a : ℚ) / 65535)))
          ∧ blendChannel c 0 (fdiv (ofNat p.a) 65535) ≤ c >>> 8
          ∧ ∀ a' : ℕ, p.a ≤ a' → a' < 65535 →
              blendChannel c 0 (fdiv (ofNat p.a) 65535)
                ≤ blendChannel c 0 (fdiv (ofNat a') 65535)) := by
  constructor
  · unfold compositePixel
    simp only
    rw [if_neg (by omega), if_pos ha]
  · intro c hc
    have hc8 : c >>> 8 ≤ 255 := by
      rw [Nat.shiftRight_eq_div_pow]
      omega
    have hfl := blend_floor (c >>> 8) p.a hc8 ha
    have hex := exact_blend (c >>> 8) p.a
    have hY0 := blend_nonneg (c >>> 8) p.a
    have hf0 : 0 ≤ ⌊f64 (f64 (((c >>> 8 : ℕ) : ℚ) * f64 ((p.a : ℚ) / 65535)))⌋ :=
      Int.floor_nonneg.mpr hY0
    have hT := hex.1
    rw [blendChannel_eq c p.a hc ha, Int.toNat_of_nonneg hf0]
    refine ⟨by rw [hT]; exact hfl.1, by rw [hT]; exact hfl.2.1,
      fun hne => by rw [hT]; exact hfl.2.2.1 (hex.2 hne), ?_, ?_⟩
    · have : ⌊f64 (f64 (((c >>> 8 : ℕ) : ℚ) * f64 ((p.a : ℚ) / 65535)))⌋
          ≤ ((c >>> 8 : ℕ) : ℤ) := hfl.1.trans hfl.2.2.2
      omega
    · intro a' haa' ha'
      rw [blendChannel_eq c a' hc ha']
      apply Int.toNat_le_toNat
      exact Int.floor_mono (blend_mono (c >>> 8) p.a a' haa')

theorem blend_formula_witness :
    compositePixel ⟨13107, 13107, 13107, 39835⟩
      = ⟨blendChannel 13107 0 (fdiv (ofNat 39835) 65535),
         blendChannel 13107 0 (fdiv (ofNat 39835) 65535),
         blendChannel 13107 0 (fdiv (ofNat 39835) 65535), 255⟩
    ∧ blendChannel 13107 0 (fdiv (ofNat 39835) 65535) ≤ 13107 >>> 8 :=
  ⟨(blend_formula ⟨13107, 13107, 13107, 39835⟩ (by decide) (by decide)).1,
   ((blend_formula ⟨13107, 13107, 13107, 39835⟩ (by decide) (by decide)).2 13107
     (by decide)).2.2.2.1⟩

/-! ## Renderer lemmas -/

theorem intRange_length (lo hi : ℤ) : (intRange lo hi).length = (hi - lo).toNat := by
  simp [intRange]

theorem toByte_eq (v : ℕ) (h : v ≤ 65535) : toByte v = v >>> 8 := by
  unfold toByte
  apply Nat.mod_eq_of_lt
  rw [Nat.shiftRight_eq_div_pow]
  omega

theorem foldl_append_singleton {α β : Type} (f : α → β) (xs : List α) (out : List β) :
    xs.foldl (fun out x => out ++ [f x]) out = out ++ xs.map f := by
  induction xs generalizing out with
  | nil => simp
  | cons x xs ih => rw [List.foldl_cons, ih]; simp

theorem foldl_append_flatMap {α β : Type} (g : α → List β) (xs : List α) (out : List β) :
    xs.foldl (fun out x => out ++ g x) out = out ++ xs.flatMap g := by
  induction xs generalizing out with
  | nil => simp
  | cons x xs ih => rw [List.foldl_cons, ih]; simp

theorem padding_fold (leftPadding : ℤ) (out : List String) :
    (if leftPadding > 0 then
        (intRange 0 leftPadding).foldl (fun out _ => out ++ [" "]) out
      else out)
      = out ++ List.replicate leftPadding.toNat " " := by
  split_ifs with h
  · rw [foldl_append_singleton (fun _ => " ")]
    congr 1
    rw [List.map_const', intRange_length]
    simp
  · have : leftPadding.toNat = 0 := by
      apply Int.toNat_eq_zero.mpr
      omega
    rw [this]
    simp

theorem renderBlockLoop_eq (resized : Image) (charWidth charHeight leftPadding : ℤ) :
    renderBlockLoop resized charWidth charHeight leftPadding
      = specBlockOutput resized charWidth charHeight leftPadding := by
  unfold renderBlockLoop specBlockOutput specBlockRows
  have hrow : (fun (out : List String) (row : ℤ) =>
      (intRange 0 charWidth).foldl
          (fun out col =>
            out ++ [renderCell (resized.At col (row * 2)) (resized.At col (row * 2 + 1))])
          (if leftPadding > 0 then
            (intRange 0 leftPadding).foldl (fun out _ => out ++ [" "]) out
          else out) ++ ["\n"])
      = (fun out row => out ++ (List.replicate leftPadding.toNat " "
          ++ (intRange 0 charWidth).map (fun col =>
              renderCell (resized.At col (row * 2)) (resized.At col (row * 2 + 1)))
          ++ ["\n"])) := by
    funext out row
    rw [padding_fold, foldl_append_singleton (fun col =>
      renderCell (resized.At col (row * 2)) (resized.At col (row * 2 + 1)))]
    simp
  simp only
  rw [hrow, foldl_append_flatMap]
  simp [List.flatMap_map]

theorem mem_specBlockOutput (resized : Image) (cw ch lp : ℤ) (c : String)
    (h : c ∈ specBlockOutput resized cw ch lp) :
    c = " " ∨ c = "\n" ∨ ∃ top bottom, c = renderCell top bottom := by
  unfold specBlockOutput specBlockRows at h
  simp only [List.mem_flatMap, List.mem_map, List.mem_append, List.mem_replicate,
    List.mem_singleton] at h
  obtain ⟨cells, ⟨row, _, rfl⟩, hc⟩ := h
  rcases hc with (⟨_, rfl⟩ | hc) | rfl
  · exact Or.inl rfl
  · obtain ⟨col, _, rfl⟩ := List.mem_map.mp hc
    exact Or.inr (Or.inr ⟨_, _, rfl⟩)
  · exact Or.inr (Or.inl rfl)

theorem renderCell_cases (top bottom : Color16) :
    renderCell top bottom = " "
      ∨ ∃ body, renderCell top bottom = "\x1b[" ++ body ++ "\x1b[0m" := by
  unfold renderCell
  simp only
  split_ifs
  · exact Or.inl rfl
  · exact Or.inr ⟨"48;2;" ++ toString (toByte bottom.r) ++ ";" ++ toString (toByte bottom.g)
      ++ ";" ++ toString (toByte bottom.b) ++ "m ", by simp [String.append_assoc]; rfl⟩
  · exact Or.inr ⟨"38;2;" ++ toString (toByte top.r) ++ ";" ++ toString (toByte top.g)
      ++ ";" ++ toString (toByte top.b) ++ "m▀", by simp [String.append_assoc]; rfl⟩
  · exact Or.inr ⟨"38;2;" ++ toString (toByte top.r) ++ ";" ++ toString (toByte top.g)
      ++ ";" ++ toString (toByte top.b) ++ "m" ++ "\x1b[48;2;" ++ toString (toByte bottom.r)
      ++ ";" ++ toString (toByte bottom.g) ++ ";" ++ toString (toByte bottom.b) ++ "m▀",
      by simp [String.append_assoc]; rfl⟩

theorem coloured_ends_default (before : Bool) (body : String) :
    defaultColoursAfter before ("\x1b[" ++ body ++ "\x1b[0m") = true := by
  unfold defaultColoursAfter
  have hmem : '\x1b' ∈ ("\x1b[" ++ body ++ "\x1b[0m").toList := by simp
  rw [if_pos hmem]
  have hl : ("\x1b[" ++ body ++ "\x1b[0m").toList
      = ('\x1b' :: '[' :: body.toList) ++ ['\x1b', '[', '0', 'm'] := by
    simp
  rw [hl, List.reverse_append]
  simp [List.takeWhile]

theorem plain_keeps_default (c : String) (h : c = " " ∨ c = "\n") :
    defaultColoursAfter true c = true ∧ '\x1b' ∉ c.toList := by
  rcases h with rfl | rfl <;> exact ⟨by decide, by decide⟩

theorem chunk_cases (termWidth termHeight : ℤ) (resize : ℕ → ℕ → Image → Image)
    (img : Image) (center : Bool) (c : String)
    (h : c ∈ renderBlock termWidth termHeight resize img center) :
    (c = " " ∨ c = "\n") ∨ ∃ body, c = "\x1b[" ++ body ++ "\x1b[0m" := by
  unfold renderBlock at h
  simp only at h
  rw [renderBlockLoop_eq] at h
  rcases mem_specBlockOutput _ _ _ _ c h with rfl | rfl | ⟨top, bottom, rfl⟩
  · exact Or.inl (Or.inl rfl)
  · exact Or.inl (Or.inr rfl)
  · rcases renderCell_cases top bottom with h1 | h1
    · exact Or.inl (Or.inl h1)
    · exact Or.inr h1

theorem foldl_default (l : List String)
    (h : ∀ c ∈ l, (c = " " ∨ c = "\n") ∨ ∃ body, c = "\x1b[" ++ body ++ "\x1b[0m") :
    l.foldl defaultColoursAfter true = true := by
  induction l using List.reverseRecOn with
  | nil => rfl
  | append_singleton l c ih =>
    rw [List.foldl_append, List.foldl_cons, List.foldl_nil,
      ih (fun d hd => h d (List.mem_append_left _ hd))]
    rcases h c (by simp) with hp | ⟨body, rfl⟩
    · exact (plain_keeps_default c hp).1
    · exact coloured_ends_default _ body

/-! ## Renderer claims -/

/-- C13: the decision table of the block renderer. For top and bottom pixels
with 16-bit channels, `ta` and `ba` being the 8-bit alphas `a >> 8` and the
colours the high bytes of the channels: both alphas 0 give a single space with
no escape; only the top alpha 0 gives `ESC[48;2;br;bg;bbm`, a space and
`ESC[0m`; only the bottom alpha 0 gives `ESC[38;2;tr;tg;tbm`, the upper half
block and `ESC[0m`, with no background escape; both alphas positive give the
foreground escape, the background escape, the glyph and `ESC[0m`. -/
theorem renderCell_table (top bottom : Color16)
    (ht : top.r ≤ 65535 ∧ top.g ≤ 65535 ∧ top.b ≤ 65535 ∧ top.a ≤ 65535)
    (hb : bottom.r ≤ 65535 ∧ bottom.g ≤ 65535 ∧ bottom.b ≤ 65535 ∧ bottom.a ≤ 65535) :
    (top.a >>> 8 = 0 ∧ bottom.a >>> 8 = 0 → renderCell top bottom = " ")
    ∧ (top.a >>> 8 = 0 ∧ 0 < bottom.a >>> 8 →
        renderCell top bottom
          = "\x1b[48;2;" ++ toString (bottom.r >>> 8) ++ ";" ++ toString (bottom.g >>> 8)
            ++ ";" ++ toString (bottom.b >>> 8) ++ "m \x1b[0m")
    ∧ (0 < top.a >>> 8 ∧ bottom.a >>> 8 = 0 →
        renderCell top bottom
          = "\x1b[38;2;" ++ toString (top.r >>> 8) ++ ";" ++ toString (top.g >>> 8)
            ++ ";" ++ toString (top.b >>> 8) ++ "m▀\x1b[0m")
    ∧ (0 < top.a >>> 8 ∧ 0 < bottom.a >>> 8 →
        renderCell top bottom
          = "\x1b[38;2;" ++ toString (top.r >>> 8) ++ ";" ++ toString (top.g >>> 8)
            ++ ";" ++ toString (top.b >>> 8) ++ "m"
            ++ "\x1b[48;2;" ++ toString (bottom.r >>> 8) ++ ";" ++ toString (bottom.g >>> 8)
            ++ ";" ++ toString (bottom.b >>> 8) ++ "m▀\x1b[0m") := by
  obtain ⟨h1, h2, h3, h4⟩ := ht
  obtain ⟨h5, h6, h7, h8⟩ := hb
  unfold renderCell
  simp only [toByte_eq _ h1, toByte_eq _ h2, toByte_eq _ h3, toByte_eq _ h4,
    toByte_eq _ h5, toByte_eq _ h6, toByte_eq _ h7, toByte_eq _ h8]
  refine ⟨?_, ?_, ?_, ?_⟩
  · rintro ⟨ha, hb⟩
    rw [if_pos ⟨ha, hb⟩]
  · rintro ⟨ha, hb⟩
    rw [if_neg (by omega), if_pos ha]
  · rintro ⟨ha, hb⟩
    rw [if_neg (by omega), if_neg (by omega), if_pos hb]
  · rintro ⟨ha, hb⟩
    rw [if_neg (by omega), if_neg (by omega), if_neg (by omega)]

theorem renderCell_table_witness :
    renderCell ⟨65535, 0, 0, 65535⟩ ⟨0, 0, 0, 0⟩ = "\x1b[38;2;255;0;0m▀\x1b[0m" :=
  (renderCell_table ⟨65535, 0, 0, 65535⟩ ⟨0, 0, 0, 0⟩ (by decide) (by decide)).2.2.1
    ⟨by decide, by decide⟩

/-- C14: no colour bleed in block output. Every text written by `renderBlock` is
either a plain space or a newline, which contain no escape character at all, or
a coloured cell that starts with an escape and ends with the reset `ESC[0m`; so
every written text that contains an escape ends with the reset, and after every
written text (at every cell boundary and at the end of every row) the terminal
is back at its default colours. -/
theorem renderBlock_no_colour_bleed (termWidth termHeight : ℤ)
    (resize : ℕ → ℕ → Image → Image) (img : Image) (center : Bool) :
    (∀ c ∈ renderBlock termWidth termHeight resize img center,
        (((c = " " ∨ c = "\n") ∧ '\x1b' ∉ c.toList)
          ∨ ∃ body, c = "\x1b[" ++ body ++ "\x1b[0m")
        ∧ ('\x1b' ∈ c.toList → ∃ pre, c = pre ++ "\x1b[0m"))
    ∧ ∀ n : ℕ,
        ((renderBlock termWidth termHeight resize img center).take n).foldl
          defaultColoursAfter true = true := by
  constructor
  · intro c hc
    rcases chunk_cases termWidth termHeight resize img center c hc with hp | ⟨body, rfl⟩
    · have hno := (plain_keeps_default c hp).2
      exact ⟨Or.inl ⟨hp, hno⟩, fun hmem => absurd hmem hno⟩
    · exact ⟨Or.inr ⟨body, rfl⟩, fun _ => ⟨"\x1b[" ++ body, rfl⟩⟩
  · intro n
    apply foldl_default
    intro c hc
    exact chunk_cases termWidth termHeight resize img center c (List.mem_of_mem_take hc)

/-- C15: the shape of the block output. For every image, terminal geometry,
resampler and centering flag, `renderBlock` writes exactly `max charHeight 0`
rows, each being `leftPadding` plain spaces, then exactly `max charWidth 0`
cells, then a newline, where `(charWidth, charHeight)` is the computed fit and
`leftPadding` the computed padding (never negative). -/
theorem renderBlock_shape (termWidth termHeight : ℤ) (resize : ℕ → ℕ → Image → Image)
    (img : Image) (center : Bool) :
    renderBlock termWidth termHeight resize img center
      = specBlockOutput
          (resize
            (toUint (blockFit termWidth termHeight (img.bounds.maxX - img.bounds.minX)
              (img.bounds.maxY - img.bounds.minY)).1)
            (toUint ((blockFit termWidth termHeight (img.bounds.maxX - img.bounds.minX)
              (img.bounds.maxY - img.bounds.minY)).2 * 2))
            img)
          (blockFit termWidth termHeight (img.bounds.maxX - img.bounds.minX)
            (img.bounds.maxY - img.bounds.minY)).1
          (blockFit termWidth termHeight (img.bounds.maxX - img.bounds.minX)
            (img.bounds.maxY - img.bounds.minY)).2
          (blockPadding center termWidth
            (blockFit termWidth termHeight (img.bounds.maxX - img.bounds.minX)
              (img.bounds.maxY - img.bounds.minY)).1)
    ∧ (∀ (resized : Image) (charWidth charHeight : ℤ),
        ((specBlockRows resized charWidth charHeight).length : ℤ) = max charHeight 0
        ∧ ∀ cells ∈ specBlockRows resized charWidth charHeight,
            (cells.length : ℤ) = max charWidth 0)
    ∧ ∀ charWidth : ℤ,
        ((blockPadding center termWidth charWidth).toNat : ℤ)
          = blockPadding center termWidth charWidth := by
  refine ⟨?_, ?_, ?_⟩
  · unfold renderBlock
    simp only
    rw [renderBlockLoop_eq]
  · intro resized charWidth charHeight
    constructor
    · unfold specBlockRows
      rw [List.length_map, intRange_length]
      omega
    · intro cells hcells
      unfold specBlockRows at hcells
      obtain ⟨row, _, rfl⟩ := List.mem_map.mp hcells
      rw [List.length_map, intRange_length]
      omega
  · intro charWidth
    apply Int.toNat_of_nonneg
    unfold blockPadding
    simp only
    split_ifs <;> omega

/-- C16 (counterexample): a successful query that reports a 0x0 window makes
`getTerminalSize` return `(0, 0)`, not positive sizes. -/
theorem getTerminalSize_zero :
    ¬ (1 ≤ (getTerminalSize 0 ⟨0, 0, 0, 0⟩).1 ∧ 1 ≤ (getTerminalSize 0 ⟨0, 0, 0, 0⟩).2) := by
  decide

/-- C16 (amended): `getTerminalSize` returns exactly `(80, 24)` whenever the query
fails (return code -1, that is `2^64 - 1` as a `uintptr`); otherwise it returns
exactly the reported `(Col, Row)`. For every outcome both results lie between 0
and 65535, and both are at least 1 exactly when the query failed or both
reported fields are non-zero. -/
theorem getTerminalSize_contract (retCode : ℕ) (ws : winsize) :
    (uintptrToInt retCode = -1 → getTerminalSize retCode ws = (80, 24))
    ∧ getTerminalSize (2 ^ 64 - 1) ws = (80, 24)
    ∧ (uintptrToInt retCode ≠ -1 →
        getTerminalSize retCode ws = (uint16ToInt ws.Col, uint16ToInt ws.Row))
    ∧ (0 ≤ (getTerminalSize retCode ws).1 ∧ (getTerminalSize retCode ws).1 ≤ 65535
        ∧ 0 ≤ (getTerminalSize retCode ws).2 ∧ (getTerminalSize retCode ws).2 ≤ 65535)
    ∧ ((1 ≤ (getTerminalSize retCode ws).1 ∧ 1 ≤ (getTerminalSize retCode ws).2)
        ↔ (uintptrToInt retCode = -1 ∨ (ws.Col % 65536 ≠ 0 ∧ ws.Row % 65536 ≠ 0))) := by
  have hc : (0 : ℤ) ≤ uint16ToInt ws.Col ∧ uint16ToInt ws.Col ≤ 65535 := by
    unfold uint16ToInt
    omega
  have hr : (0 : ℤ) ≤ uint16ToInt ws.Row ∧ uint16ToInt ws.Row ≤ 65535 := by
    unfold uint16ToInt
    omega
  refine ⟨fun h => by simp [getTerminalSize, h], if_pos (by decide),
    fun h => by simp [getTerminalSize, h], ?_, ?_⟩
  · unfold getTerminalSize
    split_ifs
    · simp
    · exact ⟨hc.1, hc.2, hr.1, hr.2⟩
  · unfold getTerminalSize
    split_ifs with h
    · simp [h]
    · simp only [h, false_or]
      unfold uint16ToInt
      omega

theorem getTerminalSize_contract_witness :
    getTerminalSize (2 ^ 64 - 1) ⟨0, 0, 0, 0⟩ = (80, 24) :=
  (getTerminalSize_contract (2 ^ 64 - 1) ⟨0, 0, 0, 0⟩).1 (by decide)

/-- The block output for an opaque red 100x50 image on an 80x24 terminal, the
resampler returning its input. -/
theorem renderBlock_red_80_24 :
    renderBlock 80 24 (fun _ _ im => im)
        ⟨⟨0, 0, 100, 50⟩, fun _ _ => ⟨65535, 0, 0, 65535⟩⟩ false
      = specBlockOutput ⟨⟨0, 0, 100, 50⟩, fun _ _ => ⟨65535, 0, 0, 65535⟩⟩ 79 19 0 := by
  have e : blockFit 80 24 ((100 : ℤ) - 0) ((50 : ℤ) - 0) = (79, 19) := by
    rw [sub_zero, sub_zero]
    exact blockFit_80_24_100_50
  have hp : blockPadding false 80 79 = 0 := by decide
  unfold renderBlock
  simp only [e]
  rw [renderBlockLoop_eq, hp]

theorem newline_mem_red_80_24 :
    "\n" ∈ renderBlock 80 24 (fun _ _ im => im)
        ⟨⟨0, 0, 100, 50⟩, fun _ _ => ⟨65535, 0, 0, 65535⟩⟩ false := by
  rw [renderBlock_red_80_24]
  unfold specBlockOutput specBlockRows
  rw [List.mem_flatMap]
  refine ⟨_, List.mem_map.mpr ⟨0, (mem_intRange 0 19 0).mpr (by decide), rfl⟩, ?_⟩
  simp

theorem renderBlock_no_colour_bleed_witness :
    ((("\n" = " " ∨ "\n" = "\n") ∧ '\x1b' ∉ "\n".toList)
        ∨ ∃ body, "\n" = "\x1b[" ++ body ++ "\x1b[0m")
    ∧ ((renderBlock 80 24 (fun _ _ im => im)
          ⟨⟨0, 0, 100, 50⟩, fun _ _ => ⟨65535, 0, 0, 65535⟩⟩ false).take 81).foldl
        defaultColoursAfter true = true :=
  ⟨((renderBlock_no_colour_bleed 80 24 (fun _ _ im => im)
      ⟨⟨0, 0, 100, 50⟩, fun _ _ => ⟨65535, 0, 0, 65535⟩⟩ false).1 "\n"
      newline_mem_red_80_24).1,
   (renderBlock_no_colour_bleed 80 24 (fun _ _ im => im)
      ⟨⟨0, 0, 100, 50⟩, fun _ _ => ⟨65535, 0, 0, 65535⟩⟩ false).2 81⟩

theorem renderBlock_shape_witness :
    renderBlock 80 24 (fun _ _ im => im)
        ⟨⟨0, 0, 100, 50⟩, fun _ _ => ⟨65535, 0, 0, 65535⟩⟩ false
      = specBlockOutput ⟨⟨0, 0, 100, 50⟩, fun _ _ => ⟨65535, 0, 0, 65535⟩⟩ 79 19 0
    ∧ ((specBlockRows ⟨⟨0, 0, 100, 50⟩, fun _ _ => ⟨65535, 0, 0, 65535⟩⟩ 79 19).length : ℤ)
        = 19
    ∧ (∀ cells ∈ specBlockRows ⟨⟨0, 0, 100, 50⟩, fun _ _ => ⟨65535, 0, 0, 65535⟩⟩ 79 19,
        (cells.length : ℤ) = 79
        ∧ ∀ c ∈ cells, c = "\x1b[38;2;255;0;0m\x1b[48;2;255;0;0m▀\x1b[0m") := by
  have h := renderBlock_shape 80 24 (fun _ _ im => im)
    ⟨⟨0, 0, 100, 50⟩, fun _ _ => ⟨65535, 0, 0, 65535⟩⟩ false
  have e : blockFit 80 24 ((100 : ℤ) - 0) ((50 : ℤ) - 0) = (79, 19) := by
    rw [sub_zero, sub_zero]
    exact blockFit_80_24_100_50
  obtain ⟨h1, h2, _⟩ := h
  simp only [e] at h1
  have hp : blockPadding false 80 79 = 0 := by decide
  rw [hp] at h1
  refine ⟨h1, ?_, ?_⟩
  · have := (h2 ⟨⟨0, 0, 100, 50⟩, fun _ _ => ⟨65535, 0, 0, 65535⟩⟩ 79 19).1
    simpa using this
  · intro cells hcells
    have := (h2 ⟨⟨0, 0, 100, 50⟩, fun _ _ => ⟨65535, 0, 0, 65535⟩⟩ 79 19).2 cells hcells
    refine ⟨by simpa using this, ?_⟩
    intro c hc
    unfold specBlockRows at hcells
    obtain ⟨row, _, rfl⟩ := List.mem_map.mp hcells
    obtain ⟨col, _, rfl⟩ := List.mem_map.mp hc
    show renderCell ⟨65535, 0, 0, 65535⟩ ⟨65535, 0, 0, 65535⟩ = _
    decide

/-! ## Fit shape lemmas -/

theorem f2i_f64_eq (x : ℚ) (n : ℤ) (hx : 0 ≤ x) (h1 : (n : ℚ) ≤ x * (1 - 1 * eps))
    (h2 : x * (1 + 1 * eps) < n + 1) : f2i (f64 x) = n := by
  have hb := (near_f64 x).bounds hx
  have h0 := f64_nonneg hx
  simp only [f2i, if_pos h0]
  rw [Int.floor_eq_iff]
  constructor <;> linarith [hb.1, hb.2]

theorem fmul_two_pos (w h : ℤ) (hw : 0 < w) (hh : 0 < h) : 0 < fmul (imgAspect w h) 2 := by
  have hapos := imgAspect_pos w h hw hh
  have hx : 0 < imgAspect w h * 2 := by positivity
  exact (near_f64 _).pos hx (by norm_num) (by norm_num)

/-- The height of the fit by width does not decrease with the terminal width. -/
theorem width_first_mono (c₁ c₂ w h : ℤ) (hw : 0 < w) (hh : 0 < h) (h1 : 1 ≤ c₁)
    (h12 : c₁ ≤ c₂) :
    f2i (fdiv (ofInt (c₁ - 1)) (fmul (imgAspect w h) 2))
      ≤ f2i (fdiv (ofInt (c₂ - 1)) (fmul (imgAspect w h) 2)) := by
  have hB := fmul_two_pos w h hw hh
  have hc0 : (0 : ℚ) ≤ ((c₁ - 1 : ℤ) : ℚ) := by
    have : (0 : ℤ) ≤ c₁ - 1 := by omega
    exact_mod_cast this
  have hle : ((c₁ - 1 : ℤ) : ℚ) ≤ ((c₂ - 1 : ℤ) : ℚ) := by
    have : c₁ - 1 ≤ c₂ - 1 := by omega
    exact_mod_cast this
  have ho : ofInt (c₁ - 1) ≤ ofInt (c₂ - 1) := f64_mono hc0 hle
  have ho0 : 0 ≤ ofInt (c₁ - 1) := f64_nonneg hc0
  have hd : ofInt (c₁ - 1) / fmul (imgAspect w h) 2 ≤ ofInt (c₂ - 1) / fmul (imgAspect w h) 2 :=
    div_le_div_of_nonneg_right ho hB.le
  have hd0 : 0 ≤ ofInt (c₁ - 1) / fmul (imgAspect w h) 2 := div_nonneg ho0 hB.le
  exact f2i_mono (f64_nonneg hd0) (f64_mono hd0 hd)

theorem imgAspect_3_4 : imgAspect 3 4 = 3 / 4 := by
  have h1 : ofInt 3 = 3 := by simpa using ofInt_eq 3 (by norm_num)
  have h2 : ofInt 4 = 4 := by simpa using ofInt_eq 4 (by norm_num)
  unfold imgAspect fdiv
  rw [h1, h2, f64_eq_of (3 / 4) (-1) (3 * 2 ^ 51) (by norm_num [abs_of_pos])
    (by norm_num [abs_of_pos]) (by norm_num [abs_of_pos])]
  norm_num

theorem fmul_3_4_2 : fmul (3 / 4) 2 = 3 / 2 := by
  unfold fmul
  rw [f64_eq_of (3 / 4 * 2) 0 (3 * 2 ^ 51) (by norm_num [abs_of_pos])
    (by norm_num [abs_of_pos]) (by norm_num [abs_of_pos])]
  norm_num

theorem blockFit_17_12_3_4 : blockFit 17 12 3 4 = (16, 10) := by
  have h1 : ofInt (17 - 1) = 16 := by simpa using ofInt_eq 16 (by norm_num)
  have h2 : f2i (fdiv 16 (3 / 2)) = 10 := by
    unfold fdiv
    apply f2i_f64_eq _ _ (by norm_num) <;> · unfold eps; norm_num
  unfold blockFit
  simp only
  rw [imgAspect_3_4, fmul_3_4_2, h1, h2]
  norm_num

theorem blockFit_18_12_3_4 : blockFit 18 12 3 4 = (15, 10) := by
  have h1 : ofInt (18 - 1) = 17 := by simpa using ofInt_eq 17 (by norm_num)
  have h2 : f2i (fdiv 17 (3 / 2)) = 11 := by
    unfold fdiv
    apply f2i_f64_eq _ _ (by norm_num) <;> · unfold eps; norm_num
  have h3 : ofInt (12 - 2) = 10 := by simpa using ofInt_eq 10 (by norm_num)
  have h4 : fmul 10 (3 / 4) = 15 / 2 := by
    unfold fmul
    rw [f64_eq_of (10 * (3 / 4)) 2 (15 * 2 ^ 49) (by norm_num [abs_of_pos])
      (by norm_num [abs_of_pos]) (by norm_num [abs_of_pos])]
    norm_num
  have h5 : fmul (15 / 2) 2 = 15 := by
    unfold fmul
    have : (15 / 2 : ℚ) * 2 = ((15 : ℤ) : ℚ) := by norm_num
    rw [this, f64_intCast 15 (by norm_num)]
    norm_num
  have h6 : f2i 15 = 15 := by
    simp only [f2i]
    norm_num
  unfold blockFit
  simp only
  rw [imgAspect_3_4, fmul_3_4_2, h1, h2, h3, h4, h5, h6]
  norm_num

/-- The block fit touches one budget and is within tolerance of the exact
aspect-preserving size on the other axis. -/
theorem block_fit_cases (c r w h : ℤ) (hw : 0 < w) (hh : 0 < h) (hc : 1 ≤ c)
    (hc' : c ≤ 65535) (hr : 2 ≤ r) (hr' : r ≤ 65535) :
    ((blockFit c r w h).1 = c - 1 ∧ (blockFit c r w h).2 ≤ r - 2
        ∧ |((blockFit c r w h).2 : ℚ) - ((c - 1 : ℤ) : ℚ) * h / (2 * w)| < 1 + 1 / 2 ^ 30)
      ∨ ((blockFit c r w h).2 = r - 2 ∧ (blockFit c r w h).1 ≤ c - 1
        ∧ |((blockFit c r w h).1 : ℚ) - ((r - 2 : ℤ) : ℚ) * 2 * w / h| < 1 + 1 / 2 ^ 30) := by
  have hapos := imgAspect_pos w h hw hh
  have hraw := blockFit_le c r w h hw hh hc hc' hr'
  have hA : ofInt (c - 1) = ((c - 1 : ℤ) : ℚ) :=
    ofInt_eq _ (abs_lt_two_pow_53 _ (by omega) (by omega))
  have hM : ofInt (r - 2) = ((r - 2 : ℤ) : ℚ) :=
    ofInt_eq _ (abs_lt_two_pow_53 _ (by omega) (by omega))
  by_cases hover : r - 2 < f2i (fdiv (ofInt (c - 1)) (fmul (imgAspect w h) 2))
  · have hfit : blockFit c r w h
        = (f2i (fmul (fmul (ofInt (r - 2)) (imgAspect w h)) 2), r - 2) := by
      unfold blockFit
      exact if_pos hover
    have hTle : f2i (fmul (fmul (ofInt (r - 2)) (imgAspect w h)) 2) ≤ c - 1 := by
      have := hraw.1
      rw [hfit] at this
      exact this
    right
    rw [hfit]
    refine ⟨rfl, hTle, ?_⟩
    have hM0 : (0 : ℚ) ≤ ((r - 2 : ℤ) : ℚ) := by
      have : (0 : ℤ) ≤ r - 2 := by omega
      exact_mod_cast this
    have hT0 : 0 ≤ fmul (fmul (ofInt (r - 2)) (imgAspect w h)) 2 := by
      rw [hM]
      exact f64_nonneg (mul_nonneg (f64_nonneg (mul_nonneg hM0 hapos.le)) (by norm_num))
    have hTb : |fmul (fmul (ofInt (r - 2)) (imgAspect w h)) 2| ≤ 2 ^ 19 := by
      rw [abs_of_nonneg hT0]
      have h1 := lt_f2i_add_one hT0
      have h2 : (f2i (fmul (fmul (ofInt (r - 2)) (imgAspect w h)) 2) : ℚ) ≤ 65534 := by
        have : f2i (fmul (fmul (ofInt (r - 2)) (imgAspect w h)) 2) ≤ 65534 := by omega
        exact_mod_cast this
      norm_num
      linarith
    exact trunc_close (by norm_num) (by norm_num)
      (block_heightFirst_near r w h hh (by omega) hr') hTb
  · have hfit : blockFit c r w h
        = (c - 1, f2i (fdiv (ofInt (c - 1)) (fmul (imgAspect w h) 2))) := by
      unfold blockFit
      exact if_neg hover
    have hVle : f2i (fdiv (ofInt (c - 1)) (fmul (imgAspect w h) 2)) ≤ r - 2 :=
      not_lt.mp hover
    left
    rw [hfit]
    refine ⟨rfl, hVle, ?_⟩
    have hB0 := fmul_two_pos w h hw hh
    have hA0 : (0 : ℚ) ≤ ((c - 1 : ℤ) : ℚ) := by
      have : (0 : ℤ) ≤ c - 1 := by omega
      exact_mod_cast this
    have hV0 : 0 ≤ fdiv (ofInt (c - 1)) (fmul (imgAspect w h) 2) := by
      rw [hA]
      exact f64_nonneg (div_nonneg hA0 hB0.le)
    have hVb : |fdiv (ofInt (c - 1)) (fmul (imgAspect w h) 2)| ≤ 2 ^ 19 := by
      rw [abs_of_nonneg hV0]
      have h1 := lt_f2i_add_one hV0
      have h2 : (f2i (fdiv (ofInt (c - 1)) (fmul (imgAspect w h) 2)) : ℚ) ≤ 65533 := by
        have : f2i (fdiv (ofInt (c - 1)) (fmul (imgAspect w h) 2)) ≤ 65533 := by omega
        exact_mod_cast this
      norm_num
      linarith
    exact trunc_close (by norm_num) (by norm_num) (block_widthFirst_near c w h hw hh hc hc') hVb

/-- The sixel fit, for budgets of at least 1, touches one budget and is within
tolerance of the exact aspect-preserving size on the other axis. -/
theorem sixel_fit_cases (c r w h : ℤ) (hw : 0 < w) (hh : 0 < h) (hc : 2 ≤ c)
    (hc' : c ≤ 65535) (hr : 5 ≤ r) (hr' : r ≤ 65535) :
    ((sixelFit c r w h).1 = (c - 1) * 8 ∧ (sixelFit c r w h).2 ≤ (r - 4) * 6
        ∧ |((sixelFit c r w h).2 : ℚ) - (((c - 1) * 8 : ℤ) : ℚ) * h / w| < 1 + 1 / 2 ^ 30)
      ∨ ((sixelFit c r w h).2 = (r - 4) * 6 ∧ (sixelFit c r w h).1 ≤ (c - 1) * 8
        ∧ |((sixelFit c r w h).1 : ℚ) - (((r - 4) * 6 : ℤ) : ℚ) * w / h| < 1 + 1 / 2 ^ 30) := by
  have hwq : (0 : ℚ) < w := by exact_mod_cast hw
  have hhq : (0 : ℚ) < h := by exact_mod_cast hh
  have hapos := imgAspect_pos w h hw hh
  have hraw := sixelFitRaw_le c r w h hw hh (by omega) hc' hr'
  have hA : ofInt ((c - 1) * 8) = (((c - 1) * 8 : ℤ) : ℚ) :=
    ofInt_eq _ (abs_lt_two_pow_53 _ (by omega) (by omega))
  have hM : ofInt ((r - 4) * 6) = (((r - 4) * 6 : ℤ) : ℚ) :=
    ofInt_eq _ (abs_lt_two_pow_53 _ (by omega) (by omega))
  by_cases hover : (r - 4) * 6 < f2i (fdiv (ofInt ((c - 1) * 8)) (imgAspect w h))
  · have hfit : sixelFitRaw c r w h
        = (f2i (fmul (ofInt ((r - 4) * 6)) (imgAspect w h)), (r - 4) * 6) := by
      unfold sixelFitRaw
      exact if_pos hover
    have hTle : f2i (fmul (ofInt ((r - 4) * 6)) (imgAspect w h)) ≤ (c - 1) * 8 := by
      have := hraw.1
      rw [hfit] at this
      exact this
    have hfit2 : sixelFit c r w h
        = (if f2i (fmul (ofInt ((r - 4) * 6)) (imgAspect w h)) < 1 then 1
            else f2i (fmul (ofInt ((r - 4) * 6)) (imgAspect w h)), (r - 4) * 6) := by
      unfold sixelFit
      simp only
      rw [hfit]
      simp only
      rw [if_neg (by omega : ¬ (r - 4) * 6 < 1)]
    right
    rw [hfit2]
    refine ⟨rfl, by simp only; split_ifs <;> omega, ?_⟩
    have hM1 : (1 : ℚ) ≤ (((r - 4) * 6 : ℤ) : ℚ) := by
      have : (1 : ℤ) ≤ (r - 4) * 6 := by omega
      exact_mod_cast this
    have hT0 : 0 ≤ fmul (ofInt ((r - 4) * 6)) (imgAspect w h) := by
      rw [hM]
      exact f64_nonneg (mul_nonneg (by linarith) hapos.le)
    have hTb : |fmul (ofInt ((r - 4) * 6)) (imgAspect w h)| ≤ 2 ^ 19 := by
      rw [abs_of_nonneg hT0]
      have h1 := lt_f2i_add_one hT0
      have h2 : (f2i (fmul (ofInt ((r - 4) * 6)) (imgAspect w h)) : ℚ) ≤ 524272 := by
        have : f2i (fmul (ofInt ((r - 4) * 6)) (imgAspect w h)) ≤ 524272 := by omega
        exact_mod_cast this
      norm_num
      linarith
    have hx : (0 : ℚ) < (((r - 4) * 6 : ℤ) : ℚ) * w / h := by
      have : (0 : ℚ) < (((r - 4) * 6 : ℤ) : ℚ) := by linarith
      positivity
    exact clamp_close (by norm_num) (by norm_num) hx
      (sixel_heightFirst_near r w h hh (by omega) hr') hTb
  · have hfit : sixelFitRaw c r w h
        = ((c - 1) * 8, f2i (fdiv (ofInt ((c - 1) * 8)) (imgAspect w h))) := by
      unfold sixelFitRaw
      exact if_neg hover
    have hVle : f2i (fdiv (ofInt ((c - 1) * 8)) (imgAspect w h)) ≤ (r - 4) * 6 :=
      not_lt.mp hover
    have hfit2 : sixelFit c r w h
        = ((c - 1) * 8, if f2i (fdiv (ofInt ((c - 1) * 8)) (imgAspect w h)) < 1 then 1
            else f2i (fdiv (ofInt ((c - 1) * 8)) (imgAspect w h))) := by
      unfold sixelFit
      simp only
      rw [hfit]
      simp only
      rw [if_neg (by omega : ¬ (c - 1) * 8 < 1)]
    left
    rw [hfit2]
    refine ⟨rfl, by simp only; split_ifs <;> omega, ?_⟩
    have hA0 : (0 : ℚ) < (((c - 1) * 8 : ℤ) : ℚ) := by
      have : (0 : ℤ) < (c - 1) * 8 := by omega
      exact_mod_cast this
    have hV0 : 0 ≤ fdiv (ofInt ((c - 1) * 8)) (imgAspect w h) := by
      rw [hA]
      exact f64_nonneg (div_nonneg hA0.le hapos.le)
    have hVb : |fdiv (ofInt ((c - 1) * 8)) (imgAspect w h)| ≤ 2 ^ 19 := by
      rw [abs_of_nonneg hV0]
      have h1 := lt_f2i_add_one hV0
      have h2 : (f2i (fdiv (ofInt ((c - 1) * 8)) (imgAspect w h)) : ℚ) ≤ 393186 := by
        have : f2i (fdiv (ofInt ((c - 1) * 8)) (imgAspect w h)) ≤ 393186 := by omega
        exact_mod_cast this
      norm_num
      linarith
    have hx : (0 : ℚ) < (((c - 1) * 8 : ℤ) : ℚ) * h / w := by positivity
    exact clamp_close (by norm_num) (by norm_num) hx
      (sixel_widthFirst_near c w h hw hh (by omega) hc') hVb

/-- A box with the exact aspect ratio inside the budget is, on each axis, less
than `1 + 2^-30` larger than a fit that touches one budget and is within
`1 + 2^-30` of the exact size on the other axis. Here `a / b` is the exact
width-to-height ratio of the box. -/
theorem maximal_of_cases {a b mw mh : ℚ} {tw th : ℤ} (ha : 0 < a) (hb : 0 < b)
    (hcases : ((tw : ℚ) = mw ∧ |(th : ℚ) - mw * b / a| < 1 + 1 / 2 ^ 30)
      ∨ ((th : ℚ) = mh ∧ |(tw : ℚ) - mh * a / b| < 1 + 1 / 2 ^ 30))
    (x y : ℚ) (hx : x ≤ mw) (hy : y ≤ mh) (hxy : x * b = y * a) :
    x < tw + 1 + 1 / 2 ^ 30 ∧ y < th + 1 + 1 / 2 ^ 30 := by
  have hyx : y = x * b / a := by
    field_simp
    linarith
  have hxy' : x = y * a / b := by
    field_simp
    linarith
  rcases hcases with ⟨h1, h2⟩ | ⟨h1, h2⟩
  · rw [abs_lt] at h2
    have hle : x * b / a ≤ mw * b / a := by
      apply div_le_div_of_nonneg_right _ ha.le
      exact mul_le_mul_of_nonneg_right hx hb.le
    constructor
    · rw [h1]
      linarith
    · rw [hyx]
      linarith [h2.1]
  · rw [abs_lt] at h2
    have hle : y * a / b ≤ mh * a / b := by
      apply div_le_div_of_nonneg_right _ hb.le
      exact mul_le_mul_of_nonneg_right hy ha.le
    constructor
    · rw [hxy']
      linarith [h2.1]
    · rw [h1]
      linarith

theorem block_width_first_17_3_4 :
    f2i (fdiv (ofInt (17 - 1)) (fmul (imgAspect 3 4) 2)) = 10 := by
  have h1 : ofInt (17 - 1) = 16 := by simpa using ofInt_eq 16 (by norm_num)
  rw [imgAspect_3_4, fmul_3_4_2, h1]
  unfold fdiv
  apply f2i_f64_eq _ _ (by norm_num) <;> · unfold eps; norm_num

theorem block_width_first_18_3_4 :
    f2i (fdiv (ofInt (18 - 1)) (fmul (imgAspect 3 4) 2)) = 11 := by
  have h1 : ofInt (18 - 1) = 17 := by simpa using ofInt_eq 17 (by norm_num)
  rw [imgAspect_3_4, fmul_3_4_2, h1]
  unfold fdiv
  apply f2i_f64_eq _ _ (by norm_num) <;> · unfold eps; norm_num

/-- C17: the fit is the largest aspect-preserving one, up to truncation. For 2
or more columns the final fit touches the budget on at least one axis, for every
image size: in block mode with 3 or more rows `charWidth = columns - 1` or
`charHeight = rows - 2`, in sixel mode with 5 or more rows
`targetWidth = (columns - 1) * 8` or `targetHeight = (rows - 4) * 6`. Moreover,
for every image with positive sides `w`, `h` of at most `2^32` and at most 65535
columns and rows, in each mode: every conversion of the fit stays inside `int`;
the fit touches the budget on one axis, stays inside it on the other and is
there within `1 + 2^-30` of the exact aspect-preserving size (block:
`charWidth = columns - 1` with `charHeight` next to `(columns - 1) * h / (2 * w)`,
or `charHeight = rows - 2` with `charWidth` next to `(rows - 2) * 2 * w / h`;
sixel likewise with the budgets `(columns - 1) * 8`, `(rows - 4) * 6` and the
ratio `w / h`); and every box inside the budget that has the exact aspect ratio
is on each axis less than `1 + 2^-30` larger than the fit. -/
theorem fit_touches_budget (columns rows w h : ℤ) (hc : 2 ≤ columns) :
    (3 ≤ rows →
      ((blockFit columns rows w h).1 = columns - 1
        ∨ (blockFit columns rows w h).2 = rows - 2))
    ∧ (5 ≤ rows →
      ((sixelFit columns rows w h).1 = (columns - 1) * 8
        ∨ (sixelFit columns rows w h).2 = (rows - 4) * 6))
    ∧ (0 < w → w ≤ 2 ^ 32 → 0 < h → h ≤ 2 ^ 32 → columns ≤ 65535 → rows ≤ 65535 →
      (3 ≤ rows →
        blockFitInRange columns rows w h
        ∧ (((blockFit columns rows w h).1 = columns - 1
              ∧ (blockFit columns rows w h).2 ≤ rows - 2
              ∧ |((blockFit columns rows w h).2 : ℚ)
                    - ((columns - 1 : ℤ) : ℚ) * h / (2 * w)| < 1 + 1 / 2 ^ 30)
            ∨ ((blockFit columns rows w h).2 = rows - 2
              ∧ (blockFit columns rows w h).1 ≤ columns - 1
              ∧ |((blockFit columns rows w h).1 : ℚ)
                    - ((rows - 2 : ℤ) : ℚ) * 2 * w / h| < 1 + 1 / 2 ^ 30))
        ∧ ∀ x y : ℚ, x ≤ ((columns - 1 : ℤ) : ℚ) → y ≤ ((rows - 2 : ℤ) : ℚ) →
            x * h = y * (2 * w) →
            x < (blockFit columns rows w h).1 + 1 + 1 / 2 ^ 30
              ∧ y < (blockFit columns rows w h).2 + 1 + 1 / 2 ^ 30)
      ∧ (5 ≤ rows →
        sixelFitInRange columns rows w h
        ∧ (((sixelFit columns rows w h).1 = (columns - 1) * 8
              ∧ (sixelFit columns rows w h).2 ≤ (rows - 4) * 6
              ∧ |((sixelFit columns rows w h).2 : ℚ)
                    - (((columns - 1) * 8 : ℤ) : ℚ) * h / w| < 1 + 1 / 2 ^ 30)
            ∨ ((sixelFit columns rows w h).2 = (rows - 4) * 6
              ∧ (sixelFit columns rows w h).1 ≤ (columns - 1) * 8
              ∧ |((sixelFit columns rows w h).1 : ℚ)
                    - (((rows - 4) * 6 : ℤ) : ℚ) * w / h| < 1 + 1 / 2 ^ 30))
        ∧ ∀ x y : ℚ, x ≤ (((columns - 1) * 8 : ℤ) : ℚ) → y ≤ (((rows - 4) * 6 : ℤ) : ℚ) →
            x * h = y * w →
            x < (sixelFit columns rows w h).1 + 1 + 1 / 2 ^ 30
              ∧ y < (sixelFit columns rows w h).2 + 1 + 1 / 2 ^ 30)) := by
  refine ⟨?_, ?_, ?_⟩
  · intro _
    unfold blockFit
    simp only
    split_ifs
    · exact Or.inr rfl
    · exact Or.inl rfl
  · intro hr
    unfold sixelFit sixelFitRaw
    simp only
    split_ifs <;> dsimp only at * <;> omega
  · intro hw hw' hh hh' hc' hr'
    have hwq : (0 : ℚ) < w := by exact_mod_cast hw
    have hhq : (0 : ℚ) < h := by exact_mod_cast hh
    constructor
    · intro hr
      have hcases := block_fit_cases columns rows w h hw hh (by omega) hc' (by omega) hr'
      refine ⟨blockFit_inRange columns rows w h hw hw' hh hh' (by omega) hc' (by omega) hr',
        hcases, ?_⟩
      intro x y hx hy hxy
      have e : ((rows - 2 : ℤ) : ℚ) * 2 * w / h = ((rows - 2 : ℤ) : ℚ) * (2 * w) / h := by
        ring
      refine maximal_of_cases (by positivity : (0 : ℚ) < 2 * w) hhq ?_ x y hx hy hxy
      rcases hcases with ⟨h1, _, h3⟩ | ⟨h1, _, h3⟩
      · exact Or.inl ⟨by exact_mod_cast h1, h3⟩
      · exact Or.inr ⟨by exact_mod_cast h1, by rw [← e]; exact h3⟩
    · intro hr
      have hcases := sixel_fit_cases columns rows w h hw hh hc hc' hr hr'
      refine ⟨sixelFit_inRange columns rows w h hw hw' hh hh' (by omega) hc' (by omega) hr',
        hcases, ?_⟩
      intro x y hx hy hxy
      refine maximal_of_cases hwq hhq ?_ x y hx hy hxy
      rcases hcases with ⟨h1, _, h3⟩ | ⟨h1, _, h3⟩
      · exact Or.inl ⟨by exact_mod_cast h1, h3⟩
      · exact Or.inr ⟨by exact_mod_cast h1, h3⟩

theorem fit_touches_budget_witness :
    ((blockFit 80 24 100 50).1 = 80 - 1 ∨ (blockFit 80 24 100 50).2 = 24 - 2)
    ∧ ((sixelFit 80 24 100 50).1 = (80 - 1) * 8 ∨ (sixelFit 80 24 100 50).2 = (24 - 4) * 6)
    ∧ (blockFitInRange 80 24 100 50
      ∧ (((blockFit 80 24 100 50).1 = 80 - 1
            ∧ (blockFit 80 24 100 50).2 ≤ 24 - 2
            ∧ |((blockFit 80 24 100 50).2 : ℚ)
                  - ((80 - 1 : ℤ) : ℚ) * (50 : ℤ) / (2 * (100 : ℤ))| < 1 + 1 / 2 ^ 30)
          ∨ ((blockFit 80 24 100 50).2 = 24 - 2
            ∧ (blockFit 80 24 100 50).1 ≤ 80 - 1
            ∧ |((blockFit 80 24 100 50).1 : ℚ)
                  - ((24 - 2 : ℤ) : ℚ) * 2 * (100 : ℤ) / (50 : ℤ)| < 1 + 1 / 2 ^ 30))
      ∧ ∀ x y : ℚ, x ≤ ((80 - 1 : ℤ) : ℚ) → y ≤ ((24 - 2 : ℤ) : ℚ) →
          x * (50 : ℤ) = y * (2 * (100 : ℤ)) →
          x < (blockFit 80 24 100 50).1 + 1 + 1 / 2 ^ 30
            ∧ y < (blockFit 80 24 100 50).2 + 1 + 1 / 2 ^ 30)
    ∧ (sixelFitInRange 80 24 100 50
      ∧ (((sixelFit 80 24 100 50).1 = (80 - 1) * 8
            ∧ (sixelFit 80 24 100 50).2 ≤ (24 - 4) * 6
            ∧ |((sixelFit 80 24 100 50).2 : ℚ)
                  - (((80 - 1) * 8 : ℤ) : ℚ) * (50 : ℤ) / (100 : ℤ)| < 1 + 1 / 2 ^ 30)
          ∨ ((sixelFit 80 24 100 50).2 = (24 - 4) * 6
            ∧ (sixelFit 80 24 100 50).1 ≤ (80 - 1) * 8
            ∧ |((sixelFit 80 24 100 50).1 : ℚ)
                  - (((24 - 4) * 6 : ℤ) : ℚ) * (100 : ℤ) / (50 : ℤ)| < 1 + 1 / 2 ^ 30))
      ∧ ∀ x y : ℚ, x ≤ (((80 - 1) * 8 : ℤ) : ℚ) → y ≤ (((24 - 4) * 6 : ℤ) : ℚ) →
          x * (50 : ℤ) = y * (100 : ℤ) →
          x < (sixelFit 80 24 100 50).1 + 1 + 1 / 2 ^ 30
            ∧ y < (sixelFit 80 24 100 50).2 + 1 + 1 / 2 ^ 30) :=
  have h := fit_touches_budget 80 24 100 50 (by decide)
  have hs := h.2.2 (by decide) (by decide) (by decide) (by decide) (by decide) (by decide)
  ⟨h.1 (by decide), h.2.1 (by decide), hs.1 (by decide), hs.2 (by decide)⟩

/-- C19 (counterexample): for a 3x4 image and 12 rows, 17 columns give a fit of
16x10 cells and 18 columns a fit of 15x10 cells: the wider terminal gets the
narrower image. -/
theorem blockFit_width_not_monotone :
    ¬ ((blockFit 17 12 3 4).1 ≤ (blockFit 18 12 3 4).1
      ∧ (blockFit 17 12 3 4).2 ≤ (blockFit 18 12 3 4).2) := by
  rw [blockFit_17_12_3_4, blockFit_18_12_3_4]
  decide

/-- C19 (amended): for every image with positive sides of at most `2^32`, every
number of rows from 1 to 65535 and all `1 ≤ columns₁ ≤ columns₂ ≤ 65535`, every
conversion and integer operation of both fits stays inside `int` and the fitted
`charHeight` does not decrease; the fitted `charWidth` does not decrease when the
fit for `columns₂` is by width (its height does not overflow), and when the fit
for `columns₁` is already by height the two fits are equal. The width can drop
only where the fit changes from by width to by height. -/
theorem blockFit_mono (rows imgWidth imgHeight columns₁ columns₂ : ℤ)
    (hw : 0 < imgWidth) (hw' : imgWidth ≤ 2 ^ 32) (hh : 0 < imgHeight)
    (hh' : imgHeight ≤ 2 ^ 32) (hr : 1 ≤ rows) (hr' : rows ≤ 65535) (h1 : 1 ≤ columns₁)
    (h12 : columns₁ ≤ columns₂) (h2 : columns₂ ≤ 65535) :
    blockFitInRange columns₁ rows imgWidth imgHeight
    ∧ blockFitInRange columns₂ rows imgWidth imgHeight
    ∧ (blockFit columns₁ rows imgWidth imgHeight).2
        ≤ (blockFit columns₂ rows imgWidth imgHeight).2
    ∧ (¬ (rows - 2
          < f2i (fdiv (ofInt (columns₂ - 1)) (fmul (imgAspect imgWidth imgHeight) 2))) →
        (blockFit columns₁ rows imgWidth imgHeight).1
          ≤ (blockFit columns₂ rows imgWidth imgHeight).1)
    ∧ (rows - 2
          < f2i (fdiv (ofInt (columns₁ - 1)) (fmul (imgAspect imgWidth imgHeight) 2)) →
        blockFit columns₁ rows imgWidth imgHeight
          = blockFit columns₂ rows imgWidth imgHeight) := by
  have hm := width_first_mono columns₁ columns₂ imgWidth imgHeight hw hh h1 h12
  refine ⟨blockFit_inRange columns₁ rows imgWidth imgHeight hw hw' hh hh' h1 (by omega) hr hr',
    blockFit_inRange columns₂ rows imgWidth imgHeight hw hw' hh hh' (by omega) h2 hr hr', ?_⟩
  unfold blockFit
  simp only
  refine ⟨?_, ?_, ?_⟩
  · split_ifs <;> simp only <;> omega
  · intro h2
    rw [if_neg h2, if_neg (by omega)]
    simp only
    omega
  · intro ho
    rw [if_pos ho, if_pos (by omega)]

theorem blockFit_mono_witness :
    ((blockFit 16 12 3 4).2 ≤ (blockFit 17 12 3 4).2
      ∧ ¬ ((12 : ℤ) - 2 < f2i (fdiv (ofInt (17 - 1)) (fmul (imgAspect 3 4) 2)))
      ∧ (blockFit 16 12 3 4).1 ≤ (blockFit 17 12 3 4).1)
    ∧ ((blockFit 18 12 3 4).2 ≤ (blockFit 19 12 3 4).2
      ∧ (12 : ℤ) - 2 < f2i (fdiv (ofInt (18 - 1)) (fmul (imgAspect 3 4) 2))
      ∧ blockFit 18 12 3 4 = blockFit 19 12 3 4) :=
  have hfits : ¬ ((12 : ℤ) - 2 < f2i (fdiv (ofInt (17 - 1)) (fmul (imgAspect 3 4) 2))) := by
    rw [block_width_first_17_3_4]
    decide
  have hover : (12 : ℤ) - 2 < f2i (fdiv (ofInt (18 - 1)) (fmul (imgAspect 3 4) 2)) := by
    rw [block_width_first_18_3_4]
    decide
  have ha := blockFit_mono 12 3 4 16 17 (by decide) (by decide) (by decide) (by decide)
    (by decide) (by decide) (by decide) (by decide) (by decide)
  have hb := blockFit_mono 12 3 4 18 19 (by decide) (by decide) (by decide) (by decide)
    (by decide) (by decide) (by decide) (by decide) (by decide)
  ⟨⟨ha.2.2.1, hfits, ha.2.2.2.1 hfits⟩, ⟨hb.2.2.1, hover, hb.2.2.2.2 hover⟩⟩

end Crt
